import Mathlib

/-!
# Shallow embedding of `lib/tree_sequence_builder.c` (tsinfer)

This file embeds the tree-sequence-builder core of the tsinfer C library and
proves properties of it.  The translation conventions are:

* C heap pointers to `indexed_edge_t` become natural-number ids into an
  association-list heap (`EdgeHeap`); freeing an edge deletes its heap entry,
  and ids are never reused (a fresh-id counter `next_id` mirrors the object
  heap's allocation).
* The three AVL trees `left_index`, `right_index`, `path_index` are embedded
  as lists of edge ids.  AVL insertion becomes consing the id, AVL
  search-and-unlink becomes erasing the id.  The claims proved here concern
  the member multisets of the indexes, not their iteration order.
* `double` times become rationals.  The only time arithmetic performed by the
  code (`min`, subtracting the power-of-two `PC_ANCESTOR_INCREMENT`) is exact
  in double precision for the intended magnitudes, which is the stated reason
  the increment is a power of two.
* Every operation returns `Except (TsiErr × State) ...`: a C error return (or
  a failed runtime `assert`, modelled as the pseudo-code `TsiErr.abort`)
  carries the state the builder was left in.  The debug-only checks
  (`check_state`, `check_index_integrity`, the asserts in `add_mutation` and
  `make_pc_node`'s per-entry child assert) are pure observers compiled in
  debug builds only and are not modelled; the asserts that guard real memory
  operations (`alloc_edge`'s bounds/time asserts, `squash_edges`'s non-empty
  path assert, `unindex_edge`'s found-in-index asserts) are modelled as
  `.abort` outcomes.
* `tsk_id_t` is a signed 32-bit id; it is embedded as `Int` (no arithmetic
  that could overflow 32 bits is performed on ids).  Out-of-range array reads
  (undefined behaviour in C) read a default value in the model; theorems
  about such calls carry the hypotheses that exclude them.
-/

/-- Edge record, `edge_t` from tsinfer.h: genomic interval
`[left, right)` asserting that `child` inherits from `parent`. -/
structure edge_t where
  left : Int
  right : Int
  parent : Int
  child : Int
deriving DecidableEq, Repr

instance : Inhabited edge_t := ⟨⟨0, 0, 0, 0⟩⟩

/-- `indexed_edge_t`: an edge augmented with the child's time, cached at
allocation.  The C `next` chain pointer is represented by the position of the
edge's id in the owning path list instead. -/
structure indexed_edge_t where
  edge : edge_t
  time : ℚ
deriving DecidableEq, Repr

instance : Inhabited indexed_edge_t := ⟨⟨default, 0⟩⟩

/-- Modelled from the spec: the sentinel child value `NULL_NODE` (defined in
the missing header `tsinfer.h`), used to mark an edge as temporarily
unindexed.  Any negative value distinct from real node ids works; tsinfer
uses -1. -/
def NULL_NODE : Int := -1

/-- Time increment between path compression ancestors and their parents,
`PC_ANCESTOR_INCREMENT` = 1.0 / 65536 in `tree_sequence_builder.c`. -/
def PC_ANCESTOR_INCREMENT : ℚ := 1 / 65536

/-- Modelled from the spec: the `TSI_NODE_IS_PC_ANCESTOR` node flag bit from
the missing header `tsinfer.h`; the concrete bit position is not observable,
so bit 0 is used. -/
def TSI_NODE_IS_PC_ANCESTOR : Nat := 1

/-- Modelled from the spec: the error codes of the missing header `err.h`,
represented symbolically.  `.abort` is not a C error code: it models a failed
runtime `assert` (process abort) or an out-of-bounds/NULL dereference. -/
inductive TsiErr where
  | generic
  | noMemory
  | badPathParent
  | badPathTime
  | noncontiguousEdges
  | unsortedEdges
  | assertionFailure
  | abort
deriving DecidableEq, Repr

/-- Modelled from the spec: the `TSI_COMPRESS_PATH` and `TSI_EXTENDED_CHECKS`
flag bits accepted by `add_path` (values live in the missing header
`tsinfer.h`), modelled as two booleans. -/
structure AddPathFlags where
  compress : Bool
  extendedChecks : Bool
deriving DecidableEq, Repr

/-- The edge arena: association list from edge id to edge payload. -/
abbrev EdgeHeap := List (Nat × indexed_edge_t)

/-- Look an edge up in the heap (C pointer dereference).  A dangling id
(undefined behaviour in C) reads the default edge. -/
def heap_get : EdgeHeap → Nat → indexed_edge_t
  | [], _ => default
  | (k, e) :: t, i => if k = i then e else heap_get t i

/-- Overwrite the payload of edge `i` in place (no-op on a dangling id). -/
def heap_set : EdgeHeap → Nat → indexed_edge_t → EdgeHeap
  | [], _, _ => []
  | (k, e) :: t, i, e' => if k = i then (k, e') :: t else (k, e) :: heap_set t i e'

/-- Return edge `i` to the object heap (`tree_sequence_builder_free_edge`). -/
def heap_del : EdgeHeap → Nat → EdgeHeap
  | [], _ => []
  | (k, e) :: t, i => if k = i then t else (k, e) :: heap_del t i

/-- The ids present in the heap. -/
def heap_keys (h : EdgeHeap) : List Nat := h.map Prod.fst

/-- The mutable state of `tree_sequence_builder_t` (the fields the embedded
operations touch; the mutation table, the table-collection handle and the
allocator bookkeeping fields are not needed by any modelled operation).
`num_edges`, `left_index_edges` and `right_index_edges` are the frozen
snapshot written by `freeze_indexes`. -/
structure tree_sequence_builder_t where
  time : List ℚ
  node_flags : List Nat
  path : List (List Nat)
  heap : EdgeHeap
  next_id : Nat
  left_index : List Nat
  right_index : List Nat
  path_index : List Nat
  num_edges : Nat
  left_index_edges : List edge_t
  right_index_edges : List edge_t
deriving DecidableEq, Repr

abbrev TSB := tree_sequence_builder_t

/-- Result type of the embedded operations: errors carry the state the C
builder was left in when the error (or assert failure) happened. -/
abbrev TsiRes (α : Type) := Except (TsiErr × TSB) α

def num_nodes (b : TSB) : Nat := b.time.length

/-- `self->time[i]` (default 0 on an out-of-range read, which is UB in C). -/
def timeOf (b : TSB) (i : Int) : ℚ :=
  if 0 ≤ i then b.time.getD i.toNat 0 else 0

/-- `self->node_flags[i]`. -/
def flagsOf (b : TSB) (i : Int) : Nat :=
  if 0 ≤ i then b.node_flags.getD i.toNat 0 else 0

/-- `self->path[i]`: the chain of edge ids forming node `i`'s path. -/
def pathOf (b : TSB) (i : Int) : List Nat :=
  if 0 ≤ i then b.path.getD i.toNat [] else []

/-- `self->path[i] = chain`. -/
def setPath (b : TSB) (i : Int) (c : List Nat) : TSB :=
  if 0 ≤ i then { b with path := b.path.set i.toNat c } else b

/-- `tree_sequence_builder_add_node`: append a node, returning its id.
Capacity growth (`expand_nodes`) cannot fail in the model, so the
`TSI_ERR_NO_MEMORY` branch is dropped. -/
def tree_sequence_builder_add_node (b : TSB) (t : ℚ) (fl : Nat) : TSB × Int :=
  ({ b with
      time := b.time ++ [t]
      node_flags := b.node_flags ++ [fl]
      path := b.path ++ [[]] },
    (b.time.length : Int))

/-- `tree_sequence_builder_alloc_edge`: allocate a fresh edge.  The three
runtime asserts (`parent < num_nodes`, `child < num_nodes`,
`time[parent] > time[child]`) become `.abort` outcomes; the heap-expansion
failure (`NO_MEMORY`) cannot happen in the model. -/
def tree_sequence_builder_alloc_edge (b : TSB) (l r p c : Int) :
    TsiRes (TSB × Nat) :=
  if p < (num_nodes b : Int) ∧ c < (num_nodes b : Int) ∧ timeOf b c < timeOf b p then
    .ok ({ b with
            heap := b.heap ++ [(b.next_id, ⟨⟨l, r, p, c⟩, timeOf b c⟩)]
            next_id := b.next_id + 1 },
          b.next_id)
  else .error (.abort, b)

/-- `tree_sequence_builder_index_edge`: insert edge `i` into all three
indexes.  AVL node allocation failure (`NO_MEMORY`) cannot happen in the
model. -/
def tree_sequence_builder_index_edge (b : TSB) (i : Nat) : TSB :=
  { b with
      left_index := i :: b.left_index
      right_index := i :: b.right_index
      path_index := i :: b.path_index }

/-- `tree_sequence_builder_unindex_edge`: search each index for edge `i` and
unlink it; the C code asserts the search succeeded, modelled as `.abort`. -/
def tree_sequence_builder_unindex_edge (b : TSB) (i : Nat) : TsiRes TSB :=
  if i ∈ b.left_index then
    let b1 := { b with left_index := b.left_index.erase i }
    if i ∈ b1.right_index then
      let b2 := { b1 with right_index := b1.right_index.erase i }
      if i ∈ b2.path_index then
        .ok { b2 with path_index := b2.path_index.erase i }
      else .error (.abort, b2)
    else .error (.abort, b1)
  else .error (.abort, b)

/-- `tree_sequence_builder_index_edges`: index every edge on `node`'s path. -/
def tree_sequence_builder_index_edges (b : TSB) (node : Int) : TSB :=
  (pathOf b node).foldl tree_sequence_builder_index_edge b

/-- `tree_sequence_builder_find_match`: look up the path index for an edge
with the same `(left, right, parent)` key.  The AVL `avl_search_closest` with
key `(left, right, parent, child = 0)` followed by inspection of the found
node and its two neighbours returns, whenever a matching edge exists, the
matching edge with the smallest child id (the successor of the search key). -/
def tree_sequence_builder_find_match (b : TSB) (q : edge_t) : Option Nat :=
  (b.path_index.filter (fun i =>
      let e := (heap_get b.heap i).edge
      e.left = q.left ∧ e.right = q.right ∧ e.parent = q.parent)).foldl
    (fun acc i =>
      match acc with
      | none => some i
      | some j =>
          if (heap_get b.heap i).edge.child < (heap_get b.heap j).edge.child then
            some i
          else some j)
    none

/-- The merge pass of `tree_sequence_builder_squash_edges`: walk the chain
starting at `prev`; whenever the next edge continues `prev` with the same
parent, extend `prev` to cover it and free it. -/
def squash_chain : EdgeHeap → Nat → List Nat → EdgeHeap × List Nat
  | h, prev, [] => (h, [prev])
  | h, prev, x :: rest =>
      let pe := heap_get h prev
      let xe := heap_get h x
      if pe.edge.right = xe.edge.left ∧ pe.edge.parent = xe.edge.parent then
        let h1 := heap_set h prev ⟨{ pe.edge with right := xe.edge.right }, pe.time⟩
        squash_chain (heap_del h1 x) prev rest
      else
        let r := squash_chain h x rest
        (r.1, prev :: r.2)

/-- `tree_sequence_builder_squash_edges` (non-indexed squash).  The runtime
`assert(prev != NULL)` on an empty path is modelled as `.abort`. -/
def tree_sequence_builder_squash_edges (b : TSB) (node : Int) : TsiRes TSB :=
  match pathOf b node with
  | [] => .error (.abort, b)
  | p :: rest =>
      let r := squash_chain b.heap p rest
      .ok (setPath { b with heap := r.1 } node r.2)

/-- The merge pass of `tree_sequence_builder_squash_indexed_edges`: same merge
rule, but an edge that is still indexed (`child ≠ NULL_NODE`) must be
unindexed (and, for the surviving `prev`, marked with `child = NULL_NODE`)
before it is modified. -/
def squash_indexed_chain (b : TSB) (node : Int) : Nat → List Nat → TsiRes (TSB × List Nat)
  | prev, [] => .ok (b, [prev])
  | prev, x :: rest =>
      let pe := heap_get b.heap prev
      let xe := heap_get b.heap x
      if pe.edge.right = xe.edge.left ∧ pe.edge.parent = xe.edge.parent then
        match (if pe.edge.child ≠ NULL_NODE then
            Except.map (fun bu => { bu with
                heap := heap_set bu.heap prev ⟨{ pe.edge with child := NULL_NODE }, pe.time⟩ })
              (tree_sequence_builder_unindex_edge b prev)
          else .ok b) with
        | .error z => .error z
        | .ok b1 =>
          match (if xe.edge.child ≠ NULL_NODE then tree_sequence_builder_unindex_edge b1 x
              else .ok b1) with
          | .error z => .error z
          | .ok b2 =>
            let pe2 := heap_get b2.heap prev
            let h3 := heap_del
              (heap_set b2.heap prev ⟨{ pe2.edge with right := xe.edge.right }, pe2.time⟩) x
            squash_indexed_chain { b2 with heap := h3 } node prev rest
      else
        match squash_indexed_chain b node x rest with
        | .error z => .error z
        | .ok r => .ok (r.1, prev :: r.2)

/-- The re-index pass of `squash_indexed_edges`: every edge left with
`child == NULL_NODE` gets its child restored and is inserted into the three
indexes. -/
def reindex_chain (b : TSB) (node : Int) : List Nat → TSB
  | [] => b
  | x :: rest =>
      let xe := heap_get b.heap x
      if xe.edge.child = NULL_NODE then
        let b1 := { b with heap := heap_set b.heap x ⟨{ xe.edge with child := node }, xe.time⟩ }
        reindex_chain (tree_sequence_builder_index_edge b1 x) node rest
      else reindex_chain b node rest

/-- `tree_sequence_builder_squash_indexed_edges`. -/
def tree_sequence_builder_squash_indexed_edges (b : TSB) (node : Int) : TsiRes TSB :=
  match pathOf b node with
  | [] => .error (.abort, b)
  | p :: rest => do
      let r ← squash_indexed_chain b node p rest
      let b2 := setPath r.1 node r.2
      .ok (reindex_chain b2 node r.2)

/-- The per-entry loop of `tree_sequence_builder_make_pc_node`: allocate the
PC ancestor's own copy of each matched edge, redirect the source (new-path)
edge to the PC node, and unindex and redirect the dest (existing) edge,
marking it detached with `child = NULL_NODE`. -/
def pc_loop (b : TSB) (pc : Int) : List (Nat × Nat) → List Nat → TsiRes (TSB × List Nat)
  | [], acc => .ok (b, acc)
  | (s, d) :: rest, acc => do
      let se := (heap_get b.heap s).edge
      let r ← tree_sequence_builder_alloc_edge b se.left se.right se.parent pc
      let b1 := r.1
      let se1 := heap_get b1.heap s
      let b2 := { b1 with heap := heap_set b1.heap s ⟨{ se1.edge with parent := pc }, se1.time⟩ }
      let b3 ← tree_sequence_builder_unindex_edge b2 d
      let de := heap_get b3.heap d
      let b4 := { b3 with
        heap := heap_set b3.heap d ⟨{ de.edge with parent := pc, child := NULL_NODE }, de.time⟩ }
      pc_loop b4 pc rest (acc ++ [r.2])

/-- `tree_sequence_builder_make_pc_node`: synthesize a new path-compression
ancestor for one contig of matched edges.  The C code reads `mapped[0]`
unconditionally; callers guarantee `num_mapped ≥ 2`, so the empty case is the
(unreachable) out-of-bounds read, modelled as `.abort`. -/
def tree_sequence_builder_make_pc_node (b : TSB) (mapped : List (Nat × Nat)) : TsiRes TSB :=
  match mapped with
  | [] => .error (.abort, b)
  | m0 :: _ =>
      let mapped_child := (heap_get b.heap m0.2).edge.child
      let mapped_child_time := timeOf b mapped_child
      let min_parent_time :=
        (mapped.foldl (fun acc m => min acc (timeOf b (heap_get b.heap m.1).edge.parent))
          (timeOf b 0 + 1)) - PC_ANCESTOR_INCREMENT
      if min_parent_time ≤ mapped_child_time then .error (.assertionFailure, b)
      else do
        let a := tree_sequence_builder_add_node b min_parent_time TSI_NODE_IS_PC_ANCESTOR
        let pc_node := a.2
        let r ← pc_loop a.1 pc_node mapped []
        let b3 := setPath r.1 pc_node r.2
        let b4 ← tree_sequence_builder_squash_edges b3 pc_node
        let b5 ← tree_sequence_builder_squash_indexed_edges b4 mapped_child
        .ok (tree_sequence_builder_index_edges b5 pc_node)

/-- The match-scanning loop of `tree_sequence_builder_compress_path`,
producing the contigs directly (the C code records the flat `mapped` array
plus `contig_offsets`; a new contig starts whenever the source edge does not
continue `last_match.right` or the matched edge's child differs from
`last_match.child`). -/
def scan_go (b : TSB) : List Nat → Int → Int → List (Nat × Nat) →
    List (List (Nat × Nat)) → List (List (Nat × Nat))
  | [], _, _, cur, acc => if cur.isEmpty then acc else acc ++ [cur]
  | c :: rest, lastR, lastC, cur, acc =>
      let ce := (heap_get b.heap c).edge
      match tree_sequence_builder_find_match b ce with
      | none => scan_go b rest lastR lastC cur acc
      | some m =>
          let me := (heap_get b.heap m).edge
          if ce.left = lastR ∧ me.child = lastC then
            scan_go b rest me.right me.child (cur ++ [(c, m)]) acc
          else
            scan_go b rest me.right me.child [(c, m)]
              (if cur.isEmpty then acc else acc ++ [cur])

/-- The per-contig body of `compress_path`'s second loop: contigs of size ≥ 2
are either remapped onto an existing PC ancestor or turned into a new PC
node. -/
def process_contig (b : TSB) (contig : List (Nat × Nat)) : TsiRes TSB :=
  if 1 < contig.length then
    match contig with
    | [] => .ok b
    | m0 :: _ =>
        let mapped_child := (heap_get b.heap m0.2).edge.child
        if flagsOf b mapped_child &&& TSI_NODE_IS_PC_ANCESTOR ≠ 0 then
          .ok (contig.foldl (fun bb m =>
            let se := heap_get bb.heap m.1
            { bb with heap := heap_set bb.heap m.1 ⟨{ se.edge with parent := mapped_child }, se.time⟩ }) b)
        else tree_sequence_builder_make_pc_node b contig
  else .ok b

/-- `tree_sequence_builder_compress_path`. -/
def tree_sequence_builder_compress_path (b : TSB) (child : Int) : TsiRes TSB := do
  let b1 ← (scan_go b (pathOf b child) (-1) NULL_NODE [] []).foldlM process_contig b
  tree_sequence_builder_squash_edges b1 child

/-- The validation/allocation loop of `tree_sequence_builder_add_path`
(iteration over the input arrays from index `num_edges - 1` down to 0, i.e.
over the reversed input list), building the chain in left-to-right order. -/
def add_path_alloc (b : TSB) (child : Int) (child_time : ℚ) :
    List (Int × Int × Int) → Option Nat → List Nat → TsiRes (TSB × List Nat)
  | [], _, acc => .ok (b, acc)
  | (l, r, p) :: rest, prev, acc =>
      if p ≥ (num_nodes b : Int) then .error (.badPathParent, b)
      else if timeOf b p ≤ child_time then .error (.badPathTime, b)
      else do
        let a ← tree_sequence_builder_alloc_edge b l r p child
        match prev with
        | none => add_path_alloc a.1 child child_time rest (some a.2) (acc ++ [a.2])
        | some pv =>
            if (heap_get a.1.heap pv).edge.right ≠ l then
              .error (.noncontiguousEdges, a.1)
            else add_path_alloc a.1 child child_time rest (some a.2) (acc ++ [a.2])

/-- `tree_sequence_builder_add_path`.  `es` is the input `(left, right,
parent)` array in the order the caller passes it (rightmost edge first, per
the API contract); the C loop visits it in reverse.  The `EXTENDED_CHECKS`
flag only runs the debug-build `check_state` observer and is a no-op here. -/
def tree_sequence_builder_add_path (b : TSB) (child : Int)
    (es : List (Int × Int × Int)) (fl : AddPathFlags) : TsiRes TSB :=
  if child ≥ (num_nodes b : Int) then .error (.generic, b)
  else do
    let r ← add_path_alloc b child (timeOf b child) es.reverse none []
    let b2 := setPath r.1 child r.2
    let b3 ←
      if fl.compress then tree_sequence_builder_compress_path b2 child
      else pure b2
    .ok (tree_sequence_builder_index_edges b3 child)

/-- `tree_sequence_builder_freeze_indexes`: snapshot the dynamic indexes into
the flat arrays (the model copies in list order; the C code copies in AVL
order).  The malloc failure branch cannot happen in the model. -/
def tree_sequence_builder_freeze_indexes (b : TSB) : TSB :=
  { b with
      num_edges := b.left_index.length
      left_index_edges := b.left_index.map (fun i => (heap_get b.heap i).edge)
      right_index_edges := b.right_index.map (fun i => (heap_get b.heap i).edge) }

/-- `tree_sequence_builder_restore_nodes`: re-add nodes from flat
`(flags, time)` arrays. -/
def tree_sequence_builder_restore_nodes (b : TSB) (ns : List (Nat × ℚ)) : TSB :=
  ns.foldl (fun bb n => (tree_sequence_builder_add_node bb n.2 n.1).1) b

/-- The loop of `tree_sequence_builder_restore_edges`.  `prev` is the
previously allocated edge (the C `prev` pointer) and `prevChild` the previous
array entry's child (`child[j-1]`).  The C statement `prev->next = e` appends
`e` after the globally previous edge; for inputs sorted by child into a
builder whose paths start empty (the only case in which the C code is
well-defined) `prev` is the tail of `path[child]`, which is what the model's
append expresses.  Dereferencing a NULL `prev` is modelled as `.abort`. -/
def restore_edges_loop (b : TSB) (prev : Option Nat) (prevChild : Option Int) :
    List edge_t → TsiRes TSB
  | [] => .ok (tree_sequence_builder_freeze_indexes b)
  | e :: rest =>
      if prevChild.any (fun pc => decide (pc > e.child)) then
        .error (.unsortedEdges, b)
      else do
        let a ← tree_sequence_builder_alloc_edge b e.left e.right e.parent e.child
        let b1 := a.1
        if (pathOf b1 e.child).isEmpty then
          let b2 := setPath b1 e.child [a.2]
          restore_edges_loop (tree_sequence_builder_index_edge b2 a.2) (some a.2)
            (some e.child) rest
        else
          match prev with
          | none => .error (.abort, b1)
          | some pv =>
              if (heap_get b1.heap pv).edge.right > e.left then
                .error (.unsortedEdges, b1)
              else
                let b2 := setPath b1 e.child (pathOf b1 e.child ++ [a.2])
                restore_edges_loop (tree_sequence_builder_index_edge b2 a.2) (some a.2)
                  (some e.child) rest

/-- `tree_sequence_builder_restore_edges`: rebuild paths and indexes from a
flat edge array, then freeze the indexes. -/
def tree_sequence_builder_restore_edges (b : TSB) (es : List edge_t) : TsiRes TSB :=
  restore_edges_loop b none none es

/-- `tree_sequence_builder_get_num_edges`. -/
def tree_sequence_builder_get_num_edges (b : TSB) : Nat := b.left_index.length

/-- `tree_sequence_builder_get_num_nodes`. -/
def tree_sequence_builder_get_num_nodes (b : TSB) : Nat := num_nodes b

/-- The empty builder produced by `tree_sequence_builder_alloc`. -/
def tsb_empty : TSB :=
  { time := [], node_flags := [], path := [], heap := [], next_id := 0,
    left_index := [], right_index := [], path_index := [], num_edges := 0,
    left_index_edges := [], right_index_edges := [] }

/-! ## Basic lemmas about the heap and accessors -/

theorem heap_keys_nil : heap_keys [] = [] := rfl

theorem heap_keys_cons (k : Nat) (e : indexed_edge_t) (h : EdgeHeap) :
    heap_keys ((k, e) :: h) = k :: heap_keys h := rfl

theorem heap_keys_append (h h' : EdgeHeap) :
    heap_keys (h ++ h') = heap_keys h ++ heap_keys h' := by
  simp [heap_keys]

theorem heap_get_append_ne (h h' : EdgeHeap) (i : Nat)
    (hi : i ∉ heap_keys h') :
    heap_get (h ++ h') i = heap_get h i := by
  induction h with
  | nil =>
    simp only [List.nil_append]
    induction h' with
    | nil => rfl
    | cons p t ih =>
      obtain ⟨k, e⟩ := p
      simp only [heap_keys_cons, List.mem_cons, not_or] at hi
      simp [heap_get, Ne.symm hi.1, ih hi.2]
  | cons p t ih =>
    obtain ⟨k, e⟩ := p
    by_cases hk : k = i <;> simp [heap_get, hk, ih]

theorem heap_get_append_right (h h' : EdgeHeap) (i : Nat)
    (hi : i ∉ heap_keys h) :
    heap_get (h ++ h') i = heap_get h' i := by
  induction h with
  | nil => rfl
  | cons p t ih =>
    obtain ⟨k, e⟩ := p
    simp only [heap_keys_cons, List.mem_cons, not_or] at hi
    simp [heap_get, Ne.symm hi.1, ih hi.2]

theorem heap_keys_set (h : EdgeHeap) (i : Nat) (e : indexed_edge_t) :
    heap_keys (heap_set h i e) = heap_keys h := by
  induction h with
  | nil => rfl
  | cons p t ih =>
    obtain ⟨k, e'⟩ := p
    by_cases hk : k = i <;> simp [heap_set, hk, heap_keys, heap_keys_cons] at ih ⊢ <;>
      simp [ih]

theorem heap_get_set_self (h : EdgeHeap) (i : Nat) (e : indexed_edge_t)
    (hi : i ∈ heap_keys h) :
    heap_get (heap_set h i e) i = e := by
  induction h with
  | nil => simp [heap_keys] at hi
  | cons p t ih =>
    obtain ⟨k, e'⟩ := p
    by_cases hk : k = i
    · simp [heap_set, hk, heap_get]
    · simp only [heap_keys_cons, List.mem_cons] at hi
      rcases hi with hi | hi
      · exact absurd hi.symm hk
      · simp [heap_set, hk, heap_get, ih hi]

theorem heap_get_set_ne (h : EdgeHeap) (i j : Nat) (e : indexed_edge_t)
    (hij : i ≠ j) :
    heap_get (heap_set h i e) j = heap_get h j := by
  induction h with
  | nil => rfl
  | cons p t ih =>
    obtain ⟨k, e'⟩ := p
    by_cases hk : k = i
    · subst hk
      simp [heap_set, heap_get, hij]
    · by_cases hkj : k = j
      · subst hkj
        simp [heap_set, heap_get, hk]
      · simp [heap_set, hk, heap_get, hkj, ih]

theorem heap_set_not_mem (h : EdgeHeap) (i : Nat) (e : indexed_edge_t)
    (hi : i ∉ heap_keys h) :
    heap_set h i e = h := by
  induction h with
  | nil => rfl
  | cons p t ih =>
    obtain ⟨k, e'⟩ := p
    simp only [heap_keys_cons, List.mem_cons, not_or] at hi
    simp [heap_set, Ne.symm hi.1, ih hi.2]

theorem heap_keys_del (h : EdgeHeap) (i : Nat) :
    heap_keys (heap_del h i) = (heap_keys h).erase i := by
  induction h with
  | nil => rfl
  | cons p t ih =>
    obtain ⟨k, e⟩ := p
    by_cases hk : k = i
    · subst hk
      simp [heap_del, heap_keys_cons, List.erase_cons_head]
    · simp [heap_del, hk, heap_keys_cons, List.erase_cons_tail, ih,
        (by exact fun hh => hk (by simpa using hh) : ¬ (k == i) = true)]

theorem heap_get_del_ne (h : EdgeHeap) (i j : Nat) (hij : i ≠ j) :
    heap_get (heap_del h i) j = heap_get h j := by
  induction h with
  | nil => rfl
  | cons p t ih =>
    obtain ⟨k, e⟩ := p
    by_cases hk : k = i
    · subst hk
      simp [heap_del, heap_get, hij]
    · by_cases hkj : k = j
      · subst hkj
        simp [heap_del, heap_get, hk]
      · simp [heap_del, hk, heap_get, hkj, ih]

theorem heap_del_not_mem (h : EdgeHeap) (i : Nat) (hi : i ∉ heap_keys h) :
    heap_del h i = h := by
  induction h with
  | nil => rfl
  | cons p t ih =>
    obtain ⟨k, e⟩ := p
    simp only [heap_keys_cons, List.mem_cons, not_or] at hi
    simp [heap_del, Ne.symm hi.1, ih hi.2]

/-! ## Path accessor lemmas -/

theorem pathOf_setPath_self (b : TSB) (i : Int) (c : List Nat)
    (h0 : 0 ≤ i) (hlt : i.toNat < b.path.length) :
    pathOf (setPath b i c) i = c := by
  simp [pathOf, setPath, h0, List.getD, List.getElem?_set_self, hlt]

theorem pathOf_setPath_ne (b : TSB) (i j : Int) (c : List Nat) (hij : i ≠ j) :
    pathOf (setPath b i c) j = pathOf b j := by
  by_cases h0 : 0 ≤ i
  · by_cases h0j : 0 ≤ j
    · have : i.toNat ≠ j.toNat := fun hc => hij (by omega)
      simp [pathOf, setPath, h0, h0j, List.getD, List.getElem?_set_ne this]
    · simp [pathOf, setPath, h0, h0j]
  · simp [setPath, h0]

theorem setPath_time (b : TSB) (i : Int) (c : List Nat) :
    (setPath b i c).time = b.time := by
  by_cases h0 : 0 ≤ i <;> simp [setPath, h0]

theorem setPath_node_flags (b : TSB) (i : Int) (c : List Nat) :
    (setPath b i c).node_flags = b.node_flags := by
  by_cases h0 : 0 ≤ i <;> simp [setPath, h0]

theorem setPath_heap (b : TSB) (i : Int) (c : List Nat) :
    (setPath b i c).heap = b.heap := by
  by_cases h0 : 0 ≤ i <;> simp [setPath, h0]

theorem setPath_next_id (b : TSB) (i : Int) (c : List Nat) :
    (setPath b i c).next_id = b.next_id := by
  by_cases h0 : 0 ≤ i <;> simp [setPath, h0]

theorem setPath_left_index (b : TSB) (i : Int) (c : List Nat) :
    (setPath b i c).left_index = b.left_index := by
  by_cases h0 : 0 ≤ i <;> simp [setPath, h0]

theorem setPath_right_index (b : TSB) (i : Int) (c : List Nat) :
    (setPath b i c).right_index = b.right_index := by
  by_cases h0 : 0 ≤ i <;> simp [setPath, h0]

theorem setPath_path_index (b : TSB) (i : Int) (c : List Nat) :
    (setPath b i c).path_index = b.path_index := by
  by_cases h0 : 0 ≤ i <;> simp [setPath, h0]

theorem timeOf_setPath (b : TSB) (i : Int) (c : List Nat) (j : Int) :
    timeOf (setPath b i c) j = timeOf b j := by
  simp [timeOf, setPath_time]

theorem num_nodes_setPath (b : TSB) (i : Int) (c : List Nat) :
    num_nodes (setPath b i c) = num_nodes b := by
  simp [num_nodes, setPath_time]

/-! ## Effect of `alloc_edge` and the `add_path` validation loop -/

theorem alloc_edge_ok_effect (b : TSB) (l r p c : Int) (b1 : TSB) (eid : Nat)
    (h : tree_sequence_builder_alloc_edge b l r p c = .ok (b1, eid)) :
    b1 = { b with
            heap := b.heap ++ [(b.next_id, ⟨⟨l, r, p, c⟩, timeOf b c⟩)]
            next_id := b.next_id + 1 } ∧
      eid = b.next_id ∧
      p < (num_nodes b : Int) ∧ c < (num_nodes b : Int) ∧ timeOf b c < timeOf b p := by
  by_cases hcond : p < (num_nodes b : Int) ∧ c < (num_nodes b : Int) ∧ timeOf b c < timeOf b p
  · simp only [tree_sequence_builder_alloc_edge, if_pos hcond, Except.ok.injEq,
      Prod.mk.injEq] at h
    exact ⟨h.1.symm, h.2.symm, hcond⟩
  · simp [tree_sequence_builder_alloc_edge, if_neg hcond] at h

/-- Exact effect of a successful run of the `add_path` validation loop: the
allocated edges are appended to the heap with consecutive fresh ids, the
returned chain is those ids in left-to-right order, and nothing else in the
state changes. -/
theorem add_path_alloc_ok_effect (child : Int) (ct : ℚ) :
    ∀ (es : List (Int × Int × Int)) (b : TSB) (prev : Option Nat) (acc : List Nat)
      (b' : TSB) (chain : List Nat),
      add_path_alloc b child ct es prev acc = .ok (b', chain) →
      b'.time = b.time ∧ b'.node_flags = b.node_flags ∧ b'.path = b.path ∧
      b'.left_index = b.left_index ∧ b'.right_index = b.right_index ∧
      b'.path_index = b.path_index ∧ b'.num_edges = b.num_edges ∧
      b'.left_index_edges = b.left_index_edges ∧
      b'.right_index_edges = b.right_index_edges ∧
      b'.next_id = b.next_id + es.length ∧
      chain = acc ++ List.range' b.next_id es.length ∧
      b'.heap = b.heap ++ (es.enumFrom b.next_id).map
        (fun ke => (ke.1, ⟨⟨ke.2.1, ke.2.2.1, ke.2.2.2, child⟩, timeOf b child⟩)) := by
  intro es
  induction es with
  | nil =>
    intro b prev acc b' chain h
    simp only [add_path_alloc, Except.ok.injEq, Prod.mk.injEq] at h
    simp [← h.1, ← h.2, List.enumFrom]
  | cons e rest ih =>
    intro b prev acc b' chain h
    obtain ⟨l, r, p⟩ := e
    simp only [add_path_alloc] at h
    by_cases h1 : p ≥ (num_nodes b : Int)
    · simp [if_pos h1] at h
    simp only [if_neg h1] at h
    by_cases h2 : timeOf b p ≤ ct
    · simp [if_pos h2] at h
    simp only [if_neg h2] at h
    cases halloc : tree_sequence_builder_alloc_edge b l r p child with
    | error z => simp [halloc, Bind.bind, Except.bind] at h
    | ok a =>
      obtain ⟨b1, eid⟩ := a
      obtain ⟨hb1, heid, -⟩ := alloc_edge_ok_effect b l r p child b1 eid halloc
      simp only [halloc, Bind.bind, Except.bind] at h
      have hrec : add_path_alloc b1 child ct rest (some eid) (acc ++ [eid]) = .ok (b', chain) := by
        cases prev with
        | none => exact h
        | some pv =>
          by_cases h3 : (heap_get b1.heap pv).edge.right ≠ l
          · simp [if_pos h3] at h
          · simpa [if_neg h3] using h
      have := ih b1 (some eid) (acc ++ [eid]) b' chain hrec
      obtain ⟨ht, hnf, hp, hl, hr, hpi, hne, hle, hre, hni, hch, hh⟩ := this
      subst hb1 heid
      refine ⟨ht, hnf, hp, hl, hr, hpi, hne, hle, hre,
        by rw [hni]; simp; omega, ?_, ?_⟩
      · rw [hch]
        simp [List.range'_succ, List.append_assoc]
      · rw [hh]
        have htc : timeOf { b with
            heap := b.heap ++ [(b.next_id, ⟨⟨l, r, p, child⟩, timeOf b child⟩)],
            next_id := b.next_id + 1 } child = timeOf b child := by
          simp [timeOf]
        simp only [htc, List.enumFrom, List.map_cons, List.append_assoc, List.cons_append,
          List.nil_append]

/-- `alloc_edge` fails only by assert abort, leaving the state unchanged. -/
theorem alloc_edge_err_abort (b : TSB) (l r p c : Int) (z : TsiErr × TSB)
    (h : tree_sequence_builder_alloc_edge b l r p c = .error z) :
    z = (.abort, b) := by
  by_cases hcond : p < (num_nodes b : Int) ∧ c < (num_nodes b : Int) ∧
      timeOf b c < timeOf b p
  · simp [tree_sequence_builder_alloc_edge, if_pos hcond] at h
  · simp only [tree_sequence_builder_alloc_edge, if_neg hcond, Except.error.injEq] at h
    exact h.symm

/-- If the validation loop reports `BAD_PATH_PARENT`, some entry's parent is
out of range. -/
theorem add_path_alloc_err_parent (child : Int) (ct : ℚ) :
    ∀ (es : List (Int × Int × Int)) (b : TSB) (prev : Option Nat) (acc : List Nat) (s : TSB),
      add_path_alloc b child ct es prev acc = .error (.badPathParent, s) →
      ∃ e ∈ es, e.2.2 ≥ (num_nodes b : Int) := by
  intro es
  induction es with
  | nil => intro b prev acc s h; simp [add_path_alloc] at h
  | cons e rest ih =>
    intro b prev acc s h
    obtain ⟨l, r, p⟩ := e
    simp only [add_path_alloc] at h
    by_cases h1 : p ≥ (num_nodes b : Int)
    · exact ⟨(l, r, p), List.mem_cons_self _ _, h1⟩
    simp only [if_neg h1] at h
    by_cases h2 : timeOf b p ≤ ct
    · simp [if_pos h2] at h
    simp only [if_neg h2] at h
    cases halloc : tree_sequence_builder_alloc_edge b l r p child with
    | error z =>
      simp only [halloc, Bind.bind, Except.bind, Except.error.injEq] at h
      rw [alloc_edge_err_abort b l r p child z halloc] at h
      simp at h
    | ok a =>
      obtain ⟨b1, eid⟩ := a
      obtain ⟨hb1, heid, -⟩ := alloc_edge_ok_effect b l r p child b1 eid halloc
      simp only [halloc, Bind.bind, Except.bind] at h
      have hn : (num_nodes b1 : Int) = (num_nodes b : Int) := by
        subst hb1; simp [num_nodes]
      cases prev with
      | none =>
        obtain ⟨f, hf, hge⟩ := ih b1 (some eid) (acc ++ [eid]) s h
        exact ⟨f, List.mem_cons_of_mem _ hf, hn ▸ hge⟩
      | some pv =>
        by_cases h3 : (heap_get b1.heap pv).edge.right ≠ l
        · simp [if_pos h3] at h
        · simp only [if_neg h3] at h
          obtain ⟨f, hf, hge⟩ := ih b1 (some eid) (acc ++ [eid]) s h
          exact ⟨f, List.mem_cons_of_mem _ hf, hn ▸ hge⟩

/-- If the validation loop reports `BAD_PATH_TIME`, some entry's parent is
not older than the child. -/
theorem add_path_alloc_err_time (child : Int) (ct : ℚ) :
    ∀ (es : List (Int × Int × Int)) (b : TSB) (prev : Option Nat) (acc : List Nat) (s : TSB),
      add_path_alloc b child ct es prev acc = .error (.badPathTime, s) →
      ∃ e ∈ es, timeOf b e.2.2 ≤ ct := by
  intro es
  induction es with
  | nil => intro b prev acc s h; simp [add_path_alloc] at h
  | cons e rest ih =>
    intro b prev acc s h
    obtain ⟨l, r, p⟩ := e
    simp only [add_path_alloc] at h
    by_cases h1 : p ≥ (num_nodes b : Int)
    · simp [if_pos h1] at h
    simp only [if_neg h1] at h
    by_cases h2 : timeOf b p ≤ ct
    · exact ⟨(l, r, p), List.mem_cons_self _ _, h2⟩
    simp only [if_neg h2] at h
    cases halloc : tree_sequence_builder_alloc_edge b l r p child with
    | error z =>
      simp only [halloc, Bind.bind, Except.bind, Except.error.injEq] at h
      rw [alloc_edge_err_abort b l r p child z halloc] at h
      simp at h
    | ok a =>
      obtain ⟨b1, eid⟩ := a
      obtain ⟨hb1, heid, -⟩ := alloc_edge_ok_effect b l r p child b1 eid halloc
      simp only [halloc, Bind.bind, Except.bind] at h
      have ht : ∀ q : Int, timeOf b1 q = timeOf b q := by
        subst hb1; intro q; simp [timeOf]
      cases prev with
      | none =>
        obtain ⟨f, hf, hge⟩ := ih b1 (some eid) (acc ++ [eid]) s h
        exact ⟨f, List.mem_cons_of_mem _ hf, ht f.2.2 ▸ hge⟩
      | some pv =>
        by_cases h3 : (heap_get b1.heap pv).edge.right ≠ l
        · simp [if_pos h3] at h
        · simp only [if_neg h3] at h
          obtain ⟨f, hf, hge⟩ := ih b1 (some eid) (acc ++ [eid]) s h
          exact ⟨f, List.mem_cons_of_mem _ hf, ht f.2.2 ▸ hge⟩

/-- The validation loop produces no error codes other than the two path
validation codes, the contiguity code, and an assert abort. -/
theorem add_path_alloc_err_codes (child : Int) (ct : ℚ) :
    ∀ (es : List (Int × Int × Int)) (b : TSB) (prev : Option Nat) (acc : List Nat)
      (c : TsiErr) (s : TSB),
      add_path_alloc b child ct es prev acc = .error (c, s) →
      c = .badPathParent ∨ c = .badPathTime ∨ c = .noncontiguousEdges ∨ c = .abort := by
  intro es
  induction es with
  | nil => intro b prev acc c s h; simp [add_path_alloc] at h
  | cons e rest ih =>
    intro b prev acc c s h
    obtain ⟨l, r, p⟩ := e
    simp only [add_path_alloc] at h
    by_cases h1 : p ≥ (num_nodes b : Int)
    · simp only [if_pos h1, Except.error.injEq, Prod.mk.injEq] at h
      exact Or.inl h.1.symm
    simp only [if_neg h1] at h
    by_cases h2 : timeOf b p ≤ ct
    · simp only [if_pos h2, Except.error.injEq, Prod.mk.injEq] at h
      exact Or.inr (Or.inl h.1.symm)
    simp only [if_neg h2] at h
    cases halloc : tree_sequence_builder_alloc_edge b l r p child with
    | error z =>
      simp only [halloc, Bind.bind, Except.bind, Except.error.injEq] at h
      have hz := alloc_edge_err_abort b l r p child z halloc
      rw [hz] at h
      exact Or.inr (Or.inr (Or.inr (by simpa using (congrArg Prod.fst h).symm)))
    | ok a =>
      obtain ⟨b1, eid⟩ := a
      simp only [halloc, Bind.bind, Except.bind] at h
      cases prev with
      | none => exact ih b1 (some eid) (acc ++ [eid]) c s h
      | some pv =>
        by_cases h3 : (heap_get b1.heap pv).edge.right ≠ l
        · simp only [if_pos h3, Except.error.injEq, Prod.mk.injEq] at h
          exact Or.inr (Or.inr (Or.inl h.1.symm))
        · simp only [if_neg h3] at h
          exact ih b1 (some eid) (acc ++ [eid]) c s h

/-- The left-to-right adjacency relation enforced by the validation loop:
previous entry's right equals next entry's left ((left, right, parent)
triples in left-to-right order). -/
def entry_contig (e f : Int × Int × Int) : Prop := e.2.1 = f.1

instance : DecidableRel entry_contig :=
  fun e f => inferInstanceAs (Decidable (e.2.1 = f.1))

/-- If the validation loop reports `NONCONTIGUOUS_EDGES` then the entry list
(visited in left-to-right order) is not contiguous, provided heap ids below
`next_id` are the only live ones and the incoming `prev` edge (if any) links
correctly to the first entry. -/
theorem add_path_alloc_err_noncont (child : Int) (ct : ℚ) :
    ∀ (es : List (Int × Int × Int)) (b : TSB) (prev : Option Nat) (acc : List Nat) (s : TSB),
      (∀ k ∈ heap_keys b.heap, k < b.next_id) →
      (∀ pv, prev = some pv → pv < b.next_id) →
      add_path_alloc b child ct es prev acc = .error (.noncontiguousEdges, s) →
      ¬ (List.Chain' entry_contig es ∧
          ∀ pv e, prev = some pv → es.head? = some e →
            (heap_get b.heap pv).edge.right = e.1) := by
  intro es
  induction es with
  | nil =>
    intro b prev acc s _ _ h
    simp [add_path_alloc] at h
  | cons e rest ih =>
    intro b prev acc s hfresh hpv h
    obtain ⟨l, r, p⟩ := e
    rintro ⟨hchain, hlink⟩
    simp only [add_path_alloc] at h
    by_cases h1 : p ≥ (num_nodes b : Int)
    · simp [if_pos h1] at h
    simp only [if_neg h1] at h
    by_cases h2 : timeOf b p ≤ ct
    · simp [if_pos h2] at h
    simp only [if_neg h2] at h
    cases halloc : tree_sequence_builder_alloc_edge b l r p child with
    | error z =>
      simp only [halloc, Bind.bind, Except.bind, Except.error.injEq] at h
      rw [alloc_edge_err_abort b l r p child z halloc] at h
      simp at h
    | ok a =>
      obtain ⟨b1, eid⟩ := a
      obtain ⟨hb1, heid, -⟩ := alloc_edge_ok_effect b l r p child b1 eid halloc
      simp only [halloc, Bind.bind, Except.bind] at h
      have hfresh1 : ∀ k ∈ heap_keys b1.heap, k < b1.next_id := by
        subst hb1
        dsimp only
        intro k hk
        simp only [heap_keys_append, List.mem_append, heap_keys_cons, heap_keys_nil,
          List.mem_cons, List.not_mem_nil, or_false] at hk
        rcases hk with hk | hk
        · exact Nat.lt_succ_of_lt (hfresh k hk)
        · omega
      have hget_new : (heap_get b1.heap eid).edge.right = r := by
        subst hb1 heid
        rw [heap_get_append_right]
        · simp [heap_get]
        · intro hc
          exact absurd (hfresh _ hc) (lt_irrefl _)
      have hpv1 : ∀ pv, (some eid : Option Nat) = some pv → pv < b1.next_id := by
        intro pv hpe
        obtain rfl : eid = pv := by injection hpe
        subst hb1 heid
        dsimp only
        omega
      have hcont : add_path_alloc b1 child ct rest (some eid) (acc ++ [eid]) =
          .error (.noncontiguousEdges, s) := by
        cases prev with
        | none => exact h
        | some pv =>
          have hlv := hlink pv (l, r, p) rfl rfl
          have hgv : (heap_get b1.heap pv).edge.right = l := by
            subst hb1
            rw [heap_get_append_ne]
            · exact hlv
            · simp only [heap_keys_cons, heap_keys_nil, List.mem_singleton]
              intro hc
              exact absurd (hc ▸ hpv pv rfl) (lt_irrefl _)
          simp only [hgv, ne_eq, not_true_eq_false, if_neg, if_false] at h
          simpa using h
      refine ih b1 (some eid) (acc ++ [eid]) s hfresh1 hpv1 hcont ⟨hchain.tail, ?_⟩
      intro pv f hpe hf
      obtain rfl : eid = pv := by injection hpe
      rw [hget_new]
      rcases rest with _ | ⟨f0, rest'⟩
      · simp at hf
      · simp only [List.head?_cons, Option.some.injEq] at hf
        exact hf ▸ ((List.chain'_cons'.mp hchain).1 f0 (by simp))

/-- If every entry is valid (parent in range and older than both the cached
child time and the child) and the entries are contiguous, the validation loop
succeeds. -/
theorem add_path_alloc_valid_ok (child : Int) (ct : ℚ) :
    ∀ (es : List (Int × Int × Int)) (b : TSB) (prev : Option Nat) (acc : List Nat),
      (∀ k ∈ heap_keys b.heap, k < b.next_id) →
      (∀ e ∈ es, e.2.2 < (num_nodes b : Int) ∧ ct < timeOf b e.2.2 ∧
        timeOf b child < timeOf b e.2.2) →
      child < (num_nodes b : Int) →
      List.Chain' entry_contig es →
      (∀ pv, prev = some pv → pv < b.next_id ∧
        ∀ e, es.head? = some e → (heap_get b.heap pv).edge.right = e.1) →
      ∃ r, add_path_alloc b child ct es prev acc = .ok r := by
  intro es
  induction es with
  | nil =>
    intro b prev acc _ _ _ _ _
    exact ⟨(b, acc), rfl⟩
  | cons e rest ih =>
    intro b prev acc hfresh hval hc hchain hlink
    obtain ⟨l, r, p⟩ := e
    obtain ⟨hp, hct, hcp⟩ := hval (l, r, p) (List.mem_cons_self _ _)
    have h1 : ¬ (p ≥ (num_nodes b : Int)) := not_le.mpr hp
    have h2 : ¬ (timeOf b p ≤ ct) := not_le.mpr hct
    have hcond : p < (num_nodes b : Int) ∧ child < (num_nodes b : Int) ∧
        timeOf b child < timeOf b p := ⟨hp, hc, hcp⟩
    have halloc : tree_sequence_builder_alloc_edge b l r p child =
        .ok ({ b with
                heap := b.heap ++ [(b.next_id, ⟨⟨l, r, p, child⟩, timeOf b child⟩)]
                next_id := b.next_id + 1 },
              b.next_id) := by
      simp [tree_sequence_builder_alloc_edge, if_pos hcond]
    set b1 : TSB := { b with
        heap := b.heap ++ [(b.next_id, ⟨⟨l, r, p, child⟩, timeOf b child⟩)]
        next_id := b.next_id + 1 } with hb1
    have hfresh1 : ∀ k ∈ heap_keys b1.heap, k < b1.next_id := by
      rw [hb1]
      dsimp only
      intro k hk
      simp only [heap_keys_append, List.mem_append, heap_keys_cons, heap_keys_nil,
        List.mem_cons, List.not_mem_nil, or_false] at hk
      rcases hk with hk | hk
      · exact Nat.lt_succ_of_lt (hfresh k hk)
      · omega
    have hb1time : b1.time = b.time := by rw [hb1]
    have hval1 : ∀ e ∈ rest, e.2.2 < (num_nodes b1 : Int) ∧ ct < timeOf b1 e.2.2 ∧
        timeOf b1 child < timeOf b1 e.2.2 := by
      intro f hf
      have := hval f (List.mem_cons_of_mem _ hf)
      simpa [num_nodes, timeOf, hb1time] using this
    have hc1 : child < (num_nodes b1 : Int) := by
      simpa [num_nodes, hb1time] using hc
    have hget_new : heap_get b1.heap b.next_id = ⟨⟨l, r, p, child⟩, timeOf b child⟩ := by
      rw [hb1]
      dsimp only
      rw [heap_get_append_right]
      · simp [heap_get]
      · intro hcmem
        exact absurd (hfresh _ hcmem) (lt_irrefl _)
    have hlink1 : ∀ pv, (some b.next_id : Option Nat) = some pv → pv < b1.next_id ∧
        ∀ f, rest.head? = some f → (heap_get b1.heap pv).edge.right = f.1 := by
      intro pv hpe
      obtain rfl : b.next_id = pv := by injection hpe
      constructor
      · rw [hb1]
        dsimp only
        omega
      · intro f hf
        rw [hget_new]
        rcases rest with _ | ⟨f0, rest'⟩
        · simp at hf
        · simp only [List.head?_cons, Option.some.injEq] at hf
          exact hf ▸ ((List.chain'_cons'.mp hchain).1 f0 (by simp))
    obtain ⟨rr, hrr⟩ := ih b1 (some b.next_id) (acc ++ [b.next_id]) hfresh1 hval1 hc1
      hchain.tail hlink1
    refine ⟨rr, ?_⟩
    simp only [add_path_alloc, if_neg h1, if_neg h2, halloc, Bind.bind, Except.bind]
    cases prev with
    | none => exact hrr
    | some pv =>
      have hlv := (hlink pv rfl).2 (l, r, p) rfl
      have hpvlt := (hlink pv rfl).1
      have hgv : (heap_get b1.heap pv).edge.right = l := by
        rw [hb1]
        dsimp only
        rw [heap_get_append_ne]
        · exact hlv
        · simp only [heap_keys_cons, heap_keys_nil, List.mem_cons, List.not_mem_nil, or_false]
          intro hcmem
          exact absurd (hcmem ▸ hpvlt) (lt_irrefl _)
      simp only [hgv, ne_eq, not_true_eq_false, if_false]
      exact hrr

/-! ## `index_edges` and first claims -/

theorem foldl_index_edge_eq : ∀ (l : List Nat) (b : TSB),
    l.foldl tree_sequence_builder_index_edge b =
      { b with
          left_index := l.reverse ++ b.left_index
          right_index := l.reverse ++ b.right_index
          path_index := l.reverse ++ b.path_index } := by
  intro l
  induction l with
  | nil => intro b; simp
  | cons x xs ih =>
    intro b
    simp only [List.foldl_cons, ih, tree_sequence_builder_index_edge,
      List.reverse_cons, List.append_assoc, List.singleton_append]

theorem index_edges_eq (b : TSB) (node : Int) :
    tree_sequence_builder_index_edges b node =
      { b with
          left_index := (pathOf b node).reverse ++ b.left_index
          right_index := (pathOf b node).reverse ++ b.right_index
          path_index := (pathOf b node).reverse ++ b.path_index } :=
  foldl_index_edge_eq _ _

/-- Reading back the freshly allocated block of edges. -/
theorem map_get_append_enumFrom (child : Int) (tc : ℚ) :
    ∀ (es : List (Int × Int × Int)) (h : EdgeHeap) (n : Nat),
      (∀ k ∈ heap_keys h, k < n) →
      (List.range' n es.length).map
          (fun i => (heap_get (h ++ (es.enumFrom n).map
            (fun ke => (ke.1,
              (⟨⟨ke.2.1, ke.2.2.1, ke.2.2.2, child⟩, tc⟩ : indexed_edge_t)))) i).edge) =
        es.map (fun e => ⟨e.1, e.2.1, e.2.2, child⟩) := by
  intro es
  induction es with
  | nil => intro h n _; simp
  | cons e rest ih =>
    intro h n hk
    obtain ⟨l, r, p⟩ := e
    have hsplit : h ++ (((l, r, p) :: rest).enumFrom n).map
        (fun ke => (ke.1,
          (⟨⟨ke.2.1, ke.2.2.1, ke.2.2.2, child⟩, tc⟩ : indexed_edge_t))) =
        (h ++ [(n, (⟨⟨l, r, p, child⟩, tc⟩ : indexed_edge_t))]) ++
          (rest.enumFrom (n + 1)).map
            (fun ke => (ke.1,
              (⟨⟨ke.2.1, ke.2.2.1, ke.2.2.2, child⟩, tc⟩ : indexed_edge_t))) := by
      simp [List.enumFrom, List.append_assoc]
    have hk1 : ∀ k ∈ heap_keys (h ++ [(n, (⟨⟨l, r, p, child⟩, tc⟩ : indexed_edge_t))]),
        k < n + 1 := by
      intro k hkk
      simp only [heap_keys_append, List.mem_append, heap_keys_cons, heap_keys_nil,
        List.mem_cons, List.not_mem_nil, or_false] at hkk
      rcases hkk with hkk | hkk
      · exact Nat.lt_succ_of_lt (hk k hkk)
      · omega
    have hnotinB : n ∉ heap_keys ((rest.enumFrom (n + 1)).map
        (fun ke => (ke.1,
          (⟨⟨ke.2.1, ke.2.2.1, ke.2.2.2, child⟩, tc⟩ : indexed_edge_t)))) := by
      intro hc
      simp only [heap_keys, List.map_map, List.mem_map, Function.comp] at hc
      obtain ⟨⟨idx, v⟩, hql, hq1⟩ := hc
      have := (List.mem_enumFrom hql).1
      simp only at hq1
      omega
    have hhead : heap_get (h ++ (((l, r, p) :: rest).enumFrom n).map
        (fun ke => (ke.1,
          (⟨⟨ke.2.1, ke.2.2.1, ke.2.2.2, child⟩, tc⟩ : indexed_edge_t)))) n =
        ⟨⟨l, r, p, child⟩, tc⟩ := by
      rw [hsplit, heap_get_append_ne _ _ _ hnotinB, heap_get_append_right]
      · simp [heap_get]
      · intro hc
        exact absurd (hk _ hc) (lt_irrefl _)
    simp only [List.length_cons, List.range'_succ, List.map_cons, hhead]
    congr 1
    rw [hsplit]
    exact ih (h ++ [(n, ⟨⟨l, r, p, child⟩, tc⟩)]) (n + 1) hk1

instance {α : Type} [DecidableEq α] : DecidableEq (TsiRes α) := fun x y =>
  match x, y with
  | .ok a, .ok b => decidable_of_iff (a = b) (by simp)
  | .error a, .error b => decidable_of_iff (a = b) (by simp)
  | .ok _, .error _ => isFalse (by simp)
  | .error _, .ok _ => isFalse (by simp)

/-- Extract the success state of an operation (used to name concrete result
states in closed statements). -/
def getOk (x : TsiRes TSB) (dflt : TSB) : TSB :=
  match x with
  | .ok a => a
  | .error _ => dflt

/-- A fresh builder with node times 3 and 1 (node 0 older than node 1). -/
def tsb_two_nodes : TSB :=
  { time := [3, 1], node_flags := [0, 0], path := [[], []], heap := [], next_id := 0,
    left_index := [], right_index := [], path_index := [], num_edges := 0,
    left_index_edges := [], right_index_edges := [] }

/-- C8: `add_path` with `child >= num_nodes` returns the generic error code
(checked before anything else happens), and the builder state carried by the
error is exactly the input state: nothing was allocated or mutated. -/
theorem claim_C8 (b : TSB) (child : Int) (es : List (Int × Int × Int))
    (fl : AddPathFlags) (h : child ≥ (num_nodes b : Int)) :
    tree_sequence_builder_add_path b child es fl = .error (.generic, b) := by
  simp [tree_sequence_builder_add_path, if_pos h]

theorem claim_C8_witness :
    (2 : Int) ≥ (num_nodes tsb_two_nodes : Int) ∧
      tree_sequence_builder_add_path tsb_two_nodes 2 [(0, 1, 0)] ⟨true, false⟩ =
        .error (.generic, tsb_two_nodes) :=
  ⟨by decide, claim_C8 tsb_two_nodes 2 [(0, 1, 0)] ⟨true, false⟩ (by decide)⟩

/-- C4: with `COMPRESS_PATH` off, a successful `add_path` stores the input
edges exactly: the child's path afterwards is precisely the given
`(left, right, parent)` triples with the child field set, in left-to-right
order (the input is delivered rightmost-first, hence the reversal), with one
edge per input entry and no merging. -/
theorem claim_C4 (b : TSB) (child : Int) (es : List (Int × Int × Int))
    (fl : AddPathFlags) (b' : TSB)
    (hfl : fl.compress = false)
    (hfresh : ∀ k ∈ heap_keys b.heap, k < b.next_id)
    (hchild : 0 ≤ child)
    (hlen : child.toNat < b.path.length)
    (hok : tree_sequence_builder_add_path b child es fl = .ok b') :
    (pathOf b' child).map (fun i => (heap_get b'.heap i).edge) =
      es.reverse.map (fun e => ⟨e.1, e.2.1, e.2.2, child⟩) ∧
    (pathOf b' child).length = es.length := by
  simp only [tree_sequence_builder_add_path] at hok
  by_cases hc : child ≥ (num_nodes b : Int)
  · simp [if_pos hc] at hok
  simp only [if_neg hc] at hok
  cases halloc : add_path_alloc b child (timeOf b child) es.reverse none [] with
  | error z => simp [halloc, Bind.bind, Except.bind] at hok
  | ok r =>
    obtain ⟨b1, chain⟩ := r
    simp only [halloc, Bind.bind, Except.bind, hfl, Bool.false_eq_true, if_false,
      pure, Except.pure, Except.ok.injEq] at hok
    obtain ⟨ht, hnf, hp, hl, hr, hpi, hne, hle, hre, hni, hch, hh⟩ :=
      add_path_alloc_ok_effect child (timeOf b child) es.reverse b none [] b1 chain halloc
    subst hok
    have hb1len : child.toNat < b1.path.length := by rw [hp]; exact hlen
    have hpath2 : pathOf (setPath b1 child chain) child = chain :=
      pathOf_setPath_self b1 child chain hchild hb1len
    have hpath' : pathOf (tree_sequence_builder_index_edges (setPath b1 child chain) child)
        child = chain := by
      rw [index_edges_eq]
      simpa [pathOf] using hpath2
    have hheap' : (tree_sequence_builder_index_edges (setPath b1 child chain) child).heap =
        b1.heap := by
      rw [index_edges_eq]
      simp [setPath_heap]
    rw [hpath', hheap', hch, hh]
    constructor
    · simpa [List.length_reverse] using
        map_get_append_enumFrom child (timeOf b child) es.reverse b.heap b.next_id hfresh
    · simp [List.length_reverse]

/-- The result state of spec scenario 2 (two contiguous same-parent edges,
no compression). -/
def c4_result : TSB :=
  getOk (tree_sequence_builder_add_path tsb_two_nodes 1
    [(1, 3, 0), (0, 1, 0)] ⟨false, false⟩) tsb_empty

theorem claim_C4_witness :
    (AddPathFlags.mk false false).compress = false ∧
    (pathOf c4_result 1).map (fun i => (heap_get c4_result.heap i).edge) =
      [⟨0, 1, 0, 1⟩, ⟨1, 3, 0, 1⟩] ∧
    (pathOf c4_result 1).length = 2 := by
  refine ⟨rfl, ?_, ?_⟩
  · have := (claim_C4 tsb_two_nodes 1 [(1, 3, 0), (0, 1, 0)] ⟨false, false⟩
      c4_result rfl (by decide) (by decide) (by decide) (by decide)).1
    simpa using this
  · have := (claim_C4 tsb_two_nodes 1 [(1, 3, 0), (0, 1, 0)] ⟨false, false⟩
      c4_result rfl (by decide) (by decide) (by decide) (by decide)).2
    simpa using this

/-! ## Error codes reachable from path compression -/

theorem tsi_bind_err {α β : Type} (x : Except (TsiErr × TSB) α)
    (f : α → Except (TsiErr × TSB) β) (z : TsiErr × TSB)
    (h : (x >>= f) = .error z) :
    x = .error z ∨ ∃ a, x = .ok a ∧ f a = .error z := by
  cases x with
  | error e =>
    left
    simp only [Bind.bind, Except.bind] at h
    injection h with he
    rw [he]
  | ok a =>
    right
    simp only [Bind.bind, Except.bind] at h
    exact ⟨a, rfl, h⟩

theorem tsi_bind_ok {α β : Type} (x : Except (TsiErr × TSB) α)
    (f : α → Except (TsiErr × TSB) β) (r : β)
    (h : (x >>= f) = .ok r) :
    ∃ a, x = .ok a ∧ f a = .ok r := by
  cases x with
  | error e => simp [Bind.bind, Except.bind] at h
  | ok a =>
    simp only [Bind.bind, Except.bind] at h
    exact ⟨a, rfl, h⟩

theorem unindex_edge_err (b : TSB) (i : Nat) (z : TsiErr × TSB)
    (h : tree_sequence_builder_unindex_edge b i = .error z) : z.1 = .abort := by
  simp only [tree_sequence_builder_unindex_edge] at h
  split at h
  · split at h
    · split at h
      · simp at h
      · simp only [Except.error.injEq] at h
        rw [← h]
    · simp only [Except.error.injEq] at h
      rw [← h]
  · simp only [Except.error.injEq] at h
    rw [← h]

theorem pc_loop_err (pc : Int) :
    ∀ (mapped : List (Nat × Nat)) (b : TSB) (acc : List Nat) (z : TsiErr × TSB),
      pc_loop b pc mapped acc = .error z → z.1 = .abort := by
  intro mapped
  induction mapped with
  | nil => intro b acc z h; simp [pc_loop] at h
  | cons m rest ih =>
    intro b acc z h
    obtain ⟨s, d⟩ := m
    simp only [pc_loop] at h
    rcases tsi_bind_err _ _ _ h with herr | ⟨a, -, h2⟩
    · rw [alloc_edge_err_abort _ _ _ _ _ _ herr]
    · rcases tsi_bind_err _ _ _ h2 with herr | ⟨b3, -, h3⟩
      · exact unindex_edge_err _ _ _ herr
      · exact ih _ _ z h3

theorem squash_edges_err (b : TSB) (node : Int) (z : TsiErr × TSB)
    (h : tree_sequence_builder_squash_edges b node = .error z) : z.1 = .abort := by
  simp only [tree_sequence_builder_squash_edges] at h
  split at h
  · simp only [Except.error.injEq] at h
    rw [← h]
  · simp at h

theorem sic_step_err (b : TSB) (prev : Nat) (pe : indexed_edge_t) (z : TsiErr × TSB)
    (h : (if pe.edge.child ≠ NULL_NODE then
        Except.map (fun bu => { bu with
            heap := heap_set bu.heap prev ⟨{ pe.edge with child := NULL_NODE }, pe.time⟩ })
          (tree_sequence_builder_unindex_edge b prev)
      else .ok b) = .error z) : z.1 = .abort := by
  split at h
  · cases hu : tree_sequence_builder_unindex_edge b prev with
    | error z' =>
      rw [hu] at h
      simp only [Except.map, Except.error.injEq] at h
      rw [← h]
      exact unindex_edge_err _ _ _ hu
    | ok bu =>
      rw [hu] at h
      simp [Except.map] at h
  · simp at h

theorem sic_step2_err (b1 : TSB) (x : Nat) (xe : indexed_edge_t) (z : TsiErr × TSB)
    (h : (if xe.edge.child ≠ NULL_NODE then tree_sequence_builder_unindex_edge b1 x
      else .ok b1) = .error z) : z.1 = .abort := by
  split at h
  · exact unindex_edge_err _ _ _ h
  · simp at h

theorem squash_indexed_chain_err (node : Int) :
    ∀ (rest : List Nat) (b : TSB) (prev : Nat) (z : TsiErr × TSB),
      squash_indexed_chain b node prev rest = .error z → z.1 = .abort := by
  intro rest
  induction rest with
  | nil => intro b prev z h; simp [squash_indexed_chain] at h
  | cons x rest' ih =>
    intro b prev z h
    rw [squash_indexed_chain] at h
    split at h
    · split at h
      · rename_i heq
        simp only [Except.error.injEq] at h
        rw [← h]
        exact sic_step_err b prev (heap_get b.heap prev) _ heq
      · split at h
        · rename_i heq
          simp only [Except.error.injEq] at h
          rw [← h]
          exact sic_step2_err _ _ _ _ heq
        · exact ih _ _ z h
    · split at h
      · rename_i heq
        simp only [Except.error.injEq] at h
        rw [← h]
        exact ih _ _ _ heq
      · simp at h

theorem squash_indexed_edges_err (b : TSB) (node : Int) (z : TsiErr × TSB)
    (h : tree_sequence_builder_squash_indexed_edges b node = .error z) : z.1 = .abort := by
  simp only [tree_sequence_builder_squash_indexed_edges] at h
  split at h
  · simp only [Except.error.injEq] at h
    rw [← h]
  · rcases tsi_bind_err _ _ _ h with herr | ⟨r, -, h2⟩
    · exact squash_indexed_chain_err node _ _ _ _ herr
    · simp [pure, Except.pure] at h2

theorem make_pc_node_err (b : TSB) (mapped : List (Nat × Nat)) (z : TsiErr × TSB)
    (h : tree_sequence_builder_make_pc_node b mapped = .error z) :
    z.1 = .assertionFailure ∨ z.1 = .abort := by
  cases mapped with
  | nil =>
    simp only [tree_sequence_builder_make_pc_node, Except.error.injEq] at h
    right
    rw [← h]
  | cons m0 rest =>
    simp only [tree_sequence_builder_make_pc_node] at h
    split at h
    · simp only [Except.error.injEq] at h
      left
      rw [← h]
    · rcases tsi_bind_err _ _ _ h with herr | ⟨r, -, h2⟩
      · right
        exact pc_loop_err _ _ _ _ _ herr
      · rcases tsi_bind_err _ _ _ h2 with herr | ⟨b4, -, h3⟩
        · right
          exact squash_edges_err _ _ _ herr
        · rcases tsi_bind_err _ _ _ h3 with herr | ⟨b5, -, h4⟩
          · right
            exact squash_indexed_edges_err _ _ _ herr
          · simp at h4

theorem process_contig_err (b : TSB) (contig : List (Nat × Nat)) (z : TsiErr × TSB)
    (h : process_contig b contig = .error z) :
    z.1 = .assertionFailure ∨ z.1 = .abort := by
  simp only [process_contig] at h
  split at h
  · split at h
    · simp at h
    · split at h
      · simp at h
      · exact make_pc_node_err _ _ _ h
  · simp at h

theorem foldlM_process_contig_err :
    ∀ (contigs : List (List (Nat × Nat))) (b : TSB) (z : TsiErr × TSB),
      contigs.foldlM process_contig b = .error z →
      z.1 = .assertionFailure ∨ z.1 = .abort := by
  intro contigs
  induction contigs with
  | nil => intro b z h; simp [List.foldlM, pure, Except.pure] at h
  | cons c rest ih =>
    intro b z h
    simp only [List.foldlM_cons] at h
    rcases tsi_bind_err _ _ _ h with herr | ⟨b1, -, h2⟩
    · exact process_contig_err _ _ _ herr
    · exact ih b1 z h2

/-- `compress_path` can fail only with `ASSERTION_FAILURE` or an assert
abort; it never produces a validation error code. -/
theorem compress_path_err (b : TSB) (child : Int) (z : TsiErr × TSB)
    (h : tree_sequence_builder_compress_path b child = .error z) :
    z.1 = .assertionFailure ∨ z.1 = .abort := by
  simp only [tree_sequence_builder_compress_path] at h
  rcases tsi_bind_err _ _ _ h with herr | ⟨b1, -, h2⟩
  · exact foldlM_process_contig_err _ _ _ herr
  · right
    exact squash_edges_err _ _ _ h2

/-- Projection of the error code of a finished call (`none` on success). -/
def errCode (x : TsiRes TSB) : Option TsiErr :=
  match x with
  | .ok _ => none
  | .error (c, _) => some c

/-- C3, counterexample to the claim as stated: an input in which one entry
has `parent >= num_nodes` (namely `(3,4,5)`, parent 5 with only 2 nodes) but
`add_path` returns `NONCONTIGUOUS_EDGES`, because the earlier (more
leftward) contiguity violation between `(0,1,0)` and `(2,3,0)` is detected
before the bad-parent entry is visited. -/
theorem claim_C3_counterexample :
    (∃ e ∈ [((3 : Int), (4 : Int), (5 : Int)), (2, 3, 0), (0, 1, 0)],
      e.2.2 ≥ (num_nodes tsb_two_nodes : Int)) ∧
    errCode (tree_sequence_builder_add_path tsb_two_nodes 1
        [(3, 4, 5), (2, 3, 0), (0, 1, 0)] ⟨false, false⟩) =
      some .noncontiguousEdges := by
  constructor
  · exact ⟨(3, 4, 5), by simp, by decide⟩
  · decide

/-- C3, amended: the validation codes of `add_path` are sound (each code is
returned only when its condition actually occurs in the input), a fully
valid input yields none of them, and the restore-only validation code
`UNSORTED_EDGES` is never produced — but the checks run per edge in
left-to-right visiting order (parent bound, then time, then contiguity with
the previous edge), so when several violations coexist the first one
encountered wins.  Allocation-failure `NO_MEMORY` outcomes are outside the
model (memory is idealised as unbounded), so nothing is asserted about
them. -/
theorem claim_C3 (b : TSB) (child : Int) (es : List (Int × Int × Int))
    (fl : AddPathFlags)
    (hfresh : ∀ k ∈ heap_keys b.heap, k < b.next_id) :
    (∀ s, tree_sequence_builder_add_path b child es fl = .error (.badPathParent, s) →
      ∃ e ∈ es, e.2.2 ≥ (num_nodes b : Int)) ∧
    (∀ s, tree_sequence_builder_add_path b child es fl = .error (.badPathTime, s) →
      ∃ e ∈ es, timeOf b e.2.2 ≤ timeOf b child) ∧
    (∀ s, tree_sequence_builder_add_path b child es fl = .error (.noncontiguousEdges, s) →
      ¬ List.Chain' entry_contig es.reverse) ∧
    (∀ c s, tree_sequence_builder_add_path b child es fl = .error (c, s) →
      c ≠ .unsortedEdges) ∧
    (fl.compress = false → child < (num_nodes b : Int) →
      (∀ e ∈ es, e.2.2 < (num_nodes b : Int) ∧ timeOf b child < timeOf b e.2.2) →
      List.Chain' entry_contig es.reverse →
      ∃ b', tree_sequence_builder_add_path b child es fl = .ok b') := by
  by_cases hc : child ≥ (num_nodes b : Int)
  · refine ⟨?_, ?_, ?_, ?_, ?_⟩ <;>
      simp_all [tree_sequence_builder_add_path, if_pos hc]
  · have hstep : ∀ (z : TsiErr × TSB),
        tree_sequence_builder_add_path b child es fl = .error z →
        (add_path_alloc b child (timeOf b child) es.reverse none [] = .error z ∨
          (z.1 = .assertionFailure ∨ z.1 = .abort)) := by
      intro z hz
      simp only [tree_sequence_builder_add_path, if_neg hc] at hz
      rcases tsi_bind_err _ _ _ hz with herr | ⟨r, -, h2⟩
      · exact Or.inl herr
      · obtain ⟨b1, chain⟩ := r
        cases hcmp : fl.compress with
        | true =>
          rw [hcmp] at h2
          simp only [if_true] at h2
          rcases tsi_bind_err _ _ _ h2 with herr | ⟨b3, -, h3⟩
          · exact Or.inr (compress_path_err _ _ _ herr)
          · simp at h3
        | false =>
          rw [hcmp] at h2
          simp [Bind.bind, Except.bind, pure, Except.pure] at h2
    refine ⟨?_, ?_, ?_, ?_, ?_⟩
    · intro s hs
      rcases hstep _ hs with herr | hother
      · obtain ⟨e, he, hge⟩ := add_path_alloc_err_parent child (timeOf b child)
          es.reverse b none [] s herr
        exact ⟨e, List.mem_reverse.mp he, hge⟩
      · simp at hother
    · intro s hs
      rcases hstep _ hs with herr | hother
      · obtain ⟨e, he, hge⟩ := add_path_alloc_err_time child (timeOf b child)
          es.reverse b none [] s herr
        exact ⟨e, List.mem_reverse.mp he, hge⟩
      · simp at hother
    · intro s hs
      rcases hstep _ hs with herr | hother
      · have := add_path_alloc_err_noncont child (timeOf b child) es.reverse b none [] s
          hfresh (by simp) herr
        intro hchain
        exact this ⟨hchain, by simp⟩
      · simp at hother
    · intro c s hs
      rcases hstep _ hs with herr | hother
      · have := add_path_alloc_err_codes child (timeOf b child) es.reverse b none [] c s herr
        rcases this with h | h | h | h <;> simp [h]
      · rcases hother with h | h <;> simp_all
    · intro hcmp hlt hval hchain
      obtain ⟨⟨b1, chain⟩, hr⟩ := add_path_alloc_valid_ok child (timeOf b child) es.reverse b
        none [] hfresh
        (fun e he => ⟨(hval e (List.mem_reverse.mp he)).1, (hval e (List.mem_reverse.mp he)).2,
          (hval e (List.mem_reverse.mp he)).2⟩)
        hlt hchain (by simp)
      refine ⟨tree_sequence_builder_index_edges (setPath b1 child chain) child, ?_⟩
      simp [tree_sequence_builder_add_path, if_neg hc, hr, Bind.bind, Except.bind, hcmp,
        pure, Except.pure]

theorem claim_C3_witness :
    (∀ k ∈ heap_keys tsb_two_nodes.heap, k < tsb_two_nodes.next_id) ∧
    (AddPathFlags.mk false false).compress = false ∧
    (1 : Int) < (num_nodes tsb_two_nodes : Int) ∧
    (∃ b', tree_sequence_builder_add_path tsb_two_nodes 1 [(1, 3, 0), (0, 1, 0)]
      ⟨false, false⟩ = .ok b') := by
  refine ⟨by decide, rfl, by decide, ?_⟩
  exact (claim_C3 tsb_two_nodes 1 [(1, 3, 0), (0, 1, 0)] ⟨false, false⟩
    (by decide)).2.2.2.2 rfl (by decide) (by decide)
    (by norm_num [List.chain'_cons, List.chain'_singleton, entry_contig])

/-! ## Frame lemmas: which state components each operation leaves alone -/

theorem unindex_edge_ok (b : TSB) (i : Nat) (b' : TSB)
    (h : tree_sequence_builder_unindex_edge b i = .ok b') :
    i ∈ b.left_index ∧ i ∈ b.right_index ∧ i ∈ b.path_index ∧
    b' = { b with
            left_index := b.left_index.erase i
            right_index := b.right_index.erase i
            path_index := b.path_index.erase i } := by
  simp only [tree_sequence_builder_unindex_edge] at h
  split at h
  · split at h
    · split at h
      · simp only [Except.ok.injEq] at h
        refine ⟨by assumption, by simpa using (by assumption : i ∈ b.right_index), ?_, h.symm⟩
        simpa using (by assumption : i ∈ b.path_index)
      · simp at h
    · simp at h
  · simp at h

theorem squash_edges_ok_frame (b : TSB) (node : Int) (b' : TSB)
    (h : tree_sequence_builder_squash_edges b node = .ok b') :
    b'.time = b.time ∧ b'.node_flags = b.node_flags ∧ b'.next_id = b.next_id ∧
    b'.left_index = b.left_index ∧ b'.right_index = b.right_index ∧
    b'.path_index = b.path_index := by
  simp only [tree_sequence_builder_squash_edges] at h
  split at h
  · simp at h
  · simp only [Except.ok.injEq] at h
    rw [← h]
    refine ⟨setPath_time _ _ _, setPath_node_flags _ _ _, setPath_next_id _ _ _,
      setPath_left_index _ _ _, setPath_right_index _ _ _, setPath_path_index _ _ _⟩

theorem squash_indexed_chain_frame (node : Int) :
    ∀ (rest : List Nat) (b : TSB) (prev : Nat) (b' : TSB) (out : List Nat),
      squash_indexed_chain b node prev rest = .ok (b', out) →
      b'.time = b.time ∧ b'.node_flags = b.node_flags ∧ b'.next_id = b.next_id ∧
      b'.path = b.path := by
  intro rest
  induction rest with
  | nil =>
    intro b prev b' out h
    simp only [squash_indexed_chain, Except.ok.injEq, Prod.mk.injEq] at h
    rw [← h.1]
    exact ⟨rfl, rfl, rfl, rfl⟩
  | cons x rest' ih =>
    intro b prev b' out h
    rw [squash_indexed_chain] at h
    split at h
    · split at h
      · simp at h
      · rename_i b1 heq1
        split at h
        · simp at h
        · rename_i b2 heq2
          have h1frame : b1.time = b.time ∧ b1.node_flags = b.node_flags ∧
              b1.next_id = b.next_id ∧ b1.path = b.path := by
            revert heq1
            split
            · intro heq1
              cases hu : tree_sequence_builder_unindex_edge b prev with
              | error z => rw [hu] at heq1; simp [Except.map] at heq1
              | ok bu =>
                rw [hu] at heq1
                simp only [Except.map, Except.ok.injEq] at heq1
                obtain ⟨-, -, -, hbu⟩ := unindex_edge_ok b prev bu hu
                rw [← heq1, hbu]
                exact ⟨rfl, rfl, rfl, rfl⟩
            · intro heq1
              simp only [Except.ok.injEq] at heq1
              rw [← heq1]
              exact ⟨rfl, rfl, rfl, rfl⟩
          have h2frame : b2.time = b1.time ∧ b2.node_flags = b1.node_flags ∧
              b2.next_id = b1.next_id ∧ b2.path = b1.path := by
            revert heq2
            split
            · intro heq2
              obtain ⟨-, -, -, hb2⟩ := unindex_edge_ok b1 x b2 heq2
              rw [hb2]
              exact ⟨rfl, rfl, rfl, rfl⟩
            · intro heq2
              simp only [Except.ok.injEq] at heq2
              rw [← heq2]
              exact ⟨rfl, rfl, rfl, rfl⟩
          have := ih _ _ _ _ h
          exact ⟨this.1.trans (h2frame.1.trans h1frame.1),
            this.2.1.trans (h2frame.2.1.trans h1frame.2.1),
            this.2.2.1.trans (h2frame.2.2.1.trans h1frame.2.2.1),
            this.2.2.2.trans (h2frame.2.2.2.trans h1frame.2.2.2)⟩
    · split at h
      · simp at h
      · rename_i r heq
        simp only [Except.ok.injEq, Prod.mk.injEq] at h
        obtain ⟨hb', -⟩ := h
        rw [← hb']
        exact ih _ _ _ _ heq

theorem reindex_chain_frame (node : Int) :
    ∀ (chain : List Nat) (b : TSB),
      (reindex_chain b node chain).time = b.time ∧
      (reindex_chain b node chain).node_flags = b.node_flags ∧
      (reindex_chain b node chain).next_id = b.next_id ∧
      (reindex_chain b node chain).path = b.path := by
  intro chain
  induction chain with
  | nil => intro b; exact ⟨rfl, rfl, rfl, rfl⟩
  | cons x rest ih =>
    intro b
    rw [reindex_chain]
    split
    · exact (ih _)
    · exact (ih _)

theorem squash_indexed_edges_ok_frame (b : TSB) (node : Int) (b' : TSB)
    (h : tree_sequence_builder_squash_indexed_edges b node = .ok b') :
    b'.time = b.time ∧ b'.node_flags = b.node_flags ∧ b'.next_id = b.next_id := by
  simp only [tree_sequence_builder_squash_indexed_edges] at h
  split at h
  · simp at h
  · rcases tsi_bind_ok _ _ _ h with ⟨r, hr, h2⟩
    obtain ⟨rb, rout⟩ := r
    simp only [Except.ok.injEq] at h2
    obtain ⟨ht, hnf, hni, -⟩ := squash_indexed_chain_frame node _ _ _ _ _ hr
    rw [← h2]
    refine ⟨?_, ?_, ?_⟩
    · rw [(reindex_chain_frame node rout _).1, setPath_time, ht]
    · rw [(reindex_chain_frame node rout _).2.1, setPath_node_flags, hnf]
    · rw [(reindex_chain_frame node rout _).2.2.1, setPath_next_id, hni]

theorem index_edges_frame (b : TSB) (node : Int) :
    (tree_sequence_builder_index_edges b node).time = b.time ∧
    (tree_sequence_builder_index_edges b node).node_flags = b.node_flags ∧
    (tree_sequence_builder_index_edges b node).next_id = b.next_id ∧
    (tree_sequence_builder_index_edges b node).path = b.path ∧
    (tree_sequence_builder_index_edges b node).heap = b.heap := by
  rw [index_edges_eq]
  exact ⟨rfl, rfl, rfl, rfl, rfl⟩

theorem pc_loop_ok_frame (pc : Int) :
    ∀ (mapped : List (Nat × Nat)) (b : TSB) (acc : List Nat) (b' : TSB) (out : List Nat),
      pc_loop b pc mapped acc = .ok (b', out) →
      b'.time = b.time ∧ b'.node_flags = b.node_flags ∧ b'.path = b.path := by
  intro mapped
  induction mapped with
  | nil =>
    intro b acc b' out h
    simp only [pc_loop, Except.ok.injEq, Prod.mk.injEq] at h
    rw [← h.1]
    exact ⟨rfl, rfl, rfl⟩
  | cons m rest ih =>
    intro b acc b' out h
    obtain ⟨s, d⟩ := m
    simp only [pc_loop] at h
    rcases tsi_bind_ok _ _ _ h with ⟨a, ha, h2⟩
    obtain ⟨b1, eid⟩ := a
    obtain ⟨hb1, -, -⟩ := alloc_edge_ok_effect _ _ _ _ _ _ _ ha
    rcases tsi_bind_ok _ _ _ h2 with ⟨b3, hb3, h3⟩
    obtain ⟨-, -, -, hb3eq⟩ := unindex_edge_ok _ _ _ hb3
    have := ih _ _ _ _ h3
    subst hb1 hb3eq
    simp only at this
    exact this

/-! ## Claim C1: PC-ancestor time -/

/-- The time value the code actually assigns to a new PC ancestor: the
minimum of the seed `time[0] + 1` and the contig's source-parent times,
minus `PC_ANCESTOR_INCREMENT`. -/
def pc_candidate_time (b : TSB) (mapped : List (Nat × Nat)) : ℚ :=
  (mapped.foldl (fun acc m => min acc (timeOf b (heap_get b.heap m.1).edge.parent))
    (timeOf b 0 + 1)) - PC_ANCESTOR_INCREMENT

/-- `make_pc_node` bails out with `ASSERTION_FAILURE`, before creating any
node, whenever its candidate time is not above the shared child's time. -/
theorem make_pc_min_time_err (b : TSB) (m0 : Nat × Nat) (rest : List (Nat × Nat))
    (h : pc_candidate_time b (m0 :: rest) ≤ timeOf b (heap_get b.heap m0.2).edge.child) :
    tree_sequence_builder_make_pc_node b (m0 :: rest) = .error (.assertionFailure, b) := by
  rw [tree_sequence_builder_make_pc_node]
  rw [if_pos (by simpa [pc_candidate_time] using h)]

/-- C1, amended: the candidate time of a synthesized PC ancestor is
`min(time(node 0) + 1, min over the contig of time(source.parent))` minus
`2⁻¹⁶` — the code seeds the minimum with `time[0] + 1`, so the claimed
`min over the contig` is correct only when node 0's time plus one does not
undercut it.  If that candidate is not strictly above the shared existing
child's time, the operation fails with `ASSERTION_FAILURE`, leaving the
state (and hence the node table) unchanged; on success, exactly one node is
appended, carrying the candidate time and the `IS_PC_ANCESTOR` flag. -/
theorem claim_C1 (b : TSB) (m0 : Nat × Nat) (rest : List (Nat × Nat)) :
    (pc_candidate_time b (m0 :: rest) ≤ timeOf b (heap_get b.heap m0.2).edge.child →
      tree_sequence_builder_make_pc_node b (m0 :: rest) = .error (.assertionFailure, b)) ∧
    (∀ b', tree_sequence_builder_make_pc_node b (m0 :: rest) = .ok b' →
      timeOf b (heap_get b.heap m0.2).edge.child < pc_candidate_time b (m0 :: rest) ∧
      b'.time = b.time ++ [pc_candidate_time b (m0 :: rest)] ∧
      b'.node_flags = b.node_flags ++ [TSI_NODE_IS_PC_ANCESTOR]) := by
  constructor
  · exact make_pc_min_time_err b m0 rest
  · intro b' h
    rw [tree_sequence_builder_make_pc_node] at h
    by_cases hcond : pc_candidate_time b (m0 :: rest) ≤
        timeOf b (heap_get b.heap m0.2).edge.child
    · rw [if_pos (by simpa [pc_candidate_time] using hcond)] at h
      simp at h
    · refine ⟨lt_of_not_le hcond, ?_⟩
      rw [if_neg (by simpa [pc_candidate_time] using hcond)] at h
      rcases tsi_bind_ok _ _ _ h with ⟨r, hr, h2⟩
      obtain ⟨b2, head⟩ := r
      obtain ⟨ht2, hnf2, -⟩ := pc_loop_ok_frame _ _ _ _ _ _ hr
      rcases tsi_bind_ok _ _ _ h2 with ⟨b4, hb4, h3⟩
      obtain ⟨ht4, hnf4, -⟩ := squash_edges_ok_frame _ _ _ hb4
      rcases tsi_bind_ok _ _ _ h3 with ⟨b5, hb5, h4⟩
      obtain ⟨ht5, hnf5, -⟩ := squash_indexed_edges_ok_frame _ _ _ hb5
      simp only [Except.ok.injEq] at h4
      rw [← h4]
      constructor
      · rw [(index_edges_frame _ _).1, ht5, ht4, setPath_time, ht2]
        simp [tree_sequence_builder_add_node, pc_candidate_time]
      · rw [(index_edges_frame _ _).2.1, hnf5, hnf4, setPath_node_flags, hnf2]
        simp [tree_sequence_builder_add_node]

/-- Five nodes: node 0 has time 1 (young for node id 0), nodes 1 and 2 have
time 10, nodes 3 and 4 have time 3. -/
def c1_b5n : TSB :=
  { time := [1, 10, 10, 3, 3], node_flags := [0, 0, 0, 0, 0],
    path := [[], [], [], [], []], heap := [], next_id := 0,
    left_index := [], right_index := [], path_index := [], num_edges := 0,
    left_index_edges := [], right_index_edges := [] }

/-- State after `add_path(3, [(0,1,1),(1,2,2)])` (no compression). -/
def c1_bA : TSB :=
  getOk (tree_sequence_builder_add_path c1_b5n 3 [(1, 2, 2), (0, 1, 1)] ⟨false, false⟩)
    tsb_empty

/-- The state produced by the validation loop of the second `add_path` call,
before node 4's path is installed. -/
def c1_bMid_pre : TSB :=
  match add_path_alloc c1_bA 4 (timeOf c1_bA 4) [(1, 2, 2), (0, 1, 1)].reverse none [] with
  | .ok r => r.1
  | .error _ => tsb_empty

/-- The state `compress_path` sees for child 4: node 4's identical path has
been allocated (edge ids 2 and 3) and installed, but not yet indexed. -/
def c1_bMid : TSB := setPath c1_bMid_pre 4 [2, 3]

theorem c1_bMid_lookup_0 : timeOf c1_bMid 0 = 1 := by decide
theorem c1_bMid_lookup_1 : timeOf c1_bMid 1 = 10 := by decide
theorem c1_bMid_lookup_2 : timeOf c1_bMid 2 = 10 := by decide
theorem c1_bMid_lookup_3 : timeOf c1_bMid 3 = 3 := by decide
theorem c1_bMid_parent_2 : (heap_get c1_bMid.heap 2).edge.parent = 1 := by decide
theorem c1_bMid_parent_3 : (heap_get c1_bMid.heap 3).edge.parent = 2 := by decide
theorem c1_bMid_child_0 : (heap_get c1_bMid.heap 0).edge.child = 3 := by decide

/-- The candidate time the code computes for the contig `[(2,0),(3,1)]` in
`c1_bMid` is `min(1 + 1, 10, 10) - 2⁻¹⁶ = 2 - 2⁻¹⁶`, which is below the
shared child's time 3. -/
theorem c1_arith :
    pc_candidate_time c1_bMid [(2, 0), (3, 1)] ≤
      timeOf c1_bMid (heap_get c1_bMid.heap 0).edge.child := by
  rw [c1_bMid_child_0, c1_bMid_lookup_3]
  show (min (min (timeOf c1_bMid 0 + 1)
      (timeOf c1_bMid (heap_get c1_bMid.heap 2).edge.parent))
      (timeOf c1_bMid (heap_get c1_bMid.heap 3).edge.parent)) -
      PC_ANCESTOR_INCREMENT ≤ 3
  rw [c1_bMid_parent_2, c1_bMid_parent_3, c1_bMid_lookup_0, c1_bMid_lookup_1,
    c1_bMid_lookup_2]
  norm_num [PC_ANCESTOR_INCREMENT]

/-- C1, counterexample to the claim as stated: in `c1_bMid` the compression
scan finds one contig of two matched edges whose source parents (nodes 1 and
2) both have time 10, and the shared existing child (node 3) has time 3, so
`min over contig of time(source.parent) - 2⁻¹⁶ = 10 - 2⁻¹⁶ > 3` and the
claim mandates that a PC ancestor be created with that time.  The code
instead seeds the minimum with `time[0] + 1 = 2`, obtains the candidate
`2 - 2⁻¹⁶ ≤ 3`, and the whole `add_path` call fails with
`ASSERTION_FAILURE`, creating no node. -/
theorem claim_C1_counterexample :
    scan_go c1_bMid (pathOf c1_bMid 4) (-1) NULL_NODE [] [] = [[(2, 0), (3, 1)]] ∧
    (heap_get c1_bMid.heap 2).edge.parent = 1 ∧
    (heap_get c1_bMid.heap 3).edge.parent = 2 ∧
    timeOf c1_bMid 1 = 10 ∧ timeOf c1_bMid 2 = 10 ∧
    (heap_get c1_bMid.heap 0).edge.child = 3 ∧ timeOf c1_bMid 3 = 3 ∧
    timeOf c1_bMid 3 < min (timeOf c1_bMid 1) (timeOf c1_bMid 2) - PC_ANCESTOR_INCREMENT ∧
    errCode (tree_sequence_builder_add_path c1_bA 4 [(1, 2, 2), (0, 1, 1)] ⟨true, false⟩) =
      some .assertionFailure := by
  refine ⟨by decide, by decide, by decide, by decide, by decide, by decide, by decide, ?_, ?_⟩
  · rw [c1_bMid_lookup_1, c1_bMid_lookup_2, c1_bMid_lookup_3]
    norm_num [PC_ANCESTOR_INCREMENT]
  · have hmk : tree_sequence_builder_make_pc_node c1_bMid [(2, 0), (3, 1)] =
        .error (.assertionFailure, c1_bMid) :=
      make_pc_min_time_err c1_bMid (2, 0) [(3, 1)] c1_arith
    have hproc : process_contig c1_bMid [(2, 0), (3, 1)] =
        .error (.assertionFailure, c1_bMid) := by
      rw [process_contig]
      rw [if_pos (by decide : (1 : Nat) < [((2 : Nat), (0 : Nat)), (3, 1)].length)]
      rw [if_neg (by decide :
        ¬ flagsOf c1_bMid (heap_get c1_bMid.heap ((2, 0) : Nat × Nat).2).edge.child &&&
          TSI_NODE_IS_PC_ANCESTOR ≠ 0)]
      exact hmk
    have hcmp : tree_sequence_builder_compress_path c1_bMid 4 =
        .error (.assertionFailure, c1_bMid) := by
      rw [tree_sequence_builder_compress_path]
      have hscan : scan_go c1_bMid (pathOf c1_bMid 4) (-1) NULL_NODE [] [] =
          [[(2, 0), (3, 1)]] := by decide
      rw [hscan]
      simp only [List.foldlM_cons, List.foldlM_nil, hproc, Bind.bind, Except.bind]
    have halloc : add_path_alloc c1_bA 4 (timeOf c1_bA 4)
        [((1 : Int), (2 : Int), (2 : Int)), (0, 1, 1)].reverse none [] =
        .ok (c1_bMid_pre, [2, 3]) := by decide
    simp only [tree_sequence_builder_add_path,
      if_neg (by decide : ¬ ((4 : Int) ≥ (num_nodes c1_bA : Int))), halloc,
      Bind.bind, Except.bind]
    have hmid : setPath c1_bMid_pre 4 [2, 3] = c1_bMid := rfl
    simp [hmid, hcmp, errCode]

theorem claim_C1_witness :
    pc_candidate_time c1_bMid [(2, 0), (3, 1)] ≤
      timeOf c1_bMid (heap_get c1_bMid.heap ((2, 0) : Nat × Nat).2).edge.child ∧
    tree_sequence_builder_make_pc_node c1_bMid [(2, 0), (3, 1)] =
      .error (.assertionFailure, c1_bMid) :=
  ⟨c1_arith, (claim_C1 c1_bMid (2, 0) [(3, 1)]).1 c1_arith⟩

/-! ## Claim C5: the PC-ancestor reuse branch -/

/-- Effect of the reuse loop: only the parent fields of the listed source
edges change. -/
theorem reuse_fold_effect (mc : Int) :
    ∀ (ms : List (Nat × Nat)) (b : TSB),
      (ms.foldl (fun bb m =>
        let se := heap_get bb.heap m.1
        { bb with heap := heap_set bb.heap m.1 ⟨{ se.edge with parent := mc }, se.time⟩ }) b).time
          = b.time ∧
      (ms.foldl (fun bb m =>
        let se := heap_get bb.heap m.1
        { bb with heap := heap_set bb.heap m.1 ⟨{ se.edge with parent := mc }, se.time⟩ }) b).node_flags
          = b.node_flags ∧
      (ms.foldl (fun bb m =>
        let se := heap_get bb.heap m.1
        { bb with heap := heap_set bb.heap m.1 ⟨{ se.edge with parent := mc }, se.time⟩ }) b).path
          = b.path ∧
      (ms.foldl (fun bb m =>
        let se := heap_get bb.heap m.1
        { bb with heap := heap_set bb.heap m.1 ⟨{ se.edge with parent := mc }, se.time⟩ }) b).next_id
          = b.next_id ∧
      (ms.foldl (fun bb m =>
        let se := heap_get bb.heap m.1
        { bb with heap := heap_set bb.heap m.1 ⟨{ se.edge with parent := mc }, se.time⟩ }) b).left_index
          = b.left_index ∧
      (ms.foldl (fun bb m =>
        let se := heap_get bb.heap m.1
        { bb with heap := heap_set bb.heap m.1 ⟨{ se.edge with parent := mc }, se.time⟩ }) b).right_index
          = b.right_index ∧
      (ms.foldl (fun bb m =>
        let se := heap_get bb.heap m.1
        { bb with heap := heap_set bb.heap m.1 ⟨{ se.edge with parent := mc }, se.time⟩ }) b).path_index
          = b.path_index ∧
      heap_keys (ms.foldl (fun bb m =>
        let se := heap_get bb.heap m.1
        { bb with heap := heap_set bb.heap m.1 ⟨{ se.edge with parent := mc }, se.time⟩ }) b).heap
          = heap_keys b.heap ∧
      (∀ i, (∀ m ∈ ms, m.1 ≠ i) →
        heap_get (ms.foldl (fun bb m =>
          let se := heap_get bb.heap m.1
          { bb with heap := heap_set bb.heap m.1 ⟨{ se.edge with parent := mc }, se.time⟩ }) b).heap i
          = heap_get b.heap i) ∧
      (∀ m ∈ ms, m.1 ∈ heap_keys b.heap →
        heap_get (ms.foldl (fun bb m =>
          let se := heap_get bb.heap m.1
          { bb with heap := heap_set bb.heap m.1 ⟨{ se.edge with parent := mc }, se.time⟩ }) b).heap m.1
          = ⟨{ (heap_get b.heap m.1).edge with parent := mc }, (heap_get b.heap m.1).time⟩) := by
  intro ms
  induction ms with
  | nil =>
    intro b
    refine ⟨rfl, rfl, rfl, rfl, rfl, rfl, rfl, rfl, fun i _ => rfl, fun m hm => absurd hm (by simp)⟩
  | cons m tl ih =>
    intro b
    obtain ⟨s, d⟩ := m
    simp only [List.foldl_cons]
    set b1 : TSB := { b with
      heap := heap_set b.heap s
        ⟨{ (heap_get b.heap s).edge with parent := mc }, (heap_get b.heap s).time⟩ } with hb1def
    obtain ⟨iht, ihnf, ihp, ihni, ihl, ihr, ihpi, ihk, ihuntouched, ihsrc⟩ := ih b1
    have hb1keys : heap_keys b1.heap = heap_keys b.heap := by
      rw [hb1def]
      exact heap_keys_set _ _ _
    refine ⟨by rw [iht, hb1def], by rw [ihnf, hb1def], by rw [ihp, hb1def],
      by rw [ihni, hb1def], by rw [ihl, hb1def], by rw [ihr, hb1def],
      by rw [ihpi, hb1def], by rw [ihk, hb1keys], ?_, ?_⟩
    · intro i hi
      have hsne : s ≠ i := hi (s, d) (List.mem_cons_self _ _)
      rw [ihuntouched i (fun mm hmm => hi mm (List.mem_cons_of_mem _ hmm))]
      rw [hb1def]
      exact heap_get_set_ne _ _ _ _ hsne
    · intro mm hmm hmem
      rcases List.mem_cons.mp hmm with heq | htl
      · subst heq
        by_cases hintl : ∀ m' ∈ tl, m'.1 ≠ s
        · rw [ihuntouched s hintl, hb1def]
          exact heap_get_set_self _ _ _ hmem
        · push_neg at hintl
          obtain ⟨m', hm', hm's⟩ := hintl
          have hmem1 : m'.1 ∈ heap_keys b1.heap := by rw [hb1keys, hm's]; exact hmem
          have := ihsrc m' hm' hmem1
          rw [hm's] at this
          rw [this]
          have hget1 : heap_get b1.heap s =
              ⟨{ (heap_get b.heap s).edge with parent := mc }, (heap_get b.heap s).time⟩ := by
            rw [hb1def]
            exact heap_get_set_self _ _ _ hmem
          rw [hget1]
      · have hmem1 : mm.1 ∈ heap_keys b1.heap := by rw [hb1keys]; exact hmem
        have := ihsrc mm htl hmem1
        rw [this]
        by_cases hms : s = mm.1
        · have hget1 : heap_get b1.heap mm.1 =
              ⟨{ (heap_get b.heap mm.1).edge with parent := mc }, (heap_get b.heap mm.1).time⟩ := by
            rw [hb1def, ← hms]
            rw [hms]
            exact heap_get_set_self _ _ _ hmem
          rw [hget1]
        · have hget1 : heap_get b1.heap mm.1 = heap_get b.heap mm.1 := by
            rw [hb1def]
            exact heap_get_set_ne _ _ _ _ hms
          rw [hget1]

/-- C5: when a contig of size ≥ 2 matches a shared existing child that
already carries the `IS_PC_ANCESTOR` flag, `process_contig` reuses it: the
call succeeds, no node is created, the three indexes and every path are
untouched, every heap entry other than the contig's source edges is
untouched, and each source edge merely has its parent rewritten to the
existing PC-ancestor child (its interval, child and cached time are
preserved). -/
theorem claim_C5 (b : TSB) (m0 : Nat × Nat) (rest : List (Nat × Nat))
    (hlen : 1 < (m0 :: rest).length)
    (hflag : flagsOf b (heap_get b.heap m0.2).edge.child &&& TSI_NODE_IS_PC_ANCESTOR ≠ 0) :
    ∃ b', process_contig b (m0 :: rest) = .ok b' ∧
      b'.time = b.time ∧ b'.node_flags = b.node_flags ∧ b'.path = b.path ∧
      b'.next_id = b.next_id ∧ b'.left_index = b.left_index ∧
      b'.right_index = b.right_index ∧ b'.path_index = b.path_index ∧
      heap_keys b'.heap = heap_keys b.heap ∧
      (∀ i, (∀ m ∈ m0 :: rest, m.1 ≠ i) → heap_get b'.heap i = heap_get b.heap i) ∧
      (∀ m ∈ m0 :: rest, m.1 ∈ heap_keys b.heap →
        heap_get b'.heap m.1 =
          ⟨{ (heap_get b.heap m.1).edge with
              parent := (heap_get b.heap m0.2).edge.child },
            (heap_get b.heap m.1).time⟩) := by
  have heq : process_contig b (m0 :: rest) = .ok ((m0 :: rest).foldl (fun bb m =>
      let se := heap_get bb.heap m.1
      { bb with heap := heap_set bb.heap m.1 ⟨{ se.edge with parent := (heap_get b.heap m0.2).edge.child }, se.time⟩ }) b) := by
    rw [process_contig, if_pos hlen]
    rw [if_pos hflag]
  exact ⟨_, heq, reuse_fold_effect ((heap_get b.heap m0.2).edge.child) (m0 :: rest) b⟩

/-- A hand-built reachable state for exercising the reuse branch: node 2 is
a PC ancestor (flag set) with path `[(0,1,0,2), (1,2,1,2)]` (edge ids 0, 1,
indexed), and node 4's not-yet-indexed new path is `[(0,1,0,4), (1,2,1,4)]`
(edge ids 10, 11), which matches node 2's path edge for edge. -/
def c5_state : TSB :=
  { time := [5, 5, 4, 1, 1], node_flags := [0, 0, TSI_NODE_IS_PC_ANCESTOR, 0, 0],
    path := [[], [], [0, 1], [], [10, 11]],
    heap := [(0, ⟨⟨0, 1, 0, 2⟩, 4⟩), (1, ⟨⟨1, 2, 1, 2⟩, 4⟩),
             (10, ⟨⟨0, 1, 0, 4⟩, 1⟩), (11, ⟨⟨1, 2, 1, 4⟩, 1⟩)],
    next_id := 12, left_index := [0, 1], right_index := [0, 1], path_index := [0, 1],
    num_edges := 0, left_index_edges := [], right_index_edges := [] }

theorem claim_C5_witness :
    1 < ([((10 : Nat), (0 : Nat)), (11, 1)]).length ∧
    (flagsOf c5_state (heap_get c5_state.heap ((10, 0) : Nat × Nat).2).edge.child &&&
      TSI_NODE_IS_PC_ANCESTOR ≠ 0) ∧
    ∃ b', process_contig c5_state [(10, 0), (11, 1)] = .ok b' ∧
      b'.time = c5_state.time ∧ b'.node_flags = c5_state.node_flags ∧
      b'.path = c5_state.path ∧ b'.next_id = c5_state.next_id ∧
      b'.left_index = c5_state.left_index ∧ b'.right_index = c5_state.right_index ∧
      b'.path_index = c5_state.path_index ∧
      heap_keys b'.heap = heap_keys c5_state.heap ∧
      (∀ i, (∀ m ∈ [((10 : Nat), (0 : Nat)), (11, 1)], m.1 ≠ i) →
        heap_get b'.heap i = heap_get c5_state.heap i) ∧
      (∀ m ∈ [((10 : Nat), (0 : Nat)), (11, 1)], m.1 ∈ heap_keys c5_state.heap →
        heap_get b'.heap m.1 =
          ⟨{ (heap_get c5_state.heap m.1).edge with
              parent := (heap_get c5_state.heap ((10, 0) : Nat × Nat).2).edge.child },
            (heap_get c5_state.heap m.1).time⟩) :=
  ⟨by decide, by decide,
    claim_C5 c5_state (10, 0) [(11, 1)] (by decide) (by decide)⟩

/-! ## Claims C6 and C9: `restore_edges` -/

/-- Sortedness required by the spec reading of C6: by child ascending, and
within a child by left strictly ascending. -/
def c6_rel (e f : edge_t) : Prop :=
  e.child ≤ f.child ∧ (e.child = f.child → e.left < f.left)

/-- What the code actually accepts: child ascending, and within a child no
overlap (`prev.right ≤ next.left`); gaps are allowed. -/
def c9_rel (e f : edge_t) : Prop :=
  e.child ≤ f.child ∧ (e.child = f.child → e.right ≤ f.left)

instance : DecidableRel c6_rel := fun e f =>
  inferInstanceAs (Decidable (_ ∧ _))

instance : DecidableRel c9_rel := fun e f =>
  inferInstanceAs (Decidable (_ ∧ _))

/-- Loop invariant of `restore_edges`: either nothing has been processed and
all paths are empty, or `prev` points at the edge allocated for the previous
array entry `pe`, whose child's path is non-empty while every path of a
larger child id is still empty. -/
def restore_inv (b : TSB) (prev : Option Nat) (pc : Option Int) : Prop :=
  (prev = none ∧ pc = none ∧ ∀ c : Int, pathOf b c = []) ∨
  (∃ pv pe, prev = some pv ∧ pc = some pe.child ∧ pv < b.next_id ∧
    (heap_get b.heap pv).edge = pe ∧ pe.left < pe.right ∧
    pathOf b pe.child ≠ [] ∧ (∀ c : Int, pe.child < c → pathOf b c = []))

/-- Per-entry validity needed for the restore loop not to trip an assert. -/
def restore_val (b : TSB) (es : List edge_t) : Prop :=
  ∀ e ∈ es, 0 ≤ e.child ∧ e.child < (num_nodes b : Int) ∧
    e.parent < (num_nodes b : Int) ∧ timeOf b e.child < timeOf b e.parent ∧
    e.left < e.right ∧ e.child.toNat < b.path.length

theorem restore_loop_sound :
    ∀ (es : List edge_t) (b : TSB) (prev : Option Nat) (pc : Option Int),
      restore_val b es → (∀ k ∈ heap_keys b.heap, k < b.next_id) →
      restore_inv b prev pc →
      (∀ z, restore_edges_loop b prev pc es = .error z → z.1 = .unsortedEdges) ∧
      (∀ b', restore_edges_loop b prev pc es = .ok b' →
        (prev = none → List.Chain' c6_rel es) ∧
        (∀ pv pe, prev = some pv → pc = some pe.child →
          (heap_get b.heap pv).edge = pe → pe.left < pe.right →
          List.Chain c6_rel pe es)) := by
  intro es
  induction es with
  | nil =>
    intro b prev pc hval hfresh hinv
    constructor
    · intro z h
      simp [restore_edges_loop] at h
    · intro b' h
      exact ⟨fun _ => trivial, fun pv pe _ _ _ _ => List.Chain.nil⟩
  | cons e rest ih =>
    intro b prev pc hval hfresh hinv
    obtain ⟨hc0, hcn, hpn, htp, hlr, hcl⟩ := hval e (List.mem_cons_self _ _)
    -- the single-step analysis, shared by both conclusions
    by_cases hsortc : pc.any (fun pcv => decide (pcv > e.child))
    · -- child order violated: immediate UNSORTED return
      rw [restore_edges_loop, if_pos hsortc]
      refine ⟨fun z h => by simp only [Except.error.injEq] at h; rw [← h], fun b' h => by simp at h⟩
    · rw [restore_edges_loop, if_neg hsortc]
      have hnotgt : ∀ pcv : Int, pc = some pcv → pcv ≤ e.child := by
        intro pcv hpcv
        rw [hpcv] at hsortc
        simp only [Option.any, decide_eq_true_eq] at hsortc
        omega
      -- the allocation succeeds
      have hcond : e.parent < (num_nodes b : Int) ∧ e.child < (num_nodes b : Int) ∧
          timeOf b e.child < timeOf b e.parent := ⟨hpn, hcn, htp⟩
      have halloc : tree_sequence_builder_alloc_edge b e.left e.right e.parent e.child =
          .ok ({ b with
                  heap := b.heap ++ [(b.next_id, ⟨⟨e.left, e.right, e.parent, e.child⟩, timeOf b e.child⟩)]
                  next_id := b.next_id + 1 },
                b.next_id) := by
        simp [tree_sequence_builder_alloc_edge, if_pos hcond]
      simp only [halloc, Bind.bind, Except.bind]
      set b1 : TSB := { b with
          heap := b.heap ++ [(b.next_id, ⟨⟨e.left, e.right, e.parent, e.child⟩, timeOf b e.child⟩)]
          next_id := b.next_id + 1 } with hb1
      have hb1path : b1.path = b.path := by rw [hb1]
      have hb1time : b1.time = b.time := by rw [hb1]
      have hb1heapget : ∀ j, j < b.next_id → heap_get b1.heap j = heap_get b.heap j := by
        intro j hj
        rw [hb1]
        dsimp only
        rw [heap_get_append_ne]
        simp only [heap_keys_cons, heap_keys_nil, List.mem_cons, List.not_mem_nil, or_false]
        omega
      have hb1get_new : heap_get b1.heap b.next_id =
          ⟨⟨e.left, e.right, e.parent, e.child⟩, timeOf b e.child⟩ := by
        rw [hb1]
        dsimp only
        rw [heap_get_append_right]
        · simp [heap_get]
        · intro hcmem
          exact absurd (hfresh _ hcmem) (lt_irrefl _)
      have hfresh1 : ∀ k ∈ heap_keys b1.heap, k < b1.next_id := by
        rw [hb1]
        dsimp only
        intro k hk
        simp only [heap_keys_append, List.mem_append, heap_keys_cons, heap_keys_nil,
          List.mem_cons, List.not_mem_nil, or_false] at hk
        rcases hk with hk | hk
        · exact Nat.lt_succ_of_lt (hfresh k hk)
        · omega
      have hpathOf1 : ∀ c : Int, pathOf b1 c = pathOf b c := by
        intro c
        simp [pathOf, hb1path]
      by_cases hempty : (pathOf b1 e.child).isEmpty
      · -- first edge of this child
        simp only [if_pos hempty]
        set b2 : TSB := setPath b1 e.child [b.next_id] with hb2
        set b3 : TSB := tree_sequence_builder_index_edge b2 b.next_id with hb3
        have hb3path : ∀ c : Int, c ≠ e.child → pathOf b3 c = pathOf b c := by
          intro c hcne
          rw [hb3]
          show pathOf b2 c = pathOf b c
          rw [hb2, pathOf_setPath_ne b1 e.child c _ (Ne.symm hcne), hpathOf1]
        have hb3pathe : pathOf b3 e.child = [b.next_id] := by
          rw [hb3]
          show pathOf b2 e.child = [b.next_id]
          rw [hb2]
          exact pathOf_setPath_self b1 e.child [b.next_id] hc0 (by rw [hb1path]; exact hcl)
        have hb3get : ∀ j, heap_get b3.heap j = heap_get b1.heap j := by
          intro j
          rw [hb3, hb2]
          show heap_get (setPath b1 e.child [b.next_id]).heap j = heap_get b1.heap j
          rw [setPath_heap]
        have hval3 : restore_val b3 rest := by
          intro f hf
          obtain ⟨f1, f2, f3, f4, f5, f6⟩ := hval f (List.mem_cons_of_mem _ hf)
          have ht3 : b3.time = b.time := by
            rw [hb3]
            show (setPath b1 e.child [b.next_id]).time = b.time
            rw [setPath_time, hb1time]
          have hp3 : b3.path.length = b.path.length := by
            rw [hb3]
            show (setPath b1 e.child [b.next_id]).path.length = b.path.length
            rw [hb2] at *
            by_cases h0 : (0 : Int) ≤ e.child
            · simp [setPath, h0, hb1path]
            · simp [setPath, h0, hb1path]
          exact ⟨f1, by simpa [num_nodes, ht3] using f2, by simpa [num_nodes, ht3] using f3,
            by simpa [timeOf, ht3] using f4, f5, by rw [hp3]; exact f6⟩
        have hfresh3 : ∀ k ∈ heap_keys b3.heap, k < b3.next_id := by
          intro k hk
          have : b3.heap = b1.heap := by
            rw [hb3, hb2]
            show (setPath b1 e.child [b.next_id]).heap = b1.heap
            rw [setPath_heap]
          rw [this] at hk
          have : b3.next_id = b1.next_id := by
            rw [hb3, hb2]
            show (setPath b1 e.child [b.next_id]).next_id = b1.next_id
            rw [setPath_next_id]
          rw [this]
          exact hfresh1 k hk
        have hinv3 : restore_inv b3 (some b.next_id) (some e.child) := by
          right
          refine ⟨b.next_id, e, rfl, rfl, ?_, ?_, hlr, ?_, ?_⟩
          · have : b3.next_id = b1.next_id := by
              rw [hb3, hb2]
              show (setPath b1 e.child [b.next_id]).next_id = b1.next_id
              rw [setPath_next_id]
            rw [this, hb1]
            dsimp only
            omega
          · rw [hb3get, hb1get_new]
          · rw [hb3pathe]
            simp
          · intro c hcgt
            rw [hb3path c (by omega)]
            rcases hinv with ⟨-, -, hall⟩ | ⟨pv, pe, -, hpce, -, -, -, -, hgt⟩
            · exact hall c
            · apply hgt
              have := hnotgt pe.child hpce
              omega
        obtain ⟨ihe, iho⟩ := ih b3 (some b.next_id) (some e.child) hval3 hfresh3 hinv3
        refine ⟨ihe, ?_⟩
        intro b' hok
        have hchain_rest : List.Chain c6_rel e rest := by
          have := (iho b' hok).2 b.next_id e rfl rfl (by rw [hb3get, hb1get_new]) hlr
          exact this
        constructor
        · intro _
          exact hchain_rest
        · intro pv pe hpv hpc hget hplr
          refine List.Chain.cons ?_ hchain_rest
          rcases hinv with ⟨hpn', -, -⟩ | ⟨pv', pe', hpv', hpce', hpvlt', hget', -, hne', hgt'⟩
          · rw [hpn'] at hpv
            simp at hpv
          · rw [hpv] at hpv'
            injection hpv' with hpveq
            subst hpveq
            rw [hpce'] at hpc
            injection hpc with hpceq
            have hpe : pe = pe' := by
              rw [← hget, ← hget']
            subst hpe
            have hle : pe.child ≤ e.child := hnotgt pe.child hpce'
            refine ⟨hle, ?_⟩
            intro hceq
            exfalso
            apply hne'
            have := hpathOf1 pe.child
            rw [hceq] at *
            rw [← this]
            simpa using hempty
      · -- the child's path is already non-empty: link after `prev`
        simp only [if_neg hempty]
        rcases hinv with ⟨hpn', -, hall⟩ | ⟨pv, pe, hpv, hpce, hpvlt, hget, hpelr, hne, hgt⟩
        · exfalso
          apply hempty
          rw [hpathOf1, hall]
          rfl
        · rw [hpv]
          dsimp only
          have hgetpv : heap_get b1.heap pv = heap_get b.heap pv := hb1heapget pv hpvlt
          have hchildeq : e.child = pe.child := by
            by_contra hne'
            have h1 : pe.child ≤ e.child := hnotgt pe.child hpce
            have h2 : pe.child < e.child := by omega
            apply hempty
            rw [hpathOf1, hgt e.child h2]
            rfl
          by_cases hovl : (heap_get b1.heap pv).edge.right > e.left
          · rw [if_pos hovl]
            refine ⟨fun z h => by simp only [Except.error.injEq] at h; rw [← h],
              fun b' h => by simp at h⟩
          · rw [if_neg hovl]
            set b2 : TSB := setPath b1 e.child (pathOf b1 e.child ++ [b.next_id]) with hb2
            set b3 : TSB := tree_sequence_builder_index_edge b2 b.next_id with hb3
            have hb3path : ∀ c : Int, c ≠ e.child → pathOf b3 c = pathOf b c := by
              intro c hcne
              rw [hb3]
              show pathOf b2 c = pathOf b c
              rw [hb2, pathOf_setPath_ne b1 e.child c (pathOf b1 e.child ++ [b.next_id])
                (Ne.symm hcne), hpathOf1]
            have hb3pathe : pathOf b3 e.child = pathOf b1 e.child ++ [b.next_id] := by
              rw [hb3]
              show pathOf b2 e.child = _
              rw [hb2]
              exact pathOf_setPath_self b1 e.child _ hc0 (by rw [hb1path]; exact hcl)
            have hb3get : ∀ j, heap_get b3.heap j = heap_get b1.heap j := by
              intro j
              rw [hb3]
              show heap_get b2.heap j = heap_get b1.heap j
              rw [hb2, setPath_heap]
            have hval3 : restore_val b3 rest := by
              intro f hf
              obtain ⟨f1, f2, f3, f4, f5, f6⟩ := hval f (List.mem_cons_of_mem _ hf)
              have ht3 : b3.time = b.time := by
                rw [hb3]
                show (setPath b1 e.child _).time = b.time
                rw [setPath_time, hb1time]
              have hp3 : b3.path.length = b.path.length := by
                rw [hb3]
                show (setPath b1 e.child _).path.length = b.path.length
                by_cases h0 : (0 : Int) ≤ e.child
                · simp [setPath, h0, hb1path]
                · simp [setPath, h0, hb1path]
              exact ⟨f1, by simpa [num_nodes, ht3] using f2, by simpa [num_nodes, ht3] using f3,
                by simpa [timeOf, ht3] using f4, f5, by rw [hp3]; exact f6⟩
            have hfresh3 : ∀ k ∈ heap_keys b3.heap, k < b3.next_id := by
              intro k hk
              have hh : b3.heap = b1.heap := by
                rw [hb3]
                show b2.heap = b1.heap
                rw [hb2, setPath_heap]
              have hn : b3.next_id = b1.next_id := by
                rw [hb3]
                show b2.next_id = b1.next_id
                rw [hb2, setPath_next_id]
              rw [hh] at hk
              rw [hn]
              exact hfresh1 k hk
            have hinv3 : restore_inv b3 (some b.next_id) (some e.child) := by
              right
              refine ⟨b.next_id, e, rfl, rfl, ?_, ?_, hlr, ?_, ?_⟩
              · have hn : b3.next_id = b1.next_id := by
                  rw [hb3]
                  show b2.next_id = b1.next_id
                  rw [hb2, setPath_next_id]
                rw [hn, hb1]
                dsimp only
                omega
              · rw [hb3get, hb1get_new]
              · rw [hb3pathe]
                simp
              · intro c hcgt
                rw [hb3path c (by omega)]
                apply hgt
                omega
            obtain ⟨ihe, iho⟩ := ih b3 (some b.next_id) (some e.child) hval3 hfresh3 hinv3
            refine ⟨ihe, ?_⟩
            intro b' hok
            have hchain_rest : List.Chain c6_rel e rest :=
              (iho b' hok).2 b.next_id e rfl rfl (by rw [hb3get, hb1get_new]) hlr
            constructor
            · intro habs
              simp at habs
            · intro pv' pe' hpv' hpc' hget' hplr'
              injection hpv' with hpveq
              subst hpveq
              rw [hpce] at hpc'
              injection hpc' with hpceq
              have hpe : pe' = pe := by rw [← hget', ← hget]
              subst hpe
              refine List.Chain.cons ⟨by omega, ?_⟩ hchain_rest
              intro _
              rw [hgetpv, hget] at hovl
              omega

/-- A successful `restore_edges_loop` always returns through the `[]` case,
which passes the state through `freeze_indexes`. -/
theorem restore_loop_ok_freeze :
    ∀ (es : List edge_t) (b : TSB) (prev : Option Nat) (pc : Option Int) (b' : TSB),
      restore_edges_loop b prev pc es = .ok b' →
      ∃ bf, b' = tree_sequence_builder_freeze_indexes bf := by
  intro es
  induction es with
  | nil =>
    intro b prev pc b' h
    simp only [restore_edges_loop, Except.ok.injEq] at h
    exact ⟨b, h.symm⟩
  | cons e rest ih =>
    intro b prev pc b' h
    rw [restore_edges_loop] at h
    by_cases hs : pc.any (fun pcv => decide (pcv > e.child))
    · rw [if_pos hs] at h
      simp at h
    · rw [if_neg hs] at h
      simp only [Bind.bind, Except.bind] at h
      cases halloc : tree_sequence_builder_alloc_edge b e.left e.right e.parent e.child with
      | error z =>
        rw [halloc] at h
        simp at h
      | ok a =>
        rw [halloc] at h
        dsimp only at h
        by_cases hempty : (pathOf a.1 e.child).isEmpty
        · rw [if_pos hempty] at h
          exact ih _ _ _ _ h
        · rw [if_neg hempty] at h
          cases prev with
          | none => simp at h
          | some pv =>
            dsimp only at h
            by_cases hovl : (heap_get a.1.heap pv).edge.right > e.left
            · rw [if_pos hovl] at h
              simp at h
            · rw [if_neg hovl] at h
              exact ih _ _ _ _ h

/-- All paths of the two-node test builder are empty. -/
theorem tsb_two_nodes_paths_empty : ∀ c : Int, pathOf tsb_two_nodes c = [] := by
  intro c
  simp only [pathOf, tsb_two_nodes]
  split
  · rcases c.toNat with _ | _ | n <;> rfl
  · rfl

/-- C6: `restore_edges` rejects any input whose edges are not sorted by child
ascending and, within a child, by left strictly ascending, returning
`UNSORTED_EDGES`; a successful call has passed the final state through
`freeze_indexes`, so the flat left/right snapshots are populated (one edge per
index entry) and `num_edges` equals the index size. -/
theorem claim_C6 (b : TSB) (es : List edge_t)
    (hval : restore_val b es)
    (hfresh : ∀ k ∈ heap_keys b.heap, k < b.next_id)
    (hempty : ∀ c : Int, pathOf b c = []) :
    (¬ List.Chain' c6_rel es →
      ∃ bErr, tree_sequence_builder_restore_edges b es = .error (.unsortedEdges, bErr)) ∧
    (∀ b', tree_sequence_builder_restore_edges b es = .ok b' →
      b'.num_edges = b'.left_index.length ∧
      b'.left_index_edges = b'.left_index.map (fun i => (heap_get b'.heap i).edge) ∧
      b'.right_index_edges = b'.right_index.map (fun i => (heap_get b'.heap i).edge)) := by
  have hinv : restore_inv b none none := Or.inl ⟨rfl, rfl, hempty⟩
  have hs := restore_loop_sound es b none none hval hfresh hinv
  constructor
  · intro hns
    cases hres : restore_edges_loop b none none es with
    | error z =>
      obtain ⟨z1, z2⟩ := z
      have hz := hs.1 _ hres
      refine ⟨z2, ?_⟩
      show restore_edges_loop b none none es = _
      rw [hres]
      simp only at hz
      rw [hz]
    | ok b' =>
      exact absurd ((hs.2 b' hres).1 rfl) hns
  · intro b' hres
    obtain ⟨bf, rfl⟩ := restore_loop_ok_freeze es b none none b' hres
    exact ⟨rfl, rfl, rfl⟩

theorem claim_C6_witness :
    ∃ bErr, tree_sequence_builder_restore_edges tsb_two_nodes
        [⟨0, 2, 0, 1⟩, ⟨0, 1, 0, 1⟩] = .error (.unsortedEdges, bErr) :=
  (claim_C6 tsb_two_nodes [⟨0, 2, 0, 1⟩, ⟨0, 1, 0, 1⟩]
      (by unfold restore_val; decide) (by decide) tsb_two_nodes_paths_empty).1
    (by norm_num [List.chain'_cons, List.chain'_singleton, c6_rel])

/-- Acceptance direction of the restore loop: an input that is sorted by
child and whose same-child neighbours do not overlap (`prev.right ≤
next.left`, the only within-child condition the code checks) is accepted. -/
theorem restore_loop_accept :
    ∀ (es : List edge_t) (b : TSB) (prev : Option Nat) (pc : Option Int),
      restore_val b es → (∀ k ∈ heap_keys b.heap, k < b.next_id) →
      restore_inv b prev pc →
      ((prev = none ∧ List.Chain' c9_rel es) ∨
        (∃ pv pe, prev = some pv ∧ pc = some pe.child ∧
          (heap_get b.heap pv).edge = pe ∧ List.Chain c9_rel pe es)) →
      ∃ b', restore_edges_loop b prev pc es = .ok b' := by
  intro es
  induction es with
  | nil =>
    intro b prev pc _ _ _ _
    exact ⟨_, rfl⟩
  | cons e rest ih =>
    intro b prev pc hval hfresh hinv hsort
    obtain ⟨hc0, hcn, hpn, htp, hlr, hcl⟩ := hval e (List.mem_cons_self _ _)
    have hsc : ¬ pc.any (fun pcv => decide (pcv > e.child)) := by
      rcases hsort with ⟨hpnone, -⟩ | ⟨pv, pe, hpv, hpce, hget, hchain⟩
      · rcases hinv with ⟨-, hpcnone, -⟩ | ⟨pv, pe, hpv', -⟩
        · rw [hpcnone]
          simp [Option.any]
        · rw [hpnone] at hpv'
          simp at hpv'
      · rw [hpce]
        have h1 : pe.child ≤ e.child := (List.chain_cons.mp hchain).1.1
        simp only [Option.any, decide_eq_true_eq]
        omega
    have hnotgt : ∀ pcv : Int, pc = some pcv → pcv ≤ e.child := by
      intro pcv hpcv
      rw [hpcv] at hsc
      simp only [Option.any, decide_eq_true_eq] at hsc
      omega
    rw [restore_edges_loop, if_neg hsc]
    have hcond : e.parent < (num_nodes b : Int) ∧ e.child < (num_nodes b : Int) ∧
        timeOf b e.child < timeOf b e.parent := ⟨hpn, hcn, htp⟩
    have halloc : tree_sequence_builder_alloc_edge b e.left e.right e.parent e.child =
        .ok ({ b with
                heap := b.heap ++ [(b.next_id, ⟨⟨e.left, e.right, e.parent, e.child⟩, timeOf b e.child⟩)]
                next_id := b.next_id + 1 },
              b.next_id) := by
      simp [tree_sequence_builder_alloc_edge, if_pos hcond]
    simp only [halloc, Bind.bind, Except.bind]
    set b1 : TSB := { b with
        heap := b.heap ++ [(b.next_id, ⟨⟨e.left, e.right, e.parent, e.child⟩, timeOf b e.child⟩)]
        next_id := b.next_id + 1 } with hb1
    have hb1path : b1.path = b.path := by rw [hb1]
    have hb1time : b1.time = b.time := by rw [hb1]
    have hb1heapget : ∀ j, j < b.next_id → heap_get b1.heap j = heap_get b.heap j := by
      intro j hj
      rw [hb1]
      dsimp only
      rw [heap_get_append_ne]
      simp only [heap_keys_cons, heap_keys_nil, List.mem_cons, List.not_mem_nil, or_false]
      omega
    have hb1get_new : heap_get b1.heap b.next_id =
        ⟨⟨e.left, e.right, e.parent, e.child⟩, timeOf b e.child⟩ := by
      rw [hb1]
      dsimp only
      rw [heap_get_append_right]
      · simp [heap_get]
      · intro hcmem
        exact absurd (hfresh _ hcmem) (lt_irrefl _)
    have hfresh1 : ∀ k ∈ heap_keys b1.heap, k < b1.next_id := by
      rw [hb1]
      dsimp only
      intro k hk
      simp only [heap_keys_append, List.mem_append, heap_keys_cons, heap_keys_nil,
        List.mem_cons, List.not_mem_nil, or_false] at hk
      rcases hk with hk | hk
      · exact Nat.lt_succ_of_lt (hfresh k hk)
      · omega
    have hpathOf1 : ∀ c : Int, pathOf b1 c = pathOf b c := by
      intro c
      simp [pathOf, hb1path]
    have hchain_rest : List.Chain c9_rel e rest := by
      rcases hsort with ⟨-, hch⟩ | ⟨pv, pe, -, -, -, hchain⟩
      · exact hch
      · exact (List.chain_cons.mp hchain).2
    by_cases hempty : (pathOf b1 e.child).isEmpty
    · simp only [if_pos hempty]
      set b2 : TSB := setPath b1 e.child [b.next_id] with hb2
      set b3 : TSB := tree_sequence_builder_index_edge b2 b.next_id with hb3
      have hb3path : ∀ c : Int, c ≠ e.child → pathOf b3 c = pathOf b c := by
        intro c hcne
        rw [hb3]
        show pathOf b2 c = pathOf b c
        rw [hb2, pathOf_setPath_ne b1 e.child c _ (Ne.symm hcne), hpathOf1]
      have hb3pathe : pathOf b3 e.child = [b.next_id] := by
        rw [hb3]
        show pathOf b2 e.child = [b.next_id]
        rw [hb2]
        exact pathOf_setPath_self b1 e.child [b.next_id] hc0 (by rw [hb1path]; exact hcl)
      have hb3get : ∀ j, heap_get b3.heap j = heap_get b1.heap j := by
        intro j
        rw [hb3, hb2]
        show heap_get (setPath b1 e.child [b.next_id]).heap j = heap_get b1.heap j
        rw [setPath_heap]
      have hval3 : restore_val b3 rest := by
        intro f hf
        obtain ⟨f1, f2, f3, f4, f5, f6⟩ := hval f (List.mem_cons_of_mem _ hf)
        have ht3 : b3.time = b.time := by
          rw [hb3]
          show (setPath b1 e.child [b.next_id]).time = b.time
          rw [setPath_time, hb1time]
        have hp3 : b3.path.length = b.path.length := by
          rw [hb3]
          show (setPath b1 e.child [b.next_id]).path.length = b.path.length
          rw [hb2] at *
          by_cases h0 : (0 : Int) ≤ e.child
          · simp [setPath, h0, hb1path]
          · simp [setPath, h0, hb1path]
        exact ⟨f1, by simpa [num_nodes, ht3] using f2, by simpa [num_nodes, ht3] using f3,
          by simpa [timeOf, ht3] using f4, f5, by rw [hp3]; exact f6⟩
      have hfresh3 : ∀ k ∈ heap_keys b3.heap, k < b3.next_id := by
        intro k hk
        have hh : b3.heap = b1.heap := by
          rw [hb3, hb2]
          show (setPath b1 e.child [b.next_id]).heap = b1.heap
          rw [setPath_heap]
        rw [hh] at hk
        have hn : b3.next_id = b1.next_id := by
          rw [hb3, hb2]
          show (setPath b1 e.child [b.next_id]).next_id = b1.next_id
          rw [setPath_next_id]
        rw [hn]
        exact hfresh1 k hk
      have hinv3 : restore_inv b3 (some b.next_id) (some e.child) := by
        right
        refine ⟨b.next_id, e, rfl, rfl, ?_, ?_, hlr, ?_, ?_⟩
        · have hn : b3.next_id = b1.next_id := by
            rw [hb3, hb2]
            show (setPath b1 e.child [b.next_id]).next_id = b1.next_id
            rw [setPath_next_id]
          rw [hn, hb1]
          dsimp only
          omega
        · rw [hb3get, hb1get_new]
        · rw [hb3pathe]
          simp
        · intro c hcgt
          rw [hb3path c (by omega)]
          rcases hinv with ⟨-, -, hall⟩ | ⟨pv, pe, -, hpce, -, -, -, -, hgt⟩
          · exact hall c
          · apply hgt
            have := hnotgt pe.child hpce
            omega
      exact ih b3 (some b.next_id) (some e.child) hval3 hfresh3 hinv3
        (Or.inr ⟨b.next_id, e, rfl, rfl, by rw [hb3get, hb1get_new], hchain_rest⟩)
    · simp only [if_neg hempty]
      rcases hinv with ⟨-, -, hall⟩ | ⟨pv, pe, hpv, hpce, hpvlt, hget, hpelr, hne, hgt⟩
      · exfalso
        apply hempty
        rw [hpathOf1, hall]
        rfl
      · rw [hpv]
        dsimp only
        have hgetpv : heap_get b1.heap pv = heap_get b.heap pv := hb1heapget pv hpvlt
        have hchildeq : e.child = pe.child := by
          by_contra hne'
          have h1 : pe.child ≤ e.child := hnotgt pe.child hpce
          have h2 : pe.child < e.child := by omega
          apply hempty
          rw [hpathOf1, hgt e.child h2]
          rfl
        have hrelpe : c9_rel pe e := by
          rcases hsort with ⟨habs, -⟩ | ⟨pv', pe', hpv'', hpce'', hget'', hchain''⟩
          · rw [habs] at hpv
            simp at hpv
          · rw [hpv] at hpv''
            injection hpv'' with hpveq
            subst hpveq
            have hpe : pe' = pe := by rw [← hget'', ← hget]
            subst hpe
            exact (List.chain_cons.mp hchain'').1
        have hovl : ¬ (heap_get b1.heap pv).edge.right > e.left := by
          rw [hgetpv, hget]
          have := hrelpe.2 hchildeq.symm
          omega
        rw [if_neg hovl]
        set b2 : TSB := setPath b1 e.child (pathOf b1 e.child ++ [b.next_id]) with hb2
        set b3 : TSB := tree_sequence_builder_index_edge b2 b.next_id with hb3
        have hb3path : ∀ c : Int, c ≠ e.child → pathOf b3 c = pathOf b c := by
          intro c hcne
          rw [hb3]
          show pathOf b2 c = pathOf b c
          rw [hb2, pathOf_setPath_ne b1 e.child c (pathOf b1 e.child ++ [b.next_id])
            (Ne.symm hcne), hpathOf1]
        have hb3pathe : pathOf b3 e.child = pathOf b1 e.child ++ [b.next_id] := by
          rw [hb3]
          show pathOf b2 e.child = _
          rw [hb2]
          exact pathOf_setPath_self b1 e.child _ hc0 (by rw [hb1path]; exact hcl)
        have hb3get : ∀ j, heap_get b3.heap j = heap_get b1.heap j := by
          intro j
          rw [hb3]
          show heap_get b2.heap j = heap_get b1.heap j
          rw [hb2, setPath_heap]
        have hval3 : restore_val b3 rest := by
          intro f hf
          obtain ⟨f1, f2, f3, f4, f5, f6⟩ := hval f (List.mem_cons_of_mem _ hf)
          have ht3 : b3.time = b.time := by
            rw [hb3]
            show (setPath b1 e.child _).time = b.time
            rw [setPath_time, hb1time]
          have hp3 : b3.path.length = b.path.length := by
            rw [hb3]
            show (setPath b1 e.child _).path.length = b.path.length
            by_cases h0 : (0 : Int) ≤ e.child
            · simp [setPath, h0, hb1path]
            · simp [setPath, h0, hb1path]
          exact ⟨f1, by simpa [num_nodes, ht3] using f2, by simpa [num_nodes, ht3] using f3,
            by simpa [timeOf, ht3] using f4, f5, by rw [hp3]; exact f6⟩
        have hfresh3 : ∀ k ∈ heap_keys b3.heap, k < b3.next_id := by
          intro k hk
          have hh : b3.heap = b1.heap := by
            rw [hb3]
            show b2.heap = b1.heap
            rw [hb2, setPath_heap]
          have hn : b3.next_id = b1.next_id := by
            rw [hb3]
            show b2.next_id = b1.next_id
            rw [hb2, setPath_next_id]
          rw [hh] at hk
          rw [hn]
          exact hfresh1 k hk
        have hinv3 : restore_inv b3 (some b.next_id) (some e.child) := by
          right
          refine ⟨b.next_id, e, rfl, rfl, ?_, ?_, hlr, ?_, ?_⟩
          · have hn : b3.next_id = b1.next_id := by
              rw [hb3]
              show b2.next_id = b1.next_id
              rw [hb2, setPath_next_id]
            rw [hn, hb1]
            dsimp only
            omega
          · rw [hb3get, hb1get_new]
          · rw [hb3pathe]
            simp
          · intro c hcgt
            rw [hb3path c (by omega)]
            apply hgt
            omega
        exact ih b3 (some b.next_id) (some e.child) hval3 hfresh3 hinv3
          (Or.inr ⟨b.next_id, e, rfl, rfl, by rw [hb3get, hb1get_new], hchain_rest⟩)

/-- The state produced by restoring a same-child pair of edges with a gap
(`[0,1)` then `[2,3)`): the code accepts it. -/
def c9_result : TSB :=
  getOk (tree_sequence_builder_restore_edges tsb_two_nodes
    [⟨0, 1, 0, 1⟩, ⟨2, 3, 0, 1⟩]) tsb_empty

/-- C9: `restore_edges` does not enforce path contiguity.  Within a child it
rejects only overlap (`prev.right > next.left`): every input sorted by child
whose same-child neighbours satisfy `prev.right ≤ next.left` is accepted.  In
particular the gap input `[0,1)`, `[2,3)` for child 1 succeeds and leaves a
path whose adjacent edges have `prev.right < next.left`, violating
left-contiguity. -/
theorem claim_C9 :
    (∀ (b : TSB) (es : List edge_t), restore_val b es →
        (∀ k ∈ heap_keys b.heap, k < b.next_id) → (∀ c : Int, pathOf b c = []) →
        List.Chain' c9_rel es →
        ∃ b', tree_sequence_builder_restore_edges b es = .ok b') ∧
    (tree_sequence_builder_restore_edges tsb_two_nodes
        [⟨0, 1, 0, 1⟩, ⟨2, 3, 0, 1⟩] = .ok c9_result ∧
      pathOf c9_result 1 = [0, 1] ∧
      (heap_get c9_result.heap 0).edge.right < (heap_get c9_result.heap 1).edge.left) := by
  constructor
  · intro b es hval hfresh hempty hch
    exact restore_loop_accept es b none none hval hfresh (Or.inl ⟨rfl, rfl, hempty⟩)
      (Or.inl ⟨rfl, hch⟩)
  · exact ⟨by decide, by decide, by decide⟩

theorem claim_C9_witness :
    ∃ b', tree_sequence_builder_restore_edges tsb_two_nodes
        [⟨0, 1, 0, 1⟩, ⟨1, 3, 0, 1⟩] = .ok b' :=
  claim_C9.1 tsb_two_nodes [⟨0, 1, 0, 1⟩, ⟨1, 3, 0, 1⟩]
    (by unfold restore_val; decide) (by decide) tsb_two_nodes_paths_empty
    (by norm_num [List.chain'_cons, List.chain'_singleton, c9_rel])

theorem pathOf_congr {b b' : TSB} (h : b'.path = b.path) (c : Int) :
    pathOf b' c = pathOf b c := by
  simp [pathOf, h]

theorem pathOf_ne_nil_bounds (b : TSB) (c : Int) (h : pathOf b c ≠ []) :
    0 ≤ c ∧ c.toNat < b.path.length := by
  by_cases h0 : 0 ≤ c
  · refine ⟨h0, ?_⟩
    by_contra hlen
    apply h
    simp only [pathOf, if_pos h0]
    exact List.getD_eq_default _ _ (by omega)
  · exact absurd (by simp [pathOf, h0]) h

theorem setPath_preserves_nonempty (b : TSB) (i : Int) (v : List Nat) (hv : v ≠ [])
    (c : Int) (hc : pathOf b c ≠ []) : pathOf (setPath b i v) c ≠ [] := by
  obtain ⟨h0, hlen⟩ := pathOf_ne_nil_bounds b c hc
  by_cases hci : c = i
  · subst hci
    rw [pathOf_setPath_self b c v h0 hlen]
    exact hv
  · rw [pathOf_setPath_ne b i c v (fun he => hci he.symm)]
    exact hc

theorem pathOf_setPath_nil (b : TSB) (i : Int) : pathOf (setPath b i []) i = [] := by
  by_cases h0 : 0 ≤ i
  · by_cases hlen : i.toNat < b.path.length
    · exact pathOf_setPath_self b i [] h0 hlen
    · simp only [pathOf, setPath, if_pos h0]
      exact List.getD_eq_default _ _ (by simp; omega)
  · simp [pathOf, h0]

theorem getD_append_nil (p : List (List Nat)) (n : Nat) :
    (p ++ [[]]).getD n [] = p.getD n [] := by
  rcases lt_trichotomy n p.length with h | h | h
  · rw [List.getD_eq_getElem?_getD, List.getD_eq_getElem?_getD, List.getElem?_append, if_pos h]
  · subst h
    rw [List.getD_eq_default _ _ (le_refl _), List.getD_eq_getElem?_getD,
      List.getElem?_append_right (le_refl _)]
    simp
  · rw [List.getD_eq_default _ _ (by simp; omega), List.getD_eq_default _ _ (by omega)]

theorem pathOf_add_node (b : TSB) (t : ℚ) (f : Nat) (c : Int) :
    pathOf (tree_sequence_builder_add_node b t f).1 c = pathOf b c := by
  simp only [pathOf, tree_sequence_builder_add_node]
  split
  · exact getD_append_nil b.path c.toNat
  · rfl

theorem squash_chain_out_ne_nil :
    ∀ (rest : List Nat) (h : EdgeHeap) (prev : Nat),
      (squash_chain h prev rest).2 ≠ [] := by
  intro rest
  induction rest with
  | nil =>
    intro h prev
    simp [squash_chain]
  | cons x r ih =>
    intro h prev
    simp only [squash_chain]
    split
    · exact ih _ _
    · simp

theorem squash_edges_path_nonempty (b : TSB) (node : Int) (b' : TSB)
    (h : tree_sequence_builder_squash_edges b node = .ok b')
    (c : Int) (hc : pathOf b c ≠ []) : pathOf b' c ≠ [] := by
  simp only [tree_sequence_builder_squash_edges] at h
  split at h
  · simp at h
  · simp only [Except.ok.injEq] at h
    subst h
    apply setPath_preserves_nonempty _ _ _ (squash_chain_out_ne_nil _ _ _) c
    exact hc

theorem squash_indexed_chain_out_ne_nil (node : Int) :
    ∀ (rest : List Nat) (b : TSB) (prev : Nat) (b' : TSB) (out : List Nat),
      squash_indexed_chain b node prev rest = .ok (b', out) → out ≠ [] := by
  intro rest
  induction rest with
  | nil =>
    intro b prev b' out h
    simp only [squash_indexed_chain, Except.ok.injEq, Prod.mk.injEq] at h
    rw [← h.2]
    simp
  | cons x r ih =>
    intro b prev b' out h
    simp only [squash_indexed_chain] at h
    split at h
    · split at h
      · simp at h
      · split at h
        · simp at h
        · exact ih _ _ _ _ h
    · split at h
      · simp at h
      · simp only [Except.ok.injEq, Prod.mk.injEq] at h
        rw [← h.2]
        simp

theorem squash_indexed_edges_path_nonempty (b : TSB) (node : Int) (b' : TSB)
    (h : tree_sequence_builder_squash_indexed_edges b node = .ok b')
    (c : Int) (hc : pathOf b c ≠ []) : pathOf b' c ≠ [] := by
  simp only [tree_sequence_builder_squash_indexed_edges] at h
  split at h
  · simp at h
  · rcases tsi_bind_ok _ _ _ h with ⟨r, hr, h2⟩
    obtain ⟨rb, rout⟩ := r
    simp only [Except.ok.injEq] at h2
    subst h2
    have hout : rout ≠ [] := squash_indexed_chain_out_ne_nil node _ _ _ _ _ hr
    have hrb : rb.path = b.path := (squash_indexed_chain_frame node _ _ _ _ _ hr).2.2.2
    rw [pathOf_congr (reindex_chain_frame node rout _).2.2.2 c]
    apply setPath_preserves_nonempty rb node rout hout c
    rw [pathOf_congr hrb c]
    exact hc

theorem pc_loop_out_prefix (pcn : Int) :
    ∀ (mapped : List (Nat × Nat)) (b : TSB) (acc : List Nat) (b' : TSB) (out : List Nat),
      pc_loop b pcn mapped acc = .ok (b', out) → ∃ t, out = acc ++ t := by
  intro mapped
  induction mapped with
  | nil =>
    intro b acc b' out h
    simp only [pc_loop, Except.ok.injEq, Prod.mk.injEq] at h
    exact ⟨[], by rw [← h.2]; simp⟩
  | cons m rest ih =>
    intro b acc b' out h
    obtain ⟨s, d⟩ := m
    simp only [pc_loop] at h
    rcases tsi_bind_ok _ _ _ h with ⟨a, ha, h2⟩
    rcases tsi_bind_ok _ _ _ h2 with ⟨b3, hb3, h3⟩
    obtain ⟨t, ht⟩ := ih _ _ _ _ h3
    exact ⟨a.2 :: t, by rw [ht]; simp⟩

theorem pc_loop_out_ne_nil (pcn : Int) (m : Nat × Nat) (rest : List (Nat × Nat))
    (b : TSB) (acc : List Nat) (b' : TSB) (out : List Nat)
    (h : pc_loop b pcn (m :: rest) acc = .ok (b', out)) : out ≠ [] := by
  obtain ⟨s, d⟩ := m
  simp only [pc_loop] at h
  rcases tsi_bind_ok _ _ _ h with ⟨a, ha, h2⟩
  rcases tsi_bind_ok _ _ _ h2 with ⟨b3, hb3, h3⟩
  obtain ⟨t, ht⟩ := pc_loop_out_prefix pcn rest _ _ _ _ h3
  rw [ht]
  simp

theorem make_pc_node_path_nonempty (b : TSB) (mapped : List (Nat × Nat)) (b' : TSB)
    (h : tree_sequence_builder_make_pc_node b mapped = .ok b')
    (c : Int) (hc : pathOf b c ≠ []) : pathOf b' c ≠ [] := by
  cases mapped with
  | nil => simp [tree_sequence_builder_make_pc_node] at h
  | cons m0 rest =>
    simp only [tree_sequence_builder_make_pc_node] at h
    split at h
    · simp at h
    · rcases tsi_bind_ok _ _ _ h with ⟨r, hr, h2⟩
      rcases tsi_bind_ok _ _ _ h2 with ⟨b4, hb4, h3⟩
      rcases tsi_bind_ok _ _ _ h3 with ⟨b5, hb5, h4⟩
      simp only [Except.ok.injEq] at h4
      subst h4
      obtain ⟨r1, r2⟩ := r
      have hr2 : r2 ≠ [] := pc_loop_out_ne_nil _ _ _ _ _ _ _ hr
      have hr1 : r1.path = (tree_sequence_builder_add_node b _ _).1.path :=
        (pc_loop_ok_frame _ _ _ _ _ _ hr).2.2
      rw [pathOf_congr (index_edges_frame b5 _).2.2.2.1 c]
      apply squash_indexed_edges_path_nonempty _ _ _ hb5 c
      apply squash_edges_path_nonempty _ _ _ hb4 c
      apply setPath_preserves_nonempty _ _ _ hr2 c
      rw [pathOf_congr hr1 c, pathOf_add_node]
      exact hc

theorem process_contig_path_nonempty (b : TSB) (contig : List (Nat × Nat)) (b' : TSB)
    (h : process_contig b contig = .ok b')
    (c : Int) (hc : pathOf b c ≠ []) : pathOf b' c ≠ [] := by
  simp only [process_contig] at h
  split at h
  · split at h
    · simp only [Except.ok.injEq] at h
      subst h
      exact hc
    · split at h
      · simp only [Except.ok.injEq] at h
        subst h
        rw [pathOf_congr (reuse_fold_effect _ _ _).2.2.1 c]
        exact hc
      · exact make_pc_node_path_nonempty _ _ _ h c hc
  · simp only [Except.ok.injEq] at h
    subst h
    exact hc

theorem foldlM_process_contig_path_nonempty :
    ∀ (contigs : List (List (Nat × Nat))) (b : TSB) (bf : TSB),
      contigs.foldlM process_contig b = .ok bf →
      ∀ c : Int, pathOf b c ≠ [] → pathOf bf c ≠ [] := by
  intro contigs
  induction contigs with
  | nil =>
    intro b bf h c hc
    simp only [List.foldlM, pure, Except.pure, Except.ok.injEq] at h
    rw [← h]
    exact hc
  | cons ct rest ih =>
    intro b bf h c hc
    simp only [List.foldlM_cons] at h
    rcases tsi_bind_ok _ _ _ h with ⟨b1, hb1, h2⟩
    exact ih _ _ h2 c (process_contig_path_nonempty _ _ _ hb1 c hc)

theorem squash_edges_ok_of_nonempty (b : TSB) (node : Int) (h : pathOf b node ≠ []) :
    ∃ b', tree_sequence_builder_squash_edges b node = .ok b' := by
  rcases hp : pathOf b node with _ | ⟨p, rest⟩
  · exact absurd hp h
  · have heq : tree_sequence_builder_squash_edges b node =
        .ok (setPath { b with heap := (squash_chain b.heap p rest).1 } node
          (squash_chain b.heap p rest).2) := by
      simp only [tree_sequence_builder_squash_edges, hp]
    exact ⟨_, heq⟩

/-- C10: with `COMPRESS_PATH`, `add_path`'s final squash of the child's path
asserts the path head is non-null.  (1) With zero edges the assert trips: the
call aborts, carrying the state whose child path was set to the empty chain.
(2) With at least one edge, the allocation loop leaves a non-empty child
path.  (3) A non-empty path survives the compression passes, so the final
squash's assert condition holds and the squash succeeds. -/
theorem claim_C10 :
    (∀ (b : TSB) (child : Int) (ext : Bool), child < (num_nodes b : Int) →
      tree_sequence_builder_add_path b child [] ⟨true, ext⟩ =
        .error (.abort, setPath b child [])) ∧
    (∀ (b : TSB) (child : Int) (ct : ℚ) (es : List (Int × Int × Int)) (r : TSB × List Nat),
      es ≠ [] → 0 ≤ child → child.toNat < b.path.length →
      add_path_alloc b child ct es none [] = .ok r →
      pathOf (setPath r.1 child r.2) child ≠ []) ∧
    (∀ (b : TSB) (child : Int) (contigs : List (List (Nat × Nat))) (bf : TSB),
      pathOf b child ≠ [] → contigs.foldlM process_contig b = .ok bf →
      pathOf bf child ≠ [] ∧
        ∃ b', tree_sequence_builder_squash_edges bf child = .ok b') := by
  refine ⟨?_, ?_, ?_⟩
  · intro b child ext hlt
    have hnge : ¬ child ≥ (num_nodes b : Int) := by omega
    have hp : pathOf (setPath b child []) child = [] := pathOf_setPath_nil b child
    simp only [tree_sequence_builder_add_path, if_neg hnge, List.reverse_nil, add_path_alloc,
      tree_sequence_builder_compress_path, hp, scan_go, List.isEmpty_nil, if_pos,
      List.foldlM, tree_sequence_builder_squash_edges, Bind.bind, Except.bind, pure,
      Except.pure]
  · intro b child ct es r hes h0 hlen hok
    obtain ⟨b', chain⟩ := r
    have heff := add_path_alloc_ok_effect child ct es b none [] b' chain hok
    have hpath : b'.path = b.path := heff.2.2.1
    have hchain : chain = [] ++ List.range' b.next_id es.length := heff.2.2.2.2.2.2.2.2.2.2.1
    rw [pathOf_setPath_self b' child chain h0 (by rw [hpath]; exact hlen), hchain]
    simp only [List.nil_append, ne_eq, List.range'_eq_nil]
    intro hz
    exact hes (List.length_eq_zero.mp hz)
  · intro b child contigs bf hne hfold
    have hbf := foldlM_process_contig_path_nonempty contigs b bf hfold child hne
    exact ⟨hbf, squash_edges_ok_of_nonempty bf child hbf⟩

/-- The builder state after allocating one edge `[0,2)` from node 1 to node 0. -/
def c10w_b : TSB :=
  { tsb_two_nodes with path := [[], [0]], heap := [(0, ⟨⟨0, 2, 0, 1⟩, 1⟩)], next_id := 1 }

/-- The result of the allocation loop on the single entry `(0, 2, 0)`. -/
def c10w_r : TSB × List Nat :=
  ({ tsb_two_nodes with heap := [(0, ⟨⟨0, 2, 0, 1⟩, 1⟩)], next_id := 1 }, [0])

theorem claim_C10_witness :
    (tree_sequence_builder_add_path tsb_two_nodes 1 [] ⟨true, false⟩ =
        .error (.abort, setPath tsb_two_nodes 1 [])) ∧
    pathOf (setPath c10w_r.1 1 c10w_r.2) 1 ≠ [] ∧
    (pathOf c10w_b 1 ≠ [] ∧
      ∃ b', tree_sequence_builder_squash_edges c10w_b 1 = .ok b') :=
  ⟨claim_C10.1 tsb_two_nodes 1 false (by decide),
    claim_C10.2.1 tsb_two_nodes 1 1 [(0, 2, 0)] c10w_r (by decide) (by decide)
      (by decide) (by decide),
    claim_C10.2.2 c10w_b 1 [] c10w_b (by decide) rfl⟩

/-! ## Claim C7: squashedness -/

/-- Two edges (by heap id) that `squash_edges` would merge: the first ends
where the second starts and they share a parent. -/
def mergeable (h : EdgeHeap) (i j : Nat) : Prop :=
  (heap_get h i).edge.right = (heap_get h j).edge.left ∧
  (heap_get h i).edge.parent = (heap_get h j).edge.parent

instance mergeable_decidable (h : EdgeHeap) : DecidableRel (mergeable h) :=
  fun _ _ => inferInstanceAs (Decidable (_ ∧ _))

/-- A child's path is fully squashed: no two adjacent edges are mergeable. -/
def path_squashed (b : TSB) (c : Int) : Prop :=
  List.Chain' (fun i j => ¬ mergeable b.heap i j) (pathOf b c)

theorem heap_get_set_general (h : EdgeHeap) (i : Nat) (e : indexed_edge_t) :
    heap_get (heap_set h i e) i = e ∨ heap_get (heap_set h i e) i = heap_get h i := by
  by_cases hi : i ∈ heap_keys h
  · exact Or.inl (heap_get_set_self h i e hi)
  · exact Or.inr (by rw [heap_set_not_mem h i e hi])

/-- The squash pass returns its head as the head of the output chain. -/
theorem squash_chain_out_head :
    ∀ (rest : List Nat) (h : EdgeHeap) (p : Nat),
      ∃ t, (squash_chain h p rest).2 = p :: t := by
  intro rest
  induction rest with
  | nil =>
    intro h p
    exact ⟨[], rfl⟩
  | cons x r ih =>
    intro h p
    simp only [squash_chain]
    split
    · exact ih _ _
    · exact ⟨(squash_chain h x r).2, rfl⟩

/-- The squash pass touches only the heap entries of its chain. -/
theorem squash_chain_heap_other :
    ∀ (rest : List Nat) (h : EdgeHeap) (p k : Nat), k ≠ p → k ∉ rest →
      heap_get (squash_chain h p rest).1 k = heap_get h k := by
  intro rest
  induction rest with
  | nil =>
    intro h p k _ _
    rfl
  | cons x r ih =>
    intro h p k hkp hkr
    simp only [List.mem_cons, not_or] at hkr
    obtain ⟨hkx, hkr⟩ := hkr
    simp only [squash_chain]
    split
    · rw [ih _ _ _ hkp hkr, heap_get_del_ne _ _ _ (fun hq => hkx hq.symm),
        heap_get_set_ne _ _ _ _ (fun hq => hkp hq.symm)]
    · exact ih _ _ _ hkx hkr

/-- The squash pass never changes the left endpoint or the parent of the
surviving head edge (only its right endpoint grows). -/
theorem squash_chain_head_fields :
    ∀ (rest : List Nat) (h : EdgeHeap) (p : Nat), p ∉ rest →
      (heap_get (squash_chain h p rest).1 p).edge.left = (heap_get h p).edge.left ∧
      (heap_get (squash_chain h p rest).1 p).edge.parent = (heap_get h p).edge.parent := by
  intro rest
  induction rest with
  | nil =>
    intro h p _
    exact ⟨rfl, rfl⟩
  | cons x r ih =>
    intro h p hp
    simp only [List.mem_cons, not_or] at hp
    obtain ⟨hpx, hpr⟩ := hp
    simp only [squash_chain]
    split
    · obtain ⟨ih1, ih2⟩ := ih _ p hpr
      constructor
      · rw [ih1, heap_get_del_ne _ _ _ (fun hq => hpx hq.symm)]
        rcases heap_get_set_general h p
            ⟨{ (heap_get h p).edge with right := (heap_get h x).edge.right },
              (heap_get h p).time⟩ with hs | hs <;> rw [hs]
      · rw [ih2, heap_get_del_ne _ _ _ (fun hq => hpx hq.symm)]
        rcases heap_get_set_general h p
            ⟨{ (heap_get h p).edge with right := (heap_get h x).edge.right },
              (heap_get h p).time⟩ with hs | hs <;> rw [hs]
    · have := squash_chain_heap_other r h x p hpx hpr
      rw [this]
      exact ⟨rfl, rfl⟩

/-- Output of the squash pass is fully squashed: a merge is applied whenever
the adjacent pair is mergeable, and the remaining checks compare fields the
pass never modifies. -/
theorem squash_chain_squashed :
    ∀ (rest : List Nat) (h : EdgeHeap) (p : Nat), (p :: rest).Nodup →
      List.Chain' (fun i j => ¬ mergeable (squash_chain h p rest).1 i j)
        (squash_chain h p rest).2 := by
  intro rest
  induction rest with
  | nil =>
    intro h p _
    exact List.chain'_singleton _
  | cons x r ih =>
    intro h p hnd
    simp only [List.nodup_cons, List.mem_cons, not_or] at hnd
    obtain ⟨⟨hpx, hpr⟩, hxr, hndr⟩ := hnd
    by_cases hm : (heap_get h p).edge.right = (heap_get h x).edge.left ∧
        (heap_get h p).edge.parent = (heap_get h x).edge.parent
    · simp only [squash_chain, if_pos hm]
      exact ih _ _ (by simp [List.nodup_cons, hpr, hndr])
    · simp only [squash_chain, if_neg hm]
      obtain ⟨t, ht⟩ := squash_chain_out_head r h x
      rw [ht]
      have htail := ih h x (by simp [List.nodup_cons, hxr, hndr])
      rw [ht] at htail
      refine List.Chain'.cons ?_ htail
      intro hmerge
      apply hm
      have hop := squash_chain_heap_other r h x p hpx hpr
      obtain ⟨hf1, hf2⟩ := squash_chain_head_fields r h x hxr
      obtain ⟨hm1, hm2⟩ := hmerge
      rw [hop, hf1, hf2] at *
      exact ⟨by rw [← hf1, ← hm1, hop], by rw [← hf2, ← hm2, hop]⟩

/-- A successful (non-indexed) squash leaves the node's path fully squashed,
provided the chain does not alias the same heap entry twice. -/
theorem squash_edges_squashes (b : TSB) (node : Int) (b' : TSB)
    (h : tree_sequence_builder_squash_edges b node = .ok b')
    (hnd : (pathOf b node).Nodup) : path_squashed b' node := by
  rcases hp : pathOf b node with _ | ⟨p, rest⟩
  · simp [tree_sequence_builder_squash_edges, hp] at h
  · rw [hp] at hnd
    have hb : pathOf b node ≠ [] := by rw [hp]; simp
    obtain ⟨h0, hlen⟩ := pathOf_ne_nil_bounds b node hb
    simp only [tree_sequence_builder_squash_edges, hp, Except.ok.injEq] at h
    subst h
    unfold path_squashed
    rw [pathOf_setPath_self { b with heap := (squash_chain b.heap p rest).1 } node
      (squash_chain b.heap p rest).2 h0 hlen]
    simp only [setPath_heap]
    exact squash_chain_squashed rest b.heap p hnd

/-- C7, counterexample to the claim as stated: a successful `add_path`
without `COMPRESS_PATH` (a mutating call) stores the contiguous same-parent
input `[0,1)`, `[1,3)` as two adjacent mergeable edges, so the path is not
fully squashed afterwards. -/
theorem claim_C7_counterexample :
    errCode (tree_sequence_builder_add_path tsb_two_nodes 1 [(1, 3, 0), (0, 1, 0)]
        ⟨false, false⟩) = none ∧
    ¬ path_squashed (getOk (tree_sequence_builder_add_path tsb_two_nodes 1
        [(1, 3, 0), (0, 1, 0)] ⟨false, false⟩) tsb_empty) 1 := by
  refine ⟨by decide, ?_⟩
  intro hsq
  unfold path_squashed at hsq
  rw [show pathOf (getOk (tree_sequence_builder_add_path tsb_two_nodes 1
      [(1, 3, 0), (0, 1, 0)] ⟨false, false⟩) tsb_empty) 1 = [0, 1] from by decide] at hsq
  rw [List.chain'_cons] at hsq
  exact hsq.1 (by decide)

/-- C7, amended: the squash pass itself guarantees squashedness — a
successful `squash_edges` leaves the node's path with no adjacent mergeable
pair (given that the chain does not alias one heap entry twice) — and with
`COMPRESS_PATH` the child's final path of a successful `add_path` is exactly
the output of such a pass, hence fully squashed under the same proviso;
without the flag nothing squashes the path (see the counterexample). -/
theorem claim_C7 :
    (∀ (b : TSB) (node : Int) (b' : TSB),
      tree_sequence_builder_squash_edges b node = .ok b' →
      (pathOf b node).Nodup → path_squashed b' node) ∧
    (∀ (b : TSB) (child : Int) (es : List (Int × Int × Int)) (ext : Bool) (b' : TSB),
      tree_sequence_builder_add_path b child es ⟨true, ext⟩ = .ok b' →
      ∃ b1 b3, tree_sequence_builder_squash_edges b1 child = .ok b3 ∧
        pathOf b' child = pathOf b3 child ∧ b'.heap = b3.heap ∧
        ((pathOf b1 child).Nodup → path_squashed b' child)) := by
  refine ⟨squash_edges_squashes, ?_⟩
  intro b child es ext b' h
  simp only [tree_sequence_builder_add_path] at h
  split at h
  · simp at h
  · rcases tsi_bind_ok _ _ _ h with ⟨r, hr, h2⟩
    rcases tsi_bind_ok _ _ _ h2 with ⟨b3, hb3, h3⟩
    simp only [Except.ok.injEq] at h3
    subst h3
    simp only [tree_sequence_builder_compress_path] at hb3
    rcases tsi_bind_ok _ _ _ hb3 with ⟨b1, hb1, hsq⟩
    refine ⟨b1, b3, hsq, ?_, ?_, ?_⟩
    · exact pathOf_congr (index_edges_frame b3 child).2.2.2.1 child
    · exact (index_edges_frame b3 child).2.2.2.2
    · intro hnd
      have hb3sq := squash_edges_squashes b1 child b3 hsq hnd
      unfold path_squashed at hb3sq ⊢
      rw [pathOf_congr (index_edges_frame b3 child).2.2.2.1 child,
        (index_edges_frame b3 child).2.2.2.2]
      exact hb3sq

/-- A builder whose child-1 path holds two mergeable edges. -/
def c7w_b : TSB :=
  { time := [3, 1], node_flags := [0, 0], path := [[], [0, 1]],
    heap := [(0, ⟨⟨0, 1, 0, 1⟩, 1⟩), (1, ⟨⟨1, 3, 0, 1⟩, 1⟩)], next_id := 2,
    left_index := [], right_index := [], path_index := [], num_edges := 0,
    left_index_edges := [], right_index_edges := [] }

/-- The squashed result: the two edges merged into `[0,3)`. -/
def c7w_sq : TSB :=
  { time := [3, 1], node_flags := [0, 0], path := [[], [0]],
    heap := [(0, ⟨⟨0, 3, 0, 1⟩, 1⟩)], next_id := 2,
    left_index := [], right_index := [], path_index := [], num_edges := 0,
    left_index_edges := [], right_index_edges := [] }

/-- The result of the compress-flag `add_path` of `[0,1)` and `[1,3)`. -/
def c7w_result : TSB :=
  getOk (tree_sequence_builder_add_path tsb_two_nodes 1 [(1, 3, 0), (0, 1, 0)]
    ⟨true, false⟩) tsb_empty

theorem claim_C7_witness :
    path_squashed c7w_sq 1 ∧
    ∃ b1 b3, tree_sequence_builder_squash_edges b1 1 = .ok b3 ∧
      pathOf c7w_result 1 = pathOf b3 1 ∧ c7w_result.heap = b3.heap ∧
      ((pathOf b1 1).Nodup → path_squashed c7w_result 1) :=
  ⟨claim_C7.1 c7w_b 1 c7w_sq (by decide) (by decide),
    claim_C7.2 tsb_two_nodes 1 [(1, 3, 0), (0, 1, 0)] false c7w_result (by decide)⟩

/-! ## Claim C2: index consistency -/

/-- The index-consistency invariant of a quiescent builder (the property
`check_state` observes): the three indexes agree as multisets, the path
index is exactly one entry per path edge, index entries are distinct, every
index entry is a live heap edge below `next_id` with its child field set,
and the path table matches the node table. -/
structure tsb_inv (b : TSB) : Prop where
  left_eq : (b.left_index : Multiset ℕ) = (b.path_index : Multiset ℕ)
  right_eq : (b.right_index : Multiset ℕ) = (b.path_index : Multiset ℕ)
  balance : (b.path_index : Multiset ℕ) = (b.path.join : Multiset ℕ)
  pidx_nodup : b.path_index.Nodup
  pidx_keys : ∀ i ∈ b.path_index, i ∈ heap_keys b.heap
  keys_lt : ∀ k ∈ heap_keys b.heap, k < b.next_id
  len_eq : b.path.length = b.time.length
  pidx_marked : ∀ i ∈ b.path_index, (heap_get b.heap i).edge.child ≠ NULL_NODE

/-- The invariant carried through `add_path` while the freshly allocated
chain of `child` is recorded in `path[child]` but not yet indexed. -/
structure cinv (b : TSB) (child : Int) : Prop where
  left_eq : (b.left_index : Multiset ℕ) = (b.path_index : Multiset ℕ)
  right_eq : (b.right_index : Multiset ℕ) = (b.path_index : Multiset ℕ)
  balance : (b.path_index : Multiset ℕ) + ↑(pathOf b child) = (b.path.join : Multiset ℕ)
  pidx_nodup : b.path_index.Nodup
  pidx_keys : ∀ i ∈ b.path_index, i ∈ heap_keys b.heap
  keys_lt : ∀ k ∈ heap_keys b.heap, k < b.next_id
  len_eq : b.path.length = b.time.length
  pidx_marked : ∀ i ∈ b.path_index, (heap_get b.heap i).edge.child ≠ NULL_NODE
  pend_keys : ∀ i ∈ pathOf b child, i ∈ heap_keys b.heap
  pend_child : ∀ i ∈ pathOf b child, (heap_get b.heap i).edge.child = child
  pend_nodup : (pathOf b child).Nodup
  pend_fresh : ∀ i ∈ pathOf b child, i ∉ b.path_index
  child_nonneg : 0 ≤ child
  child_lt : child.toNat < b.path.length

/-- The geometric facts about one contig that the scan loop guarantees and
that the path-compression accounting depends on: when a new PC node is
synthesized, all matched (dest) edges share the mapped child, are distinct,
and live in that child's path, and the mapped child is a valid node other
than the one being added. -/
def sc_cond (b : TSB) (child : Int) (contig : List (Nat × Nat)) : Prop :=
  match contig with
  | [] => True
  | m0 :: _ =>
      1 < contig.length →
      flagsOf b ((heap_get b.heap m0.2).edge.child) &&& TSI_NODE_IS_PC_ANCESTOR = 0 →
      (0 ≤ (heap_get b.heap m0.2).edge.child ∧
        ((heap_get b.heap m0.2).edge.child).toNat < b.path.length ∧
        (heap_get b.heap m0.2).edge.child ≠ child ∧
        (contig.map Prod.snd).Nodup ∧
        (∀ m ∈ contig,
          (heap_get b.heap m.2).edge.child = (heap_get b.heap m0.2).edge.child) ∧
        (∀ m ∈ contig, m.2 ∈ pathOf b ((heap_get b.heap m0.2).edge.child)))

/-- `sc_cond` at every step of the contig fold of `compress_path`. -/
def fold_sc (child : Int) : TSB → List (List (Nat × Nat)) → Prop
  | _, [] => True
  | b, contig :: rest =>
      sc_cond b child contig ∧
      (match process_contig b contig with
       | .ok b1 => fold_sc child b1 rest
       | .error _ => True)

theorem coe_erase_cons (l : List ℕ) (a : ℕ) (h : a ∈ l) :
    (l : Multiset ℕ) = a ::ₘ (l.erase a : Multiset ℕ) := by
  rw [Multiset.cons_coe, Multiset.coe_eq_coe]
  exact List.perm_cons_erase h

theorem join_set_multiset :
    ∀ (l : List (List ℕ)) (n : ℕ) (v : List ℕ), n < l.length →
      ((l.set n v).join : Multiset ℕ) + (l.getD n [] : Multiset ℕ) =
        (l.join : Multiset ℕ) + (v : Multiset ℕ) := by
  intro l
  induction l with
  | nil =>
    intro n v h
    simp at h
  | cons a t ih =>
    intro n v h
    cases n with
    | zero =>
      simp only [List.set_cons_zero, List.join_cons, List.getD_cons_zero]
      rw [← Multiset.coe_add, ← Multiset.coe_add,
        add_comm ((v : Multiset ℕ) + (t.join : Multiset ℕ)) (a : Multiset ℕ),
        add_comm (v : Multiset ℕ) (t.join : Multiset ℕ), ← add_assoc,
        add_comm (a : Multiset ℕ) (t.join : Multiset ℕ)]
    | succ m =>
      simp only [List.set_cons_succ, List.join_cons, List.getD_cons_succ]
      rw [← Multiset.coe_add, ← Multiset.coe_add, add_assoc, add_assoc,
        ih m v (by simpa using Nat.lt_of_succ_lt_succ h)]

theorem mem_join_of_mem_pathOf (b : TSB) (c : Int) (i : ℕ) (h : i ∈ pathOf b c) :
    i ∈ b.path.join := by
  simp only [pathOf] at h
  split at h
  · by_cases hr : c.toNat < b.path.length
    · rw [List.getD_eq_getElem _ _ hr] at h
      exact List.mem_join.mpr ⟨_, List.getElem_mem hr, h⟩
    · rw [List.getD_eq_default _ _ (by omega)] at h
      simp at h
  · simp at h

theorem setPath_path_length (b : TSB) (i : Int) (v : List Nat) :
    (setPath b i v).path.length = b.path.length := by
  by_cases h0 : 0 ≤ i <;> simp [setPath, h0]

theorem squash_chain_out_sublist :
    ∀ (rest : List Nat) (h : EdgeHeap) (p : Nat),
      (squash_chain h p rest).2.Sublist (p :: rest) := by
  intro rest
  induction rest with
  | nil =>
    intro h p
    exact List.Sublist.refl _
  | cons x r ih =>
    intro h p
    simp only [squash_chain]
    split
    · exact (ih _ _).trans (List.Sublist.cons₂ p (List.sublist_cons_self x r))
    · exact List.Sublist.cons₂ p (ih h x)

theorem squash_chain_keys_other :
    ∀ (rest : List Nat) (h : EdgeHeap) (p k : Nat), k ≠ p → k ∉ rest →
      (k ∈ heap_keys (squash_chain h p rest).1 ↔ k ∈ heap_keys h) := by
  intro rest
  induction rest with
  | nil =>
    intro h p k _ _
    exact Iff.rfl
  | cons x r ih =>
    intro h p k hkp hkr
    simp only [List.mem_cons, not_or] at hkr
    obtain ⟨hkx, hkr⟩ := hkr
    simp only [squash_chain]
    split
    · rw [ih _ _ _ hkp hkr, heap_keys_del, heap_keys_set, List.mem_erase_of_ne hkx]
    · exact ih _ _ _ hkx hkr

theorem squash_chain_keys_subset :
    ∀ (rest : List Nat) (h : EdgeHeap) (p k : Nat),
      k ∈ heap_keys (squash_chain h p rest).1 → k ∈ heap_keys h := by
  intro rest
  induction rest with
  | nil =>
    intro h p k hk
    exact hk
  | cons x r ih =>
    intro h p k hk
    simp only [squash_chain] at hk
    split at hk
    · have := ih _ _ _ hk
      rw [heap_keys_del, heap_keys_set] at this
      exact List.mem_of_mem_erase this
    · exact ih _ _ _ hk

theorem squash_chain_out_child :
    ∀ (rest : List Nat) (h : EdgeHeap) (p : Nat), (p :: rest).Nodup →
      ∀ k ∈ (squash_chain h p rest).2,
        (heap_get (squash_chain h p rest).1 k).edge.child = (heap_get h k).edge.child := by
  intro rest
  induction rest with
  | nil =>
    intro h p _ k _
    rfl
  | cons x r ih =>
    intro h p hnd k hk
    simp only [List.nodup_cons, List.mem_cons, not_or] at hnd
    obtain ⟨⟨hpx, hpr⟩, hxr, hndr⟩ := hnd
    simp only [squash_chain] at hk ⊢
    split
    · rename_i hm
      rw [ih _ _ (by simp [List.nodup_cons, hpr, hndr]) k (by simpa [squash_chain, hm] using hk)]
      have hkmem : k ∈ p :: r := (squash_chain_out_sublist r _ p).subset
        (by simpa [squash_chain, hm] using hk)
      by_cases hkp : k = p
      · subst hkp
        rw [heap_get_del_ne _ _ _ (fun hq => hpx hq.symm)]
        rcases heap_get_set_general h k
            ⟨{ (heap_get h k).edge with right := (heap_get h x).edge.right },
              (heap_get h k).time⟩ with hs | hs <;> rw [hs]
      · have hkr : k ∈ r := by
          rcases List.mem_cons.mp hkmem with h' | h'
          · exact absurd h' hkp
          · exact h'
        rw [heap_get_del_ne _ _ _ (fun hq => hxr (by rw [hq]; exact hkr)),
          heap_get_set_ne _ _ _ _ (fun hq => hkp hq.symm)]
    · rename_i hm
      rcases List.mem_cons.mp (by simpa [squash_chain, hm] using hk :
          k ∈ p :: (squash_chain h x r).2) with hkp | hkt
      · subst hkp
        rw [squash_chain_heap_other r h x k hpx hpr]
      · exact ih h x (by simp [List.nodup_cons, hxr, hndr]) k hkt

theorem squash_chain_out_keys :
    ∀ (rest : List Nat) (h : EdgeHeap) (p : Nat), (p :: rest).Nodup →
      (∀ i ∈ p :: rest, i ∈ heap_keys h) →
      ∀ k ∈ (squash_chain h p rest).2, k ∈ heap_keys (squash_chain h p rest).1 := by
  intro rest
  induction rest with
  | nil =>
    intro h p _ hall k hk
    simp only [squash_chain] at hk
    simp only [List.mem_singleton] at hk
    subst hk
    exact hall k (by simp)
  | cons x r ih =>
    intro h p hnd hall k hk
    simp only [List.nodup_cons, List.mem_cons, not_or] at hnd
    obtain ⟨⟨hpx, hpr⟩, hxr, hndr⟩ := hnd
    simp only [squash_chain] at hk ⊢
    split
    · rename_i hm
      refine ih _ _ (by simp [List.nodup_cons, hpr, hndr]) ?_ k
        (by simpa [squash_chain, hm] using hk)
      intro i hi
      rw [heap_keys_del, heap_keys_set]
      have hix : i ≠ x := by
        rcases List.mem_cons.mp hi with h' | h'
        · exact h' ▸ hpx
        · exact fun hq => hxr (hq ▸ h')
      exact (List.mem_erase_of_ne hix).mpr (hall i (by
        rcases List.mem_cons.mp hi with h' | h'
        · simp [h']
        · simp [h']))
    · rename_i hm
      rcases List.mem_cons.mp (by simpa [squash_chain, hm] using hk :
          k ∈ p :: (squash_chain h x r).2) with hkp | hkt
      · subst hkp
        exact (squash_chain_keys_other r h x k hpx hpr).mpr (hall k (by simp))
      · exact ih h x (by simp [List.nodup_cons, hxr, hndr])
          (fun i hi => hall i (List.mem_cons_of_mem p hi)) k hkt

theorem get_append_enumFrom_child (child : Int) (tc : ℚ) :
    ∀ (es : List (Int × Int × Int)) (h : EdgeHeap) (n : Nat),
      (∀ k ∈ heap_keys h, k < n) →
      ∀ i, n ≤ i → i < n + es.length →
        (heap_get (h ++ (es.enumFrom n).map
          (fun ke => (ke.1,
            (⟨⟨ke.2.1, ke.2.2.1, ke.2.2.2, child⟩, tc⟩ : indexed_edge_t)))) i).edge.child
          = child := by
  intro es
  induction es with
  | nil =>
    intro h n _ i h1 h2
    simp at h2
    omega
  | cons e rest ih =>
    intro h n hk i h1 h2
    rw [List.enumFrom_cons, List.map_cons, List.append_cons]
    by_cases hin : i = n
    · subst hin
      rw [heap_get_append_ne]
      · rw [heap_get_append_right]
        · simp [heap_get]
        · intro hmem
          exact absurd (hk i hmem) (lt_irrefl i)
      · intro hmem
        have : i ∈ (List.enumFrom (i + 1) rest).map Prod.fst := by
          have hkeys : heap_keys ((rest.enumFrom (i + 1)).map
              (fun ke => (ke.1,
                (⟨⟨ke.2.1, ke.2.2.1, ke.2.2.2, child⟩, tc⟩ : indexed_edge_t)))) =
              (List.enumFrom (i + 1) rest).map Prod.fst := by
            simp only [heap_keys, List.map_map]
            rfl
          rwa [hkeys] at hmem
        rw [List.enumFrom_map_fst] at this
        have := (List.mem_range'_1.mp this).1
        omega
    · refine ih (h ++ [(n, ⟨⟨e.1, e.2.1, e.2.2, child⟩, tc⟩)]) (n + 1) ?_ i (by omega) ?_
      · intro k hkk
        rw [heap_keys_append] at hkk
        rcases List.mem_append.mp hkk with hm | hm
        · exact Nat.lt_succ_of_lt (hk k hm)
        · simp [heap_keys] at hm
          omega
      · simp at h2 ⊢
        omega

/-- After the allocation loop of `add_path` on a fresh child, the pending
invariant holds: the chain of fresh ids is recorded in the child's path,
not yet indexed, and its edges carry the child field. -/
theorem cinv_establish (b : TSB) (child : Int) (es : List (Int × Int × Int))
    (b1 : TSB) (chain : List Nat)
    (hinv : tsb_inv b) (hfc : pathOf b child = []) (hc0 : 0 ≤ child)
    (hcl : child.toNat < b.path.length)
    (hok : add_path_alloc b child (timeOf b child) es none [] = .ok (b1, chain)) :
    cinv (setPath b1 child chain) child := by
  obtain ⟨ht, hnf, hpath, hli, hri, hpi, hne, hlie, hrie, hnid, hchain, hheap⟩ :=
    add_path_alloc_ok_effect child (timeOf b child) es b none [] b1 chain hok
  rw [List.nil_append] at hchain
  have hlen2 : (setPath b1 child chain).path.length = b.path.length := by
    rw [setPath_path_length, hpath]
  have hpget : pathOf (setPath b1 child chain) child = chain :=
    pathOf_setPath_self b1 child chain hc0 (by rw [hpath]; exact hcl)
  have hkeys2 : heap_keys (setPath b1 child chain).heap =
      heap_keys b.heap ++ List.range' b.next_id es.length := by
    rw [setPath_heap, hheap, heap_keys_append]
    congr 1
    simp only [heap_keys, List.map_map]
    have : (Prod.fst ∘ fun ke : Nat × (Int × Int × Int) =>
        (ke.1, (⟨⟨ke.2.1, ke.2.2.1, ke.2.2.2, child⟩, timeOf b child⟩ : indexed_edge_t)))
        = Prod.fst := rfl
    rw [this, List.enumFrom_map_fst]
  have hget_old : ∀ i, i < b.next_id →
      heap_get (setPath b1 child chain).heap i = heap_get b.heap i := by
    intro i hi
    rw [setPath_heap, hheap, heap_get_append_ne]
    intro hmem
    have : heap_keys ((es.enumFrom b.next_id).map
        (fun ke => (ke.1,
          (⟨⟨ke.2.1, ke.2.2.1, ke.2.2.2, child⟩, timeOf b child⟩ : indexed_edge_t)))) =
        (List.enumFrom b.next_id es).map Prod.fst := by
      simp only [heap_keys, List.map_map]
      rfl
    rw [this, List.enumFrom_map_fst] at hmem
    have := (List.mem_range'_1.mp hmem).1
    omega
  refine ⟨?_, ?_, ?_, ?_, ?_, ?_, ?_, ?_, ?_, ?_, ?_, ?_, hc0, by rw [hlen2]; exact hcl⟩
  · rw [setPath_left_index, setPath_path_index, hli, hpi]
    exact hinv.left_eq
  · rw [setPath_right_index, setPath_path_index, hri, hpi]
    exact hinv.right_eq
  · rw [setPath_path_index, hpi, hpget]
    have hset : (setPath b1 child chain).path = b.path.set child.toNat chain := by
      simp only [setPath, if_pos hc0, hpath]
    rw [hset]
    have hjs := join_set_multiset b.path child.toNat chain hcl
    have hgd : b.path.getD child.toNat [] = [] := by
      have : pathOf b child = b.path.getD child.toNat [] := by
        simp [pathOf, if_pos hc0]
      rw [← this, hfc]
    rw [hgd] at hjs
    simp only [Multiset.coe_nil, add_zero] at hjs
    rw [hjs, ← hinv.balance]
  · rw [setPath_path_index, hpi]
    exact hinv.pidx_nodup
  · intro i hi
    rw [setPath_path_index, hpi] at hi
    rw [hkeys2]
    exact List.mem_append_left _ (hinv.pidx_keys i hi)
  · intro k hk
    rw [hkeys2] at hk
    rw [setPath_next_id, hnid]
    rcases List.mem_append.mp hk with hm | hm
    · have := hinv.keys_lt k hm
      omega
    · have := (List.mem_range'_1.mp hm).2
      omega
  · rw [hlen2, setPath_time, ht]
    exact hinv.len_eq
  · intro i hi
    rw [setPath_path_index, hpi] at hi
    rw [hget_old i (hinv.keys_lt i (hinv.pidx_keys i hi))]
    exact hinv.pidx_marked i hi
  · intro i hi
    rw [hpget, hchain] at hi
    rw [hkeys2]
    exact List.mem_append_right _ hi
  · intro i hi
    rw [hpget, hchain] at hi
    obtain ⟨h1, h2⟩ := List.mem_range'_1.mp hi
    rw [setPath_heap, hheap]
    exact get_append_enumFrom_child child (timeOf b child) es b.heap b.next_id
      hinv.keys_lt i h1 h2
  · rw [hpget, hchain]
    exact List.nodup_range' _ _
  · intro i hi
    rw [hpget, hchain] at hi
    rw [setPath_path_index, hpi]
    intro hmem
    have h1 := (List.mem_range'_1.mp hi).1
    have := hinv.keys_lt i (hinv.pidx_keys i hmem)
    omega

/-- Indexing the pending chain restores the quiescent invariant. -/
theorem cinv_index_edges (b : TSB) (child : Int) (h : cinv b child) :
    tsb_inv (tree_sequence_builder_index_edges b child) := by
  rw [index_edges_eq]
  have hrev : ((pathOf b child).reverse : Multiset ℕ) = (pathOf b child : Multiset ℕ) :=
    Multiset.coe_reverse _
  refine ⟨?_, ?_, ?_, ?_, ?_, h.keys_lt, h.len_eq, ?_⟩
  · show ((pathOf b child).reverse ++ b.left_index : Multiset ℕ)
      = ((pathOf b child).reverse ++ b.path_index : Multiset ℕ)
    rw [← Multiset.coe_add, ← Multiset.coe_add, h.left_eq]
  · show ((pathOf b child).reverse ++ b.right_index : Multiset ℕ)
      = ((pathOf b child).reverse ++ b.path_index : Multiset ℕ)
    rw [← Multiset.coe_add, ← Multiset.coe_add, h.right_eq]
  · show ((pathOf b child).reverse ++ b.path_index : Multiset ℕ) = (b.path.join : Multiset ℕ)
    rw [← Multiset.coe_add, hrev, add_comm, h.balance]
  · show ((pathOf b child).reverse ++ b.path_index).Nodup
    refine List.Nodup.append (List.nodup_reverse.mpr h.pend_nodup) h.pidx_nodup ?_
    intro i hi
    exact h.pend_fresh i (List.mem_reverse.mp hi)
  · intro i hi
    rcases List.mem_append.mp hi with hm | hm
    · exact h.pend_keys i (List.mem_reverse.mp hm)
    · exact h.pidx_keys i hm
  · intro i hi
    rcases List.mem_append.mp hi with hm | hm
    · rw [h.pend_child i (List.mem_reverse.mp hm)]
      have := h.child_nonneg
      simp only [NULL_NODE]
      omega
    · exact h.pidx_marked i hm

/-- The claim-facing consequences of the invariant. -/
theorem tsb_inv_facts (b : TSB) (h : tsb_inv b) :
    b.left_index.length = b.path_index.length ∧
    b.right_index.length = b.path_index.length ∧
    b.path_index.length = (b.path.map List.length).sum ∧
    (∀ (c : Int) (i : ℕ), i ∈ pathOf b c →
      i ∈ b.left_index ∧ i ∈ b.right_index ∧ i ∈ b.path_index) := by
  refine ⟨?_, ?_, ?_, ?_⟩
  · have := congrArg Multiset.card h.left_eq
    simpa [Multiset.coe_card] using this
  · have := congrArg Multiset.card h.right_eq
    simpa [Multiset.coe_card] using this
  · have := congrArg Multiset.card h.balance
    simpa [Multiset.coe_card, List.length_join] using this
  · intro c i hi
    have hj : i ∈ b.path.join := mem_join_of_mem_pathOf b c i hi
    have hpi : i ∈ b.path_index := by
      have := h.balance
      rw [← Multiset.mem_coe, this, Multiset.mem_coe]
      exact hj
    refine ⟨?_, ?_, hpi⟩
    · rw [← Multiset.mem_coe, h.left_eq, Multiset.mem_coe]
      exact hpi
    · rw [← Multiset.mem_coe, h.right_eq, Multiset.mem_coe]
      exact hpi

/-- Accounting for the re-index pass: every `NULL`-marked chain entry gets
its child restored to `node` and is inserted into all three indexes; nothing
else changes. -/
theorem reindex_chain_acc (node : Int) (hnode : 0 ≤ node) :
    ∀ (chain : List Nat) (b : TSB),
      chain.Nodup →
      (∀ i ∈ chain, i ∈ heap_keys b.heap) →
      (∀ i ∈ b.path_index, (heap_get b.heap i).edge.child ≠ NULL_NODE) →
      b.path_index.Nodup →
      (∀ i ∈ b.path_index, i ∈ heap_keys b.heap) →
      ((reindex_chain b node chain).path_index : Multiset ℕ) =
          (b.path_index : Multiset ℕ) +
          ↑(chain.filter (fun i => decide ((heap_get b.heap i).edge.child = NULL_NODE))) ∧
      ((reindex_chain b node chain).left_index : Multiset ℕ) =
          (b.left_index : Multiset ℕ) +
          ↑(chain.filter (fun i => decide ((heap_get b.heap i).edge.child = NULL_NODE))) ∧
      ((reindex_chain b node chain).right_index : Multiset ℕ) =
          (b.right_index : Multiset ℕ) +
          ↑(chain.filter (fun i => decide ((heap_get b.heap i).edge.child = NULL_NODE))) ∧
      (reindex_chain b node chain).path_index.Nodup ∧
      (∀ i ∈ (reindex_chain b node chain).path_index,
        (heap_get (reindex_chain b node chain).heap i).edge.child ≠ NULL_NODE) ∧
      heap_keys (reindex_chain b node chain).heap = heap_keys b.heap ∧
      (∀ k, k ∉ chain → heap_get (reindex_chain b node chain).heap k = heap_get b.heap k) ∧
      (∀ i ∈ (reindex_chain b node chain).path_index,
        i ∈ heap_keys (reindex_chain b node chain).heap) := by
  intro chain
  induction chain with
  | nil =>
    intro b _ _ hmk hnd hpk
    exact ⟨by simp [reindex_chain], by simp [reindex_chain], by simp [reindex_chain],
      hnd, hmk, rfl, fun k _ => rfl, hpk⟩
  | cons x rest ih =>
    intro b hcnd hck hmk hnd hpk
    simp only [List.nodup_cons, List.mem_cons, not_or] at hcnd
    obtain ⟨hxr, hrnd⟩ := hcnd
    have hxk : x ∈ heap_keys b.heap := hck x (by simp)
    simp only [reindex_chain]
    by_cases hx : (heap_get b.heap x).edge.child = NULL_NODE
    · rw [if_pos hx]
      set e' : indexed_edge_t :=
        ⟨{ (heap_get b.heap x).edge with child := node }, (heap_get b.heap x).time⟩ with he'
      set b2 : TSB := tree_sequence_builder_index_edge
        { b with heap := heap_set b.heap x e' } x with hb2
      have hb2pidx : b2.path_index = x :: b.path_index := rfl
      have hb2left : b2.left_index = x :: b.left_index := rfl
      have hb2right : b2.right_index = x :: b.right_index := rfl
      have hb2heap : b2.heap = heap_set b.heap x e' := rfl
      have hb2keys : heap_keys b2.heap = heap_keys b.heap := by
        rw [hb2heap, heap_keys_set]
      have hb2getx : heap_get b2.heap x = e' := by
        rw [hb2heap]
        exact heap_get_set_self _ _ _ hxk
      have hb2getne : ∀ k, k ≠ x → heap_get b2.heap k = heap_get b.heap k := by
        intro k hk
        rw [hb2heap]
        exact heap_get_set_ne _ _ _ _ (fun hq => hk hq.symm)
      have hxnotp : x ∉ b.path_index := fun hmem => hmk x hmem hx
      have hrest_filter : rest.filter
            (fun i => decide ((heap_get b2.heap i).edge.child = NULL_NODE)) =
          rest.filter (fun i => decide ((heap_get b.heap i).edge.child = NULL_NODE)) := by
        apply List.filter_congr
        intro i hi
        rw [hb2getne i (fun hq => hxr (hq ▸ hi))]
      obtain ⟨c1, c2, c3, c4, c5, c6, c7, c8⟩ := ih b2
        hrnd
        (fun i hi => by rw [hb2keys]; exact hck i (List.mem_cons_of_mem x hi))
        (by
          intro i hi
          rw [hb2pidx] at hi
          rcases List.mem_cons.mp hi with hq | hq
          · subst hq
            rw [hb2getx, he']
            simp only [NULL_NODE]
            omega
          · rw [hb2getne i (fun he => hxr ?_)]
            · exact hmk i hq
            · exact absurd hq (he ▸ hxnotp))
        (by
          rw [hb2pidx]
          exact List.nodup_cons.mpr ⟨hxnotp, hnd⟩)
        (by
          intro i hi
          rw [hb2pidx] at hi
          rw [hb2keys]
          rcases List.mem_cons.mp hi with hq | hq
          · subst hq
            exact hxk
          · exact hpk i hq)
      rw [hb2pidx, hrest_filter] at c1
      rw [hb2left, hrest_filter] at c2
      rw [hb2right, hrest_filter] at c3
      refine ⟨?_, ?_, ?_, c4, c5, by rw [c6, hb2keys], ?_, c8⟩
      · rw [c1, List.filter_cons_of_pos (by simpa using hx), ← Multiset.cons_coe,
          ← Multiset.cons_coe, Multiset.cons_add, Multiset.add_cons]
      · rw [c2, List.filter_cons_of_pos (by simpa using hx), ← Multiset.cons_coe,
          ← Multiset.cons_coe, Multiset.cons_add, Multiset.add_cons]
      · rw [c3, List.filter_cons_of_pos (by simpa using hx), ← Multiset.cons_coe,
          ← Multiset.cons_coe, Multiset.cons_add, Multiset.add_cons]
      · intro k hk
        rw [c7 k (fun hq => hk (List.mem_cons_of_mem x hq)),
          hb2getne k (fun hq => hk (by simp [hq]))]
    · rw [if_neg hx]
      obtain ⟨c1, c2, c3, c4, c5, c6, c7, c8⟩ := ih b
        hrnd (fun i hi => hck i (List.mem_cons_of_mem x hi)) hmk hnd hpk
      refine ⟨?_, ?_, ?_, c4, c5, c6, ?_, c8⟩
      · rw [c1, List.filter_cons_of_neg (by simpa using hx)]
      · rw [c2, List.filter_cons_of_neg (by simpa using hx)]
      · rw [c3, List.filter_cons_of_neg (by simpa using hx)]
      · intro k hk
        exact c7 k (fun hq => hk (List.mem_cons_of_mem x hq))

/-- Accounting for the merge pass of `squash_indexed_edges`: it unindexes
(from all three indexes at once) exactly the indexed chain entries that take
part in a merge, marking surviving merge targets `NULL`; the output chain is
a sublist of the input and nothing outside the chain is touched. -/
theorem sic_acc (node : Int) :
    ∀ (rest : List Nat) (b : TSB) (prev : Nat) (b' : TSB) (out : List Nat),
      squash_indexed_chain b node prev rest = .ok (b', out) →
      (prev :: rest).Nodup →
      (∀ i ∈ prev :: rest, i ∈ heap_keys b.heap) →
      (∀ i ∈ b.path_index, (heap_get b.heap i).edge.child ≠ NULL_NODE) →
      b.path_index.Nodup →
      (∀ i ∈ b.path_index, i ∈ heap_keys b.heap) →
      ((b.left_index : Multiset ℕ) = (b.path_index : Multiset ℕ)) →
      ((b.right_index : Multiset ℕ) = (b.path_index : Multiset ℕ)) →
      ((b'.path_index : Multiset ℕ) +
          ↑((prev :: rest).filter
            (fun i => decide ((heap_get b.heap i).edge.child ≠ NULL_NODE))) =
        (b.path_index : Multiset ℕ) +
          ↑(out.filter (fun i => decide ((heap_get b'.heap i).edge.child ≠ NULL_NODE)))) ∧
      ((b'.left_index : Multiset ℕ) = (b'.path_index : Multiset ℕ)) ∧
      ((b'.right_index : Multiset ℕ) = (b'.path_index : Multiset ℕ)) ∧
      out.Sublist (prev :: rest) ∧
      (∀ k, k ∉ prev :: rest → heap_get b'.heap k = heap_get b.heap k) ∧
      (∀ k, k ∉ prev :: rest → (k ∈ heap_keys b'.heap ↔ k ∈ heap_keys b.heap)) ∧
      b'.path_index.Nodup ∧
      (∀ i ∈ b'.path_index, (heap_get b'.heap i).edge.child ≠ NULL_NODE) ∧
      (∀ i ∈ b'.path_index, i ∈ heap_keys b'.heap) ∧
      (∀ i ∈ out, i ∈ heap_keys b'.heap) := by
  intro rest
  induction rest with
  | nil =>
    intro b prev b' out h hnd hck hmk hpnd hpk hle hre
    simp only [squash_indexed_chain, Except.ok.injEq, Prod.mk.injEq] at h
    obtain ⟨hb, hout⟩ := h
    subst hb
    subst hout
    exact ⟨rfl, hle, hre, List.Sublist.refl _, fun k _ => rfl, fun k _ => Iff.rfl,
      hpnd, hmk, hpk, fun i hi => by
        simp only [List.mem_singleton] at hi
        subst hi
        exact hck i (by simp)⟩
  | cons x rest ih =>
    intro b prev b' out h hnd hck hmk hpnd hpk hle hre
    have hndfacts := hnd
    simp only [List.nodup_cons, List.mem_cons, not_or] at hndfacts
    obtain ⟨⟨hpx, hpr⟩, hxr, hrnd⟩ := hndfacts
    have hprevk : prev ∈ heap_keys b.heap := hck prev (by simp)
    have hxk : x ∈ heap_keys b.heap := hck x (by simp)
    simp only [squash_indexed_chain] at h
    by_cases hm : (heap_get b.heap prev).edge.right = (heap_get b.heap x).edge.left ∧
        (heap_get b.heap prev).edge.parent = (heap_get b.heap x).edge.parent
    · rw [if_pos hm] at h
      have hcont : ∀ b2 : TSB,
          squash_indexed_chain { b2 with heap := heap_del (heap_set b2.heap prev
              ⟨{ (heap_get b2.heap prev).edge with
                  right := (heap_get b.heap x).edge.right },
                (heap_get b2.heap prev).time⟩) x } node prev rest = .ok (b', out) →
          (heap_get b2.heap prev).edge.child = NULL_NODE →
          (∀ k, k ≠ prev → heap_get b2.heap k = heap_get b.heap k) →
          heap_keys b2.heap = heap_keys b.heap →
          ((b2.path_index : Multiset ℕ) +
              ↑((prev :: x :: rest).filter
                (fun i => decide ((heap_get b.heap i).edge.child ≠ NULL_NODE))) =
            (b.path_index : Multiset ℕ) +
              ↑(rest.filter
                (fun i => decide ((heap_get b.heap i).edge.child ≠ NULL_NODE)))) →
          ((b2.left_index : Multiset ℕ) = (b2.path_index : Multiset ℕ)) →
          ((b2.right_index : Multiset ℕ) = (b2.path_index : Multiset ℕ)) →
          b2.path_index.Nodup →
          (∀ i ∈ b2.path_index, i ≠ prev ∧ i ≠ x) →
          (∀ i ∈ b2.path_index, i ∈ heap_keys b.heap) →
          (∀ i ∈ b2.path_index, (heap_get b.heap i).edge.child ≠ NULL_NODE) →
          ((b'.path_index : Multiset ℕ) +
              ↑((prev :: x :: rest).filter
                (fun i => decide ((heap_get b.heap i).edge.child ≠ NULL_NODE))) =
            (b.path_index : Multiset ℕ) +
              ↑(out.filter
                (fun i => decide ((heap_get b'.heap i).edge.child ≠ NULL_NODE)))) ∧
          ((b'.left_index : Multiset ℕ) = (b'.path_index : Multiset ℕ)) ∧
          ((b'.right_index : Multiset ℕ) = (b'.path_index : Multiset ℕ)) ∧
          out.Sublist (prev :: x :: rest) ∧
          (∀ k, k ∉ prev :: x :: rest → heap_get b'.heap k = heap_get b.heap k) ∧
          (∀ k, k ∉ prev :: x :: rest →
            (k ∈ heap_keys b'.heap ↔ k ∈ heap_keys b.heap)) ∧
          b'.path_index.Nodup ∧
          (∀ i ∈ b'.path_index, (heap_get b'.heap i).edge.child ≠ NULL_NODE) ∧
          (∀ i ∈ b'.path_index, i ∈ heap_keys b'.heap) ∧
          (∀ i ∈ out, i ∈ heap_keys b'.heap) := by
        intro b2 hrec hb2null hb2other hb2keys hacc hal har hb2nd hb2ne hb2k hb2mk
        set e2 : indexed_edge_t :=
          ⟨{ (heap_get b2.heap prev).edge with
              right := (heap_get b.heap x).edge.right },
            (heap_get b2.heap prev).time⟩ with he2
        set b3 : TSB := { b2 with heap := heap_del (heap_set b2.heap prev e2) x } with hb3
        have hprevk2 : prev ∈ heap_keys b2.heap := by rw [hb2keys]; exact hprevk
        have hb3prev : heap_get b3.heap prev = e2 := by
          rw [hb3]
          show heap_get (heap_del (heap_set b2.heap prev e2) x) prev = e2
          rw [heap_get_del_ne _ _ _ (fun hq => hpx hq.symm)]
          exact heap_get_set_self _ _ _ hprevk2
        have hb3prevnull : (heap_get b3.heap prev).edge.child = NULL_NODE := by
          rw [hb3prev, he2]
          exact hb2null
        have hb3other : ∀ k, k ≠ prev → k ≠ x →
            heap_get b3.heap k = heap_get b.heap k := by
          intro k hk1 hk2
          rw [hb3]
          show heap_get (heap_del (heap_set b2.heap prev e2) x) k = heap_get b.heap k
          rw [heap_get_del_ne _ _ _ (fun hq => hk2 hq.symm),
            heap_get_set_ne _ _ _ _ (fun hq => hk1 hq.symm)]
          exact hb2other k hk1
        have hb3keys : heap_keys b3.heap = (heap_keys b.heap).erase x := by
          rw [hb3]
          show heap_keys (heap_del (heap_set b2.heap prev e2) x) = _
          rw [heap_keys_del, heap_keys_set, hb2keys]
        obtain ⟨c1, c2, c3, c4, c5, c6, c7, c8, c9, c10⟩ := ih b3 prev b' out hrec
          (List.nodup_cons.mpr ⟨hpr, hrnd⟩)
          (by
            intro i hi
            rw [hb3keys]
            rcases List.mem_cons.mp hi with hq | hq
            · subst hq
              exact (List.mem_erase_of_ne hpx).mpr hprevk
            · exact (List.mem_erase_of_ne (fun he => hxr (by rw [← he]; exact hq))).mpr
                (hck i (by simp [hq])))
          (by
            intro i hi
            show (heap_get b3.heap i).edge.child ≠ NULL_NODE
            rw [hb3other i (hb2ne i hi).1 (hb2ne i hi).2]
            exact hb2mk i hi)
          hb2nd
          (by
            intro i hi
            rw [hb3keys]
            exact (List.mem_erase_of_ne (hb2ne i hi).2).mpr (hb2k i hi))
          hal har
        have hfilter3 : (prev :: rest).filter
            (fun i => decide ((heap_get b3.heap i).edge.child ≠ NULL_NODE)) =
            rest.filter (fun i => decide ((heap_get b.heap i).edge.child ≠ NULL_NODE)) := by
          rw [List.filter_cons_of_neg (by simp [hb3prevnull])]
          apply List.filter_congr
          intro i hi
          rw [hb3other i (fun hq => hpr (hq ▸ hi)) (fun hq => hxr (hq ▸ hi))]
        rw [hfilter3] at c1
        refine ⟨?_, c2, c3, c4.trans (List.Sublist.cons₂ prev
          (List.sublist_cons_self x rest)), ?_, ?_, c7, c8, c9, c10⟩
        · have hsum : ((b'.path_index : Multiset ℕ) +
              ↑((prev :: x :: rest).filter
                (fun i => decide ((heap_get b.heap i).edge.child ≠ NULL_NODE)))) +
              ↑(rest.filter
                (fun i => decide ((heap_get b.heap i).edge.child ≠ NULL_NODE))) =
              ((b.path_index : Multiset ℕ) +
                ↑(out.filter
                  (fun i => decide ((heap_get b'.heap i).edge.child ≠ NULL_NODE)))) +
              ↑(rest.filter
                (fun i => decide ((heap_get b.heap i).edge.child ≠ NULL_NODE))) := by
            rw [add_assoc, add_comm
                (↑((prev :: x :: rest).filter
                  (fun i => decide ((heap_get b.heap i).edge.child ≠ NULL_NODE)))
                  : Multiset ℕ), ← add_assoc, c1, add_assoc, add_comm
                (↑(out.filter
                  (fun i => decide ((heap_get b'.heap i).edge.child ≠ NULL_NODE)))
                  : Multiset ℕ), ← add_assoc, hacc, add_assoc, add_assoc]
            rw [add_comm
                (↑(rest.filter
                  (fun i => decide ((heap_get b.heap i).edge.child ≠ NULL_NODE)))
                  : Multiset ℕ)]
          exact add_right_cancel hsum
        · intro k hk
          simp only [List.mem_cons, not_or] at hk
          rw [c5 k (by simp [List.mem_cons, not_or, hk.1, hk.2.2])]
          exact hb3other k hk.1 hk.2.1
        · intro k hk
          simp only [List.mem_cons, not_or] at hk
          rw [c6 k (by simp [List.mem_cons, not_or, hk.1, hk.2.2]), hb3keys,
            List.mem_erase_of_ne hk.2.1]
      by_cases hpc : (heap_get b.heap prev).edge.child ≠ NULL_NODE
      · rw [if_pos hpc] at h
        cases hu : tree_sequence_builder_unindex_edge b prev with
        | error z =>
          rw [hu] at h
          simp [Except.map] at h
        | ok bu =>
          rw [hu] at h
          simp only [Except.map] at h
          obtain ⟨hpm1, hpm2, hpm3, hbu⟩ := unindex_edge_ok b prev bu hu
          set eN : indexed_edge_t := ⟨{ (heap_get b.heap prev).edge with child := NULL_NODE }, (heap_get b.heap prev).time⟩ with heN
          set b1 : TSB := { bu with heap := heap_set bu.heap prev eN } with hb1
          have hb1heap : b1.heap = heap_set b.heap prev eN := by
            rw [hb1, hbu]
          have hb1null : (heap_get b1.heap prev).edge.child = NULL_NODE := by
            rw [hb1heap, heap_get_set_self _ _ _ hprevk, heN]
          have hb1other : ∀ k, k ≠ prev → heap_get b1.heap k = heap_get b.heap k := by
            intro k hk
            rw [hb1heap, heap_get_set_ne _ _ _ _ (fun hq => hk hq.symm)]
          have hb1keys : heap_keys b1.heap = heap_keys b.heap := by
            rw [hb1heap, heap_keys_set]
          have hb1pidx : b1.path_index = b.path_index.erase prev := by rw [hb1, hbu]
          have hb1left : b1.left_index = b.left_index.erase prev := by rw [hb1, hbu]
          have hb1right : b1.right_index = b.right_index.erase prev := by rw [hb1, hbu]
          by_cases hxc : (heap_get b.heap x).edge.child ≠ NULL_NODE
          · rw [if_pos hxc] at h
            cases hux : tree_sequence_builder_unindex_edge b1 x with
            | error z =>
              rw [hux] at h
              simp at h
            | ok b2 =>
              rw [hux] at h
              obtain ⟨hxm1, hxm2, hxm3, hb2⟩ := unindex_edge_ok b1 x b2 hux
              have hb2heap : b2.heap = b1.heap := by rw [hb2]
              have hxmem : x ∈ b.path_index.erase prev := by
                rw [← hb1pidx]
                exact hxm3
              refine hcont b2 (by exact h) ?_ ?_ ?_ ?_ ?_ ?_ ?_ ?_ ?_ ?_
              · rw [hb2heap]
                exact hb1null
              · intro k hk
                rw [hb2heap]
                exact hb1other k hk
              · rw [hb2heap]
                exact hb1keys
              · rw [hb2, hb1pidx]
                dsimp only
                rw [List.filter_cons_of_pos (by simpa using hpc),
                  List.filter_cons_of_pos (by simpa using hxc),
                  ← Multiset.cons_coe, ← Multiset.cons_coe,
                  Multiset.add_cons, Multiset.add_cons,
                  coe_erase_cons b.path_index prev hpm3,
                  coe_erase_cons (b.path_index.erase prev) x hxmem,
                  Multiset.cons_add, Multiset.cons_add]
              · rw [hb2, hb1pidx, hb1left]
                dsimp only
                rw [Multiset.coe_eq_coe] at hle ⊢
                exact (hle.erase prev).erase x
              · rw [hb2, hb1pidx, hb1right]
                dsimp only
                rw [Multiset.coe_eq_coe] at hre ⊢
                exact (hre.erase prev).erase x
              · rw [hb2, hb1pidx]
                dsimp only
                exact (hpnd.erase prev).erase x
              · intro i hi
                rw [hb2, hb1pidx] at hi
                dsimp only at hi
                have h1 := ((hpnd.erase prev).mem_erase_iff.mp hi).1
                have h2 := (hpnd.mem_erase_iff.mp
                  (List.mem_of_mem_erase hi)).1
                exact ⟨h2, h1⟩
              · intro i hi
                rw [hb2, hb1pidx] at hi
                dsimp only at hi
                exact hpk i (List.mem_of_mem_erase (List.mem_of_mem_erase hi))
              · intro i hi
                rw [hb2, hb1pidx] at hi
                dsimp only at hi
                exact hmk i (List.mem_of_mem_erase (List.mem_of_mem_erase hi))
          · rw [if_neg hxc] at h
            push_neg at hxc
            have hxnotp : x ∉ b.path_index := fun hmem => hmk x hmem hxc
            refine hcont b1 h hb1null hb1other hb1keys ?_ ?_ ?_ ?_ ?_ ?_ ?_
            · rw [hb1pidx]
              rw [List.filter_cons_of_pos (by simpa using hpc),
                List.filter_cons_of_neg (by simpa using hxc),
                ← Multiset.cons_coe, Multiset.add_cons,
                coe_erase_cons b.path_index prev hpm3, Multiset.cons_add]
            · rw [hb1pidx, hb1left]
              rw [Multiset.coe_eq_coe] at hle ⊢
              exact hle.erase prev
            · rw [hb1pidx, hb1right]
              rw [Multiset.coe_eq_coe] at hre ⊢
              exact hre.erase prev
            · rw [hb1pidx]
              exact hpnd.erase prev
            · intro i hi
              rw [hb1pidx] at hi
              refine ⟨(hpnd.mem_erase_iff.mp hi).1, ?_⟩
              intro he
              exact hxnotp (he ▸ List.mem_of_mem_erase hi)
            · intro i hi
              rw [hb1pidx] at hi
              exact hpk i (List.mem_of_mem_erase hi)
            · intro i hi
              rw [hb1pidx] at hi
              exact hmk i (List.mem_of_mem_erase hi)
      · rw [if_neg hpc] at h
        dsimp only at h
        push_neg at hpc
        have hpnotp : prev ∉ b.path_index := fun hmem => hmk prev hmem hpc
        by_cases hxc : (heap_get b.heap x).edge.child ≠ NULL_NODE
        · rw [if_pos hxc] at h
          cases hux : tree_sequence_builder_unindex_edge b x with
          | error z =>
            rw [hux] at h
            simp at h
          | ok b2 =>
            rw [hux] at h
            obtain ⟨hxm1, hxm2, hxm3, hb2⟩ := unindex_edge_ok b x b2 hux
            have hb2heap : b2.heap = b.heap := by rw [hb2]
            refine hcont b2 (by exact h) ?_ ?_ ?_ ?_ ?_ ?_ ?_ ?_ ?_ ?_
            · rw [hb2heap]
              exact hpc
            · intro k _
              rw [hb2heap]
            · rw [hb2heap]
            · rw [hb2]
              dsimp only
              rw [List.filter_cons_of_neg (by simpa using hpc),
                List.filter_cons_of_pos (by simpa using hxc),
                ← Multiset.cons_coe, Multiset.add_cons,
                coe_erase_cons b.path_index x hxm3, Multiset.cons_add]
            · rw [hb2]
              dsimp only
              rw [Multiset.coe_eq_coe] at hle ⊢
              exact hle.erase x
            · rw [hb2]
              dsimp only
              rw [Multiset.coe_eq_coe] at hre ⊢
              exact hre.erase x
            · rw [hb2]
              dsimp only
              exact hpnd.erase x
            · intro i hi
              rw [hb2] at hi
              dsimp only at hi
              refine ⟨?_, (hpnd.mem_erase_iff.mp hi).1⟩
              intro he
              exact hpnotp (he ▸ List.mem_of_mem_erase hi)
            · intro i hi
              rw [hb2] at hi
              dsimp only at hi
              exact hpk i (List.mem_of_mem_erase hi)
            · intro i hi
              rw [hb2] at hi
              dsimp only at hi
              exact hmk i (List.mem_of_mem_erase hi)
        · rw [if_neg hxc] at h
          push_neg at hxc
          have hxnotp : x ∉ b.path_index := fun hmem => hmk x hmem hxc
          refine hcont b h hpc (fun k _ => rfl) rfl ?_ hle hre hpnd ?_ hpk hmk
          · rw [List.filter_cons_of_neg (by simpa using hpc),
              List.filter_cons_of_neg (by simpa using hxc)]
          · intro i hi
            exact ⟨fun he => hpnotp (he ▸ hi), fun he => hxnotp (he ▸ hi)⟩
    · rw [if_neg hm] at h
      cases hs : squash_indexed_chain b node x rest with
      | error z =>
        rw [hs] at h
        simp at h
      | ok r =>
        rw [hs] at h
        simp only [Except.ok.injEq, Prod.mk.injEq] at h
        obtain ⟨hb', hout⟩ := h
        subst hb'
        subst hout
        obtain ⟨d1, d2, d3, d4, d5, d6, d7, d8, d9, d10⟩ := ih b x r.1 r.2 hs
          (List.nodup_cons.mpr ⟨hxr, hrnd⟩)
          (fun i hi => hck i (List.mem_cons_of_mem prev hi))
          hmk hpnd hpk hle hre
        have hprevheap : heap_get r.1.heap prev = heap_get b.heap prev :=
          d5 prev (by simp [List.mem_cons, not_or, hpx, hpr])
        refine ⟨?_, d2, d3, List.Sublist.cons₂ prev d4, ?_, ?_, d7, d8, d9, ?_⟩
        · by_cases hpf : (heap_get b.heap prev).edge.child ≠ NULL_NODE
          · have hfL : List.filter
                (fun i => decide ((heap_get b.heap i).edge.child ≠ NULL_NODE))
                (prev :: x :: rest) = prev :: List.filter
                (fun i => decide ((heap_get b.heap i).edge.child ≠ NULL_NODE))
                (x :: rest) := List.filter_cons_of_pos (by simpa using hpf)
            have hfR : List.filter
                (fun i => decide ((heap_get r.1.heap i).edge.child ≠ NULL_NODE))
                (prev :: r.2) = prev :: List.filter
                (fun i => decide ((heap_get r.1.heap i).edge.child ≠ NULL_NODE))
                r.2 := List.filter_cons_of_pos (by simpa [hprevheap] using hpf)
            rw [hfL, hfR, ← Multiset.cons_coe, ← Multiset.cons_coe,
              Multiset.add_cons, Multiset.add_cons, d1]
          · push_neg at hpf
            have hfL : List.filter
                (fun i => decide ((heap_get b.heap i).edge.child ≠ NULL_NODE))
                (prev :: x :: rest) = List.filter
                (fun i => decide ((heap_get b.heap i).edge.child ≠ NULL_NODE))
                (x :: rest) := List.filter_cons_of_neg (by simp [hpf])
            have hfR : List.filter
                (fun i => decide ((heap_get r.1.heap i).edge.child ≠ NULL_NODE))
                (prev :: r.2) = List.filter
                (fun i => decide ((heap_get r.1.heap i).edge.child ≠ NULL_NODE))
                r.2 := List.filter_cons_of_neg (by simp [hprevheap, hpf])
            rw [hfL, hfR, d1]
        · intro k hk
          simp only [List.mem_cons, not_or] at hk
          exact d5 k (by simp [List.mem_cons, not_or, hk.2.1, hk.2.2])
        · intro k hk
          simp only [List.mem_cons, not_or] at hk
          exact d6 k (by simp [List.mem_cons, not_or, hk.2.1, hk.2.2])
        · intro i hi
          rcases List.mem_cons.mp hi with hq | hq
          · subst hq
            exact (d6 i (by simp [List.mem_cons, not_or, hpx, hpr])).mpr hprevk
          · exact d10 i hq

/-- End-to-end accounting for `squash_indexed_edges`: the node's path is
replaced by a sublist of itself (the merge survivors), which ends up fully
indexed; the net index change removes every initially-indexed chain entry
and adds every survivor.  Nothing outside the chain is touched. -/
theorem sie_acc (b : TSB) (node : Int) (b' : TSB)
    (h : tree_sequence_builder_squash_indexed_edges b node = .ok b')
    (hnode : 0 ≤ node)
    (hnd : (pathOf b node).Nodup)
    (hck : ∀ i ∈ pathOf b node, i ∈ heap_keys b.heap)
    (hmk : ∀ i ∈ b.path_index, (heap_get b.heap i).edge.child ≠ NULL_NODE)
    (hpnd : b.path_index.Nodup)
    (hpk : ∀ i ∈ b.path_index, i ∈ heap_keys b.heap)
    (hle : (b.left_index : Multiset ℕ) = (b.path_index : Multiset ℕ))
    (hre : (b.right_index : Multiset ℕ) = (b.path_index : Multiset ℕ)) :
    ∃ out : List Nat,
      b'.path = b.path.set node.toNat out ∧
      pathOf b' node = out ∧
      out.Sublist (pathOf b node) ∧
      ((b'.path_index : Multiset ℕ) +
          ↑((pathOf b node).filter
            (fun i => decide ((heap_get b.heap i).edge.child ≠ NULL_NODE))) =
        (b.path_index : Multiset ℕ) + (out : Multiset ℕ)) ∧
      ((b'.left_index : Multiset ℕ) = (b'.path_index : Multiset ℕ)) ∧
      ((b'.right_index : Multiset ℕ) = (b'.path_index : Multiset ℕ)) ∧
      b'.path_index.Nodup ∧
      (∀ i ∈ b'.path_index, (heap_get b'.heap i).edge.child ≠ NULL_NODE) ∧
      (∀ i ∈ b'.path_index, i ∈ heap_keys b'.heap) ∧
      (∀ k, k ∉ pathOf b node → heap_get b'.heap k = heap_get b.heap k) ∧
      (∀ k, k ∉ pathOf b node → (k ∈ heap_keys b'.heap ↔ k ∈ heap_keys b.heap)) ∧
      b'.next_id = b.next_id ∧ b'.time = b.time := by
  rcases hp : pathOf b node with _ | ⟨p, rest⟩
  · simp [tree_sequence_builder_squash_indexed_edges, hp] at h
  · obtain ⟨h0, hlt⟩ := pathOf_ne_nil_bounds b node (by rw [hp]; simp)
    simp only [tree_sequence_builder_squash_indexed_edges, hp] at h
    rcases tsi_bind_ok _ _ _ h with ⟨r, hr, h2⟩
    obtain ⟨r1, out⟩ := r
    simp only [Except.ok.injEq] at h2
    subst h2
    rw [hp] at hnd hck
    obtain ⟨c1, c2, c3, c4, c5, c6, c7, c8, c9, c10⟩ := sic_acc node rest b p r1 out hr
      hnd hck hmk hpnd hpk hle hre
    have hsicframe := squash_indexed_chain_frame node rest b p r1 out hr
    set b2 : TSB := setPath r1 node out with hb2
    have hb2heap : b2.heap = r1.heap := by rw [hb2, setPath_heap]
    have hb2pidx : b2.path_index = r1.path_index := by rw [hb2, setPath_path_index]
    have hb2left : b2.left_index = r1.left_index := by rw [hb2, setPath_left_index]
    have hb2right : b2.right_index = r1.right_index := by rw [hb2, setPath_right_index]
    have hb2path : b2.path = b.path.set node.toNat out := by
      rw [hb2]
      simp only [setPath, if_pos h0]
      rw [hsicframe.2.2.2]
    have houtnd : out.Nodup := hnd.sublist c4
    obtain ⟨d1, d2, d3, d4, d5, d6, d7, d8⟩ := reindex_chain_acc node hnode out b2
      houtnd
      (by
        intro i hi
        rw [hb2heap]
        exact c10 i hi)
      (by
        intro i hi
        rw [hb2pidx] at hi
        rw [hb2heap]
        exact c8 i hi)
      (by rw [hb2pidx]; exact c7)
      (by
        intro i hi
        rw [hb2pidx] at hi
        rw [hb2heap]
        exact c9 i hi)
    rw [hb2pidx, hb2heap] at d1
    rw [hb2left, hb2heap] at d2
    rw [hb2right, hb2heap] at d3
    rw [hb2heap] at d7
    refine ⟨out, ?_, ?_, c4, ?_, ?_, ?_, d4, d5, d8, ?_, ?_, ?_, ?_⟩
    · rw [(reindex_chain_frame node out b2).2.2.2, hb2path]
    · rw [pathOf_congr (reindex_chain_frame node out b2).2.2.2 node, hb2]
      exact pathOf_setPath_self r1 node out h0 (by rw [hsicframe.2.2.2]; exact hlt)
    · have hpart : (↑(out.filter
            (fun i => decide ((heap_get r1.heap i).edge.child ≠ NULL_NODE))) : Multiset ℕ) +
          ↑(out.filter
            (fun i => decide ((heap_get r1.heap i).edge.child = NULL_NODE))) =
          (out : Multiset ℕ) := by
        have hfn : (fun i => decide ((heap_get r1.heap i).edge.child = NULL_NODE)) =
            (fun i => !decide ((heap_get r1.heap i).edge.child ≠ NULL_NODE)) := by
          funext i
          simp [decide_not]
        rw [hfn, Multiset.coe_add, Multiset.coe_eq_coe]
        exact List.filter_append_perm _ out
      rw [d1, add_right_comm, c1, add_assoc, hpart]
    · rw [d2, d1, c2]
    · rw [d3, d1, c3]
    · intro k hk
      have hko : k ∉ out := fun hc => hk (c4.subset hc)
      rw [d7 k hko]
      exact c5 k hk
    · intro k hk
      rw [d6, hb2heap]
      exact c6 k hk
    · rw [(reindex_chain_frame node out b2).2.2.1, hb2, setPath_next_id,
        hsicframe.2.2.1]
    · rw [(reindex_chain_frame node out b2).1, hb2, setPath_time, hsicframe.1]

/-- Accounting for the per-contig loop of `make_pc_node`: each matched dest
edge is removed from all three indexes and `NULL`-marked; sources only have
their parent rewritten (child fields below `next_id` outside the dests are
untouched); fresh copies are appended to the heap. -/
theorem pc_loop_acc (pcn : Int) :
    ∀ (mapped : List (Nat × Nat)) (b : TSB) (acc : List Nat) (b' : TSB) (out : List Nat),
      pc_loop b pcn mapped acc = .ok (b', out) →
      (mapped.map Prod.snd).Nodup →
      (∀ i ∈ b.path_index, (heap_get b.heap i).edge.child ≠ NULL_NODE) →
      b.path_index.Nodup →
      (∀ i ∈ b.path_index, i ∈ heap_keys b.heap) →
      (∀ k ∈ heap_keys b.heap, k < b.next_id) →
      ((b.left_index : Multiset ℕ) = (b.path_index : Multiset ℕ)) →
      ((b.right_index : Multiset ℕ) = (b.path_index : Multiset ℕ)) →
      ((b.path_index : Multiset ℕ) =
          (b'.path_index : Multiset ℕ) + ↑(mapped.map Prod.snd)) ∧
      ((b'.left_index : Multiset ℕ) = (b'.path_index : Multiset ℕ)) ∧
      ((b'.right_index : Multiset ℕ) = (b'.path_index : Multiset ℕ)) ∧
      b'.path_index.Nodup ∧
      (∀ i ∈ b'.path_index, (heap_get b'.heap i).edge.child ≠ NULL_NODE) ∧
      (∀ i ∈ b'.path_index, i ∈ heap_keys b'.heap) ∧
      (∀ k ∈ heap_keys b'.heap, k < b'.next_id) ∧
      (∀ k, k < b.next_id → k ∉ mapped.map Prod.snd → k ∉ mapped.map Prod.fst →
        heap_get b'.heap k = heap_get b.heap k) ∧
      (∀ k, k ∈ heap_keys b.heap → k ∈ heap_keys b'.heap) ∧
      b.next_id ≤ b'.next_id ∧
      (∀ k, k < b.next_id → k ∉ mapped.map Prod.snd →
        (heap_get b'.heap k).edge.child = (heap_get b.heap k).edge.child) ∧
      (∀ d ∈ mapped.map Prod.snd,
        (heap_get b'.heap d).edge.child = NULL_NODE ∧ d ∈ heap_keys b'.heap) := by
  intro mapped
  induction mapped with
  | nil =>
    intro b acc b' out h _ hmk hpnd hpk hkl hle hre
    simp only [pc_loop, Except.ok.injEq, Prod.mk.injEq] at h
    obtain ⟨hb, -⟩ := h
    subst hb
    exact ⟨by simp, hle, hre, hpnd, hmk, hpk, hkl, fun k _ _ _ => rfl,
      fun k hk => hk, le_refl _, fun k _ _ => rfl, by simp⟩
  | cons m rest ih =>
    intro b acc b' out h hdnd hmk hpnd hpk hkl hle hre
    obtain ⟨s, d⟩ := m
    simp only [List.map_cons, List.nodup_cons] at hdnd
    obtain ⟨hdr, hrnd⟩ := hdnd
    simp only [pc_loop] at h
    rcases tsi_bind_ok _ _ _ h with ⟨a, ha, h2⟩
    obtain ⟨a1, eid⟩ := a
    obtain ⟨ha1, heid, -, -, -⟩ := alloc_edge_ok_effect b _ _ _ _ a1 eid ha
    rcases tsi_bind_ok _ _ _ h2 with ⟨b3, hb3, h3⟩
    obtain ⟨hd1, hd2, hd3, hb3eq⟩ := unindex_edge_ok _ d b3 hb3
    -- names: b2 is the parent-rewritten source state the unindex ran on
    set se : indexed_edge_t := heap_get a1.heap s with hse
    set b2 : TSB := { a1 with heap := heap_set a1.heap s ⟨{ se.edge with parent := pcn }, se.time⟩ } with hb2
    have hb2keys : heap_keys b2.heap = heap_keys b.heap ++ [b.next_id] := by
      rw [hb2]
      show heap_keys (heap_set a1.heap s _) = _
      rw [heap_keys_set, ha1]
      show heap_keys (b.heap ++ _) = _
      rw [heap_keys_append]
      rfl
    have hb2next : b2.next_id = b.next_id + 1 := by
      rw [hb2]
      show a1.next_id = b.next_id + 1
      rw [ha1]
    have hb2get : ∀ k, k < b.next_id → k ≠ s →
        heap_get b2.heap k = heap_get b.heap k := by
      intro k hk hks
      rw [hb2]
      show heap_get (heap_set a1.heap s _) k = _
      rw [heap_get_set_ne _ _ _ _ (fun hq => hks hq.symm), ha1]
      show heap_get (b.heap ++ _) k = _
      rw [heap_get_append_ne]
      simp only [heap_keys_cons, heap_keys_nil, List.mem_cons, List.not_mem_nil, or_false]
      omega
    have hb2child : ∀ k, k < b.next_id →
        (heap_get b2.heap k).edge.child = (heap_get b.heap k).edge.child := by
      intro k hk
      by_cases hks : k = s
      · subst hks
        rw [hb2]
        show (heap_get (heap_set a1.heap k ⟨{ se.edge with parent := pcn }, se.time⟩) k).edge.child = _
        rcases heap_get_set_general a1.heap k ⟨{ se.edge with parent := pcn }, se.time⟩
          with hg | hg
        · rw [hg, hse]
          show (heap_get a1.heap k).edge.child = _
          rw [ha1]
          show (heap_get (b.heap ++ _) k).edge.child = _
          rw [heap_get_append_ne]
          simp only [heap_keys_cons, heap_keys_nil, List.mem_cons, List.not_mem_nil, or_false]
          omega
        · rw [hg, ha1]
          show (heap_get (b.heap ++ _) k).edge.child = _
          rw [heap_get_append_ne]
          simp only [heap_keys_cons, heap_keys_nil, List.mem_cons, List.not_mem_nil, or_false]
          omega
      · rw [hb2get k hk hks]
    -- b4 : the state the recursion runs on
    set de : indexed_edge_t := heap_get b3.heap d with hde
    set b4 : TSB := { b3 with heap := heap_set b3.heap d ⟨{ de.edge with parent := pcn, child := NULL_NODE }, de.time⟩ } with hb4
    have hb3heap : b3.heap = b2.heap := by rw [hb3eq]
    have hb2pidx_b : b2.path_index = b.path_index := by
      rw [hb2]
      show a1.path_index = b.path_index
      rw [ha1]
    have hb2left_b : b2.left_index = b.left_index := by
      rw [hb2]
      show a1.left_index = b.left_index
      rw [ha1]
    have hb2right_b : b2.right_index = b.right_index := by
      rw [hb2]
      show a1.right_index = b.right_index
      rw [ha1]
    have hdmem : d ∈ b.path_index := by
      rw [← hb2pidx_b]
      exact hd3
    have hdk : d ∈ heap_keys b.heap := hpk d hdmem
    have hdlt : d < b.next_id := hkl d hdk
    have hdkeys2 : d ∈ heap_keys b2.heap := by
      rw [hb2keys]
      exact List.mem_append_left _ hdk
    have hb4keys : heap_keys b4.heap = heap_keys b.heap ++ [b.next_id] := by
      rw [hb4]
      show heap_keys (heap_set b3.heap d _) = _
      rw [heap_keys_set, hb3heap, hb2keys]
    have hb4next : b4.next_id = b.next_id + 1 := by
      rw [hb4]
      show b3.next_id = b.next_id + 1
      rw [hb3eq]
      show b2.next_id = b.next_id + 1
      exact hb2next
    have hb4get : ∀ k, k < b.next_id → k ≠ s → k ≠ d →
        heap_get b4.heap k = heap_get b.heap k := by
      intro k hk hks hkd
      rw [hb4]
      show heap_get (heap_set b3.heap d _) k = _
      rw [heap_get_set_ne _ _ _ _ (fun hq => hkd hq.symm), hb3heap]
      exact hb2get k hk hks
    have hb4child : ∀ k, k < b.next_id → k ≠ d →
        (heap_get b4.heap k).edge.child = (heap_get b.heap k).edge.child := by
      intro k hk hkd
      rw [hb4]
      show (heap_get (heap_set b3.heap d _) k).edge.child = _
      rw [heap_get_set_ne _ _ _ _ (fun hq => hkd hq.symm), hb3heap]
      exact hb2child k hk
    have hb4dnull : (heap_get b4.heap d).edge.child = NULL_NODE := by
      rw [hb4]
      show (heap_get (heap_set b3.heap d _) d).edge.child = _
      rw [heap_get_set_self _ _ _ (by rw [hb3heap]; exact hdkeys2)]
    have hb4pidx : b4.path_index = b.path_index.erase d := by
      rw [hb4]
      show b3.path_index = _
      rw [hb3eq]
      show b2.path_index.erase d = _
      rw [hb2pidx_b]
    have hb4left : b4.left_index = b.left_index.erase d := by
      rw [hb4]
      show b3.left_index = _
      rw [hb3eq]
      show b2.left_index.erase d = _
      rw [hb2left_b]
    have hb4right : b4.right_index = b.right_index.erase d := by
      rw [hb4]
      show b3.right_index = _
      rw [hb3eq]
      show b2.right_index.erase d = _
      rw [hb2right_b]
    obtain ⟨c1, c2, c3, c4, c5, c6, c7, c8, c9, c10, c11, c12⟩ := ih b4 (acc ++ [eid]) b' out h3
      hrnd
      (by
        intro i hi
        rw [hb4pidx] at hi
        have hine : i ≠ d := (hpnd.mem_erase_iff.mp hi).1
        have himem : i ∈ b.path_index := List.mem_of_mem_erase hi
        rw [show (heap_get b4.heap i).edge.child = (heap_get b.heap i).edge.child from
          hb4child i (hkl i (hpk i himem)) hine]
        exact hmk i himem)
      (by rw [hb4pidx]; exact hpnd.erase d)
      (by
        intro i hi
        rw [hb4pidx] at hi
        rw [hb4keys]
        exact List.mem_append_left _ (hpk i (List.mem_of_mem_erase hi)))
      (by
        intro k hk
        rw [hb4keys] at hk
        rw [hb4next]
        rcases List.mem_append.mp hk with hq | hq
        · have := hkl k hq
          omega
        · simp at hq
          omega)
      (by
        rw [hb4pidx, hb4left]
        rw [Multiset.coe_eq_coe] at hle ⊢
        exact hle.erase d)
      (by
        rw [hb4pidx, hb4right]
        rw [Multiset.coe_eq_coe] at hre ⊢
        exact hre.erase d)
    refine ⟨?_, c2, c3, c4, c5, c6, c7, ?_, ?_, ?_, ?_, ?_⟩
    · rw [List.map_cons, ← Multiset.cons_coe, Multiset.add_cons, ← c1, hb4pidx]
      exact coe_erase_cons b.path_index d hdmem
    · intro k hk hk2 hk3
      simp only [List.map_cons, List.mem_cons, not_or] at hk2 hk3
      rw [c8 k (by rw [hb4next]; omega) hk2.2 hk3.2]
      exact hb4get k hk (fun hq => hk3.1 hq) (fun hq => hk2.1 hq)
    · intro k hk
      apply c9
      rw [hb4keys]
      exact List.mem_append_left _ hk
    · rw [hb4next] at c10
      omega
    · intro k hk hk2
      simp only [List.map_cons, List.mem_cons, not_or] at hk2
      rw [c11 k (by rw [hb4next]; omega) hk2.2]
      exact hb4child k hk (fun hq => hk2.1 hq)
    · intro dd hdd
      simp only [List.map_cons, List.mem_cons] at hdd
      rcases hdd with hq | hq
      · subst hq
        constructor
        · rw [c11 dd (by rw [hb4next]; omega) (by simpa using hdr)]
          exact hb4dnull
        · apply c9
          rw [hb4keys]
          exact List.mem_append_left _ hdk
      · exact c12 dd hq

theorem getD_set_ne (l : List (List ℕ)) (n m : Nat) (v : List ℕ) (h : n ≠ m) :
    (l.set n v).getD m [] = l.getD m [] := by
  rw [List.getD_eq_getElem?_getD, List.getD_eq_getElem?_getD, List.getElem?_set_ne h]

theorem join_append_nil (l : List (List ℕ)) : (l ++ [([] : List ℕ)]).join = l.join := by
  simp

/-- The ids allocated by `pc_loop` are fresh: the output chain extends `acc`
with ids in `[b.next_id, b'.next_id)`. -/
theorem pc_loop_out_facts (pcn : Int) :
    ∀ (mapped : List (Nat × Nat)) (b : TSB) (acc : List Nat) (b' : TSB) (out : List Nat),
      pc_loop b pcn mapped acc = .ok (b', out) →
      acc.Nodup → (∀ i ∈ acc, i < b.next_id) →
      out.Nodup ∧ (∀ i ∈ out, i < b'.next_id) ∧
        (∀ i ∈ out, i ∉ acc → b.next_id ≤ i) := by
  intro mapped
  induction mapped with
  | nil =>
    intro b acc b' out h hand hacc
    simp only [pc_loop, Except.ok.injEq, Prod.mk.injEq] at h
    obtain ⟨hb, hout⟩ := h
    subst hb
    subst hout
    exact ⟨hand, hacc, fun i hi hni => absurd hi hni⟩
  | cons m rest ih =>
    intro b acc b' out h hand hacc
    obtain ⟨s, d⟩ := m
    simp only [pc_loop] at h
    rcases tsi_bind_ok _ _ _ h with ⟨a, ha, h2⟩
    obtain ⟨a1, eid⟩ := a
    obtain ⟨ha1, heid, -, -, -⟩ := alloc_edge_ok_effect b _ _ _ _ a1 eid ha
    rcases tsi_bind_ok _ _ _ h2 with ⟨b3, hb3, h3⟩
    obtain ⟨-, -, -, hb3eq⟩ := unindex_edge_ok _ d b3 hb3
    set b4 : TSB := { b3 with heap := heap_set b3.heap d ⟨{ (heap_get b3.heap d).edge with parent := pcn, child := NULL_NODE }, (heap_get b3.heap d).time⟩ } with hb4
    have hb4next : b4.next_id = b.next_id + 1 := by
      rw [hb4]
      show b3.next_id = b.next_id + 1
      rw [hb3eq]
      show a1.next_id = b.next_id + 1
      rw [ha1]
    obtain ⟨c1, c2, c3⟩ := ih _ (acc ++ [eid]) b' out h3
      (by
        refine List.Nodup.append hand (by simp) ?_
        intro i hi
        simp only [List.mem_singleton]
        intro he
        subst he
        have := hacc i hi
        omega)
      (by
        intro i hi
        rw [hb4next]
        rcases List.mem_append.mp hi with hq | hq
        · have := hacc i hq
          omega
        · simp only [List.mem_singleton] at hq
          omega)
    refine ⟨c1, c2, ?_⟩
    intro i hi hni
    by_cases hie : i = eid
    · omega
    · have := c3 i hi (by
        intro hmem
        rcases List.mem_append.mp hmem with hq | hq
        · exact hni hq
        · simp only [List.mem_singleton] at hq
          exact hie hq)
      rw [hb4next] at this
      omega

/-- The reuse fold of `process_contig` only rewrites parents: heap keys and
every child field are unchanged. -/
theorem reuse_fold_heapfacts (mc : Int) :
    ∀ (ms : List (Nat × Nat)) (b : TSB),
      heap_keys ((ms.foldl (fun bb m =>
        let se := heap_get bb.heap m.1
        { bb with heap := heap_set bb.heap m.1 ⟨{ se.edge with parent := mc }, se.time⟩ }) b).heap) = heap_keys b.heap ∧
      (∀ k, ((heap_get ((ms.foldl (fun bb m =>
        let se := heap_get bb.heap m.1
        { bb with heap := heap_set bb.heap m.1 ⟨{ se.edge with parent := mc }, se.time⟩ }) b).heap) k).edge.child =
        (heap_get b.heap k).edge.child)) := by
  intro ms
  induction ms with
  | nil => intro b; exact ⟨rfl, fun k => rfl⟩
  | cons m rest ih =>
    intro b
    simp only [List.foldl_cons]
    obtain ⟨k1, k2⟩ := ih ({ b with heap := heap_set b.heap m.1 ⟨{ (heap_get b.heap m.1).edge with parent := mc }, (heap_get b.heap m.1).time⟩ })
    refine ⟨by rw [k1]; exact heap_keys_set _ _ _, ?_⟩
    intro k
    rw [k2 k]
    show (heap_get (heap_set b.heap m.1 _) k).edge.child = _
    by_cases hk : k = m.1
    · rcases heap_get_set_general b.heap m.1
          ⟨{ (heap_get b.heap m.1).edge with parent := mc }, (heap_get b.heap m.1).time⟩
        with hg | hg
      · rw [hk, hg]
      · rw [hk, hg]
    · rw [heap_get_set_ne _ _ _ _ (fun hq => hk hq.symm)]

theorem cinv_join_nodup (b : TSB) (child : Int) (h : cinv b child) :
    b.path.join.Nodup := by
  rw [← Multiset.coe_nodup, ← h.balance]
  rw [Multiset.nodup_add]
  refine ⟨Multiset.coe_nodup.mpr h.pidx_nodup, Multiset.coe_nodup.mpr h.pend_nodup,
    Multiset.disjoint_left.mpr ?_⟩
  intro i hi1 hi2
  exact h.pend_fresh i (Multiset.mem_coe.mp hi2) (Multiset.mem_coe.mp hi1)

theorem sublist_join_of_mem {l : List ℕ} {L : List (List ℕ)} (h : l ∈ L) :
    l.Sublist L.join := by
  induction L with
  | nil => simp at h
  | cons a t ih =>
    rcases List.mem_cons.mp h with hq | hq
    · subst hq
      simp only [List.join_cons]
      exact List.sublist_append_left _ _
    · simp only [List.join_cons]
      exact (ih hq).trans (List.sublist_append_right _ _)

theorem pathOf_sublist_join (b : TSB) (c : Int) :
    (pathOf b c).Sublist b.path.join := by
  by_cases h0 : 0 ≤ c
  · by_cases hlt : c.toNat < b.path.length
    · have : pathOf b c = b.path[c.toNat] := by
        simp only [pathOf, if_pos h0]
        exact List.getD_eq_getElem _ _ hlt
      rw [this]
      exact sublist_join_of_mem (List.getElem_mem hlt)
    · have : pathOf b c = [] := by
        simp only [pathOf, if_pos h0]
        exact List.getD_eq_default _ _ (by omega)
      rw [this]
      exact List.nil_sublist _
  · simp only [pathOf, if_neg h0]
    exact List.nil_sublist _

/-- Two different node slots of a duplicate-free path table are disjoint. -/
theorem pathOf_disjoint (b : TSB) (c d : Int) (hj : b.path.join.Nodup)
    (hcd : c ≠ d) (hc : 0 ≤ c) (hd : 0 ≤ d) :
    ∀ i ∈ pathOf b c, i ∉ pathOf b d := by
  intro i hic hid
  by_cases hcl : c.toNat < b.path.length
  · by_cases hdl : d.toNat < b.path.length
    · have hcg : pathOf b c = b.path[c.toNat] := by
        simp only [pathOf, if_pos hc]
        exact List.getD_eq_getElem _ _ hcl
      have hdg : pathOf b d = b.path[d.toNat] := by
        simp only [pathOf, if_pos hd]
        exact List.getD_eq_getElem _ _ hdl
      have hne : c.toNat ≠ d.toNat := fun hq => hcd (by omega)
      obtain ⟨hall, hpw⟩ := List.nodup_join.mp hj
      have hpw2 := List.pairwise_iff_getElem.mp hpw
      rcases Nat.lt_or_ge c.toNat d.toNat with hlt | hge
      · exact hpw2 c.toNat d.toNat hcl hdl hlt (hcg ▸ hic) (hdg ▸ hid)
      · have hlt2 : d.toNat < c.toNat := by omega
        exact hpw2 d.toNat c.toNat hdl hcl hlt2 (hdg ▸ hid) (hcg ▸ hic)
    · have : pathOf b d = [] := by
        simp only [pathOf, if_pos hd]
        exact List.getD_eq_default _ _ (by omega)
      rw [this] at hid
      simp at hid
  · have : pathOf b c = [] := by
      simp only [pathOf, if_pos hc]
      exact List.getD_eq_default _ _ (by omega)
    rw [this] at hic
    simp at hic

/-- `pc_loop` only rewrites the child field of edges it unindexes, which all
come from the path index: entries outside the index keep their child field
and stay in the heap. -/
theorem pc_loop_untouched_child (pcn : Int) :
    ∀ (mapped : List (Nat × Nat)) (b : TSB) (acc : List Nat) (b' : TSB) (out : List Nat),
      pc_loop b pcn mapped acc = .ok (b', out) →
      (∀ k ∈ heap_keys b.heap, k < b.next_id) →
      ∀ k, k ∈ heap_keys b.heap → k ∉ b.path_index →
        (heap_get b'.heap k).edge.child = (heap_get b.heap k).edge.child ∧
        k ∈ heap_keys b'.heap := by
  intro mapped
  induction mapped with
  | nil =>
    intro b acc b' out h _ k hk _
    simp only [pc_loop, Except.ok.injEq, Prod.mk.injEq] at h
    obtain ⟨hb, -⟩ := h
    subst hb
    exact ⟨rfl, hk⟩
  | cons m rest ih =>
    intro b acc b' out h hkl k hk hknp
    obtain ⟨s, d⟩ := m
    simp only [pc_loop] at h
    rcases tsi_bind_ok _ _ _ h with ⟨a, ha, h2⟩
    obtain ⟨a1, eid⟩ := a
    obtain ⟨ha1, heid, -, -, -⟩ := alloc_edge_ok_effect b _ _ _ _ a1 eid ha
    rcases tsi_bind_ok _ _ _ h2 with ⟨b3, hb3, h3⟩
    obtain ⟨-, -, hd3, hb3eq⟩ := unindex_edge_ok _ d b3 hb3
    set se : indexed_edge_t := heap_get a1.heap s with hse
    set b2 : TSB := { a1 with heap := heap_set a1.heap s ⟨{ se.edge with parent := pcn }, se.time⟩ } with hb2
    set de : indexed_edge_t := heap_get b3.heap d with hde
    set b4 : TSB := { b3 with heap := heap_set b3.heap d ⟨{ de.edge with parent := pcn, child := NULL_NODE }, de.time⟩ } with hb4
    have hb2pidx_b : b2.path_index = b.path_index := by
      rw [hb2]
      show a1.path_index = b.path_index
      rw [ha1]
    have hdp : d ∈ b.path_index := by rw [← hb2pidx_b]; exact hd3
    have hklt : k < b.next_id := hkl k hk
    have hb2keys : heap_keys b2.heap = heap_keys b.heap ++ [b.next_id] := by
      rw [hb2]
      show heap_keys (heap_set a1.heap s _) = _
      rw [heap_keys_set, ha1]
      show heap_keys (b.heap ++ _) = _
      rw [heap_keys_append]
      rfl
    have hb4keys : heap_keys b4.heap = heap_keys b.heap ++ [b.next_id] := by
      rw [hb4]
      show heap_keys (heap_set b3.heap d _) = _
      rw [heap_keys_set, hb3eq]
      show heap_keys b2.heap = _
      exact hb2keys
    have hb4next : b4.next_id = b.next_id + 1 := by
      rw [hb4]
      show b3.next_id = _
      rw [hb3eq]
      show a1.next_id = _
      rw [ha1]
    have hb4pidx : b4.path_index = b.path_index.erase d := by
      rw [hb4]
      show b3.path_index = _
      rw [hb3eq]
      show b2.path_index.erase d = _
      rw [hb2pidx_b]
    have hchild4 : (heap_get b4.heap k).edge.child = (heap_get b.heap k).edge.child := by
      rw [hb4]
      show (heap_get (heap_set b3.heap d _) k).edge.child = _
      rw [heap_get_set_ne b3.heap d k _ (fun hq => hknp (hq ▸ hdp)), hb3eq]
      show (heap_get b2.heap k).edge.child = _
      rw [hb2]
      show (heap_get (heap_set a1.heap s _) k).edge.child = _
      by_cases hks : k = s
      · rcases heap_get_set_general a1.heap s ⟨{ se.edge with parent := pcn }, se.time⟩
          with hg | hg
        · rw [hks, hg, hse]
          show (heap_get a1.heap s).edge.child = _
          rw [ha1]
          show (heap_get (b.heap ++ _) s).edge.child = _
          rw [← hks, heap_get_append_ne]
          simp only [heap_keys_cons, heap_keys_nil, List.mem_cons, List.not_mem_nil, or_false]
          omega
        · rw [hks, hg, ha1]
          show (heap_get (b.heap ++ _) s).edge.child = _
          rw [← hks, heap_get_append_ne]
          simp only [heap_keys_cons, heap_keys_nil, List.mem_cons, List.not_mem_nil, or_false]
          omega
      · rw [heap_get_set_ne _ _ _ _ (fun hq => hks hq.symm), ha1]
        show (heap_get (b.heap ++ _) k).edge.child = _
        rw [heap_get_append_ne]
        simp only [heap_keys_cons, heap_keys_nil, List.mem_cons, List.not_mem_nil, or_false]
        omega
    obtain ⟨c1, c2⟩ := ih b4 (acc ++ [eid]) b' out h3
      (by
        intro kk hkk
        rw [hb4keys] at hkk
        rw [hb4next]
        rcases List.mem_append.mp hkk with hq | hq
        · have := hkl kk hq
          omega
        · simp only [List.mem_singleton] at hq
          omega)
      k
      (by
        rw [hb4keys]
        exact List.mem_append_left _ hk)
      (by
        rw [hb4pidx]
        intro hmem
        exact hknp (List.mem_of_mem_erase hmem))
    exact ⟨c1.trans hchild4, c2⟩

/-- The fresh edges allocated by `pc_loop` end up in the heap with child
field `pcn`. -/
theorem pc_loop_chain_facts (pcn : Int) :
    ∀ (mapped : List (Nat × Nat)) (b : TSB) (acc : List Nat) (b' : TSB) (out : List Nat),
      pc_loop b pcn mapped acc = .ok (b', out) →
      (∀ k ∈ heap_keys b.heap, k < b.next_id) →
      (∀ i ∈ b.path_index, i ∈ heap_keys b.heap) →
      ∀ i ∈ out, i ∉ acc →
        i ∈ heap_keys b'.heap ∧ (heap_get b'.heap i).edge.child = pcn := by
  intro mapped
  induction mapped with
  | nil =>
    intro b acc b' out h _ _ i hi hni
    simp only [pc_loop, Except.ok.injEq, Prod.mk.injEq] at h
    obtain ⟨-, hout⟩ := h
    subst hout
    exact absurd hi hni
  | cons m rest ih =>
    intro b acc b' out h hkl hpk i hi hni
    obtain ⟨s, d⟩ := m
    simp only [pc_loop] at h
    rcases tsi_bind_ok _ _ _ h with ⟨a, ha, h2⟩
    obtain ⟨a1, eid⟩ := a
    obtain ⟨ha1, heid, -, -, -⟩ := alloc_edge_ok_effect b _ _ _ _ a1 eid ha
    rcases tsi_bind_ok _ _ _ h2 with ⟨b3, hb3, h3⟩
    obtain ⟨-, -, hd3, hb3eq⟩ := unindex_edge_ok _ d b3 hb3
    set se : indexed_edge_t := heap_get a1.heap s with hse
    set b2 : TSB := { a1 with heap := heap_set a1.heap s ⟨{ se.edge with parent := pcn }, se.time⟩ } with hb2
    set de : indexed_edge_t := heap_get b3.heap d with hde
    set b4 : TSB := { b3 with heap := heap_set b3.heap d ⟨{ de.edge with parent := pcn, child := NULL_NODE }, de.time⟩ } with hb4
    have hb2pidx_b : b2.path_index = b.path_index := by
      rw [hb2]
      show a1.path_index = b.path_index
      rw [ha1]
    have hdp : d ∈ b.path_index := by rw [← hb2pidx_b]; exact hd3
    have hdlt : d < b.next_id := hkl d (hpk d hdp)
    have hb2keys : heap_keys b2.heap = heap_keys b.heap ++ [b.next_id] := by
      rw [hb2]
      show heap_keys (heap_set a1.heap s _) = _
      rw [heap_keys_set, ha1]
      show heap_keys (b.heap ++ _) = _
      rw [heap_keys_append]
      rfl
    have hb4keys : heap_keys b4.heap = heap_keys b.heap ++ [b.next_id] := by
      rw [hb4]
      show heap_keys (heap_set b3.heap d _) = _
      rw [heap_keys_set, hb3eq]
      show heap_keys b2.heap = _
      exact hb2keys
    have hb4next : b4.next_id = b.next_id + 1 := by
      rw [hb4]
      show b3.next_id = _
      rw [hb3eq]
      show a1.next_id = _
      rw [ha1]
    have hb4pidx : b4.path_index = b.path_index.erase d := by
      rw [hb4]
      show b3.path_index = _
      rw [hb3eq]
      show b2.path_index.erase d = _
      rw [hb2pidx_b]
    have hkl4 : ∀ k ∈ heap_keys b4.heap, k < b4.next_id := by
      intro kk hkk
      rw [hb4keys] at hkk
      rw [hb4next]
      rcases List.mem_append.mp hkk with hq | hq
      · have := hkl kk hq
        omega
      · simp only [List.mem_singleton] at hq
        omega
    have hpk4 : ∀ ii ∈ b4.path_index, ii ∈ heap_keys b4.heap := by
      intro ii hii
      rw [hb4pidx] at hii
      rw [hb4keys]
      exact List.mem_append_left _ (hpk ii (List.mem_of_mem_erase hii))
    by_cases hieid : i = eid
    · -- the freshly allocated edge: written with child `pcn`, then untouched
      have heid4 : eid ∈ heap_keys b4.heap := by
        rw [hb4keys, heid]
        exact List.mem_append_right _ (by simp)
      have heidnp : eid ∉ b4.path_index := by
        rw [hb4pidx]
        intro hmem
        have := hkl eid (hpk eid (List.mem_of_mem_erase hmem))
        omega
      have hchild4 : (heap_get b4.heap eid).edge.child = pcn := by
        rw [hb4]
        show (heap_get (heap_set b3.heap d _) eid).edge.child = _
        rw [heap_get_set_ne b3.heap d eid _ (by omega), hb3eq]
        show (heap_get b2.heap eid).edge.child = _
        rw [hb2]
        show (heap_get (heap_set a1.heap s _) eid).edge.child = _
        by_cases hse2 : eid = s
        · rcases heap_get_set_general a1.heap s ⟨{ se.edge with parent := pcn }, se.time⟩
            with hg | hg
          · rw [hse2, hg, hse]
            show (heap_get a1.heap s).edge.child = _
            rw [ha1, ← hse2]
            show (heap_get (b.heap ++ _) eid).edge.child = _
            rw [heap_get_append_right, heid]
            · simp [heap_get]
            · intro hmem
              have := hkl eid hmem
              omega
          · rw [hse2, hg, ha1, ← hse2]
            show (heap_get (b.heap ++ _) eid).edge.child = _
            rw [heap_get_append_right, heid]
            · simp [heap_get]
            · intro hmem
              have := hkl eid hmem
              omega
        · rw [heap_get_set_ne _ _ _ _ (fun hq => hse2 hq.symm), ha1]
          show (heap_get (b.heap ++ _) eid).edge.child = _
          rw [heap_get_append_right, heid]
          · simp [heap_get]
          · intro hmem
            have := hkl eid hmem
            omega
      obtain ⟨u1, u2⟩ := pc_loop_untouched_child pcn rest b4 (acc ++ [eid]) b' out h3
        hkl4 eid heid4 heidnp
      subst hieid
      exact ⟨u2, u1.trans hchild4⟩
    · refine ih b4 (acc ++ [eid]) b' out h3 hkl4 hpk4 i hi ?_
      intro hmem
      rcases List.mem_append.mp hmem with hq | hq
      · exact hni hq
      · simp only [List.mem_singleton] at hq
        exact hieid hq

/-- The tail of `make_pc_node` after the time check: starting from a builder
satisfying the `add_path` invariant, creating the PC node, running the
per-entry loop, squashing the PC path, squashing the mapped child's indexed
path, and indexing the PC path preserves the invariant and leaves the
pending child's path untouched. -/
theorem make_pc_tail_cinv (b : TSB) (child : Int) (m0 : Nat × Nat) (t : List (Nat × Nat))
    (tq : ℚ) (fl : Nat) (b' : TSB)
    (h : ((pc_loop (tree_sequence_builder_add_node b tq fl).1
            (tree_sequence_builder_add_node b tq fl).2 (m0 :: t) []) >>= (fun r =>
          (tree_sequence_builder_squash_edges
              (setPath r.1 (tree_sequence_builder_add_node b tq fl).2 r.2)
              (tree_sequence_builder_add_node b tq fl).2) >>= (fun b4 =>
            (tree_sequence_builder_squash_indexed_edges b4
                ((heap_get b.heap m0.2).edge.child)) >>= (fun b5 =>
              .ok (tree_sequence_builder_index_edges b5
                (tree_sequence_builder_add_node b tq fl).2))))) = .ok b')
    (hc : cinv b child)
    (hmc0 : 0 ≤ (heap_get b.heap m0.2).edge.child)
    (hmclt : ((heap_get b.heap m0.2).edge.child).toNat < b.path.length)
    (hmcne : (heap_get b.heap m0.2).edge.child ≠ child)
    (hdnd : ((m0 :: t).map Prod.snd).Nodup)
    (hdpath : ∀ m ∈ m0 :: t, m.2 ∈ pathOf b ((heap_get b.heap m0.2).edge.child)) :
    cinv b' child ∧ pathOf b' child = pathOf b child := by
  set mc : Int := (heap_get b.heap m0.2).edge.child with hmcdef
  set a1 : TSB := (tree_sequence_builder_add_node b tq fl).1 with ha1def
  set pcn : Int := (tree_sequence_builder_add_node b tq fl).2 with hpcndef
  set D : List ℕ := (m0 :: t).map Prod.snd with hDdef
  set L : List ℕ := pathOf b mc with hLdef
  have hpcnval : pcn = (b.time.length : Int) := rfl
  have ha1path : a1.path = b.path ++ [[]] := rfl
  have ha1time : a1.time = b.time ++ [tq] := rfl
  have hpcn0 : 0 ≤ pcn := by rw [hpcnval]; exact Int.natCast_nonneg _
  have hpcntn : pcn.toNat = b.path.length := by rw [hpcnval]; rw [hc.len_eq]; omega
  have hchne_pcn : child ≠ pcn := by
    have h1 := hc.child_nonneg
    have h2 := hc.child_lt
    have h3 := hc.len_eq
    rw [hpcnval]
    omega
  have hmcne_pcn : mc ≠ pcn := by
    have h3 := hc.len_eq
    rw [hpcnval]
    omega
  have hch0 : 0 ≤ child := hc.child_nonneg
  have hjnd : b.path.join.Nodup := cinv_join_nodup b child hc
  have hLsub : L.Sublist b.path.join := pathOf_sublist_join b mc
  have hLnd : L.Nodup := hjnd.sublist hLsub
  have hLpidx : ∀ i ∈ L, i ∈ b.path_index := by
    intro i hi
    have hj : (i : ℕ) ∈ (b.path.join : Multiset ℕ) := Multiset.mem_coe.mpr (hLsub.subset hi)
    rw [← hc.balance] at hj
    rcases Multiset.mem_add.mp hj with hq | hq
    · exact Multiset.mem_coe.mp hq
    · exact absurd (Multiset.mem_coe.mp hq)
        (pathOf_disjoint b mc child hjnd hmcne hmc0 hc.child_nonneg i hi)
  have hLlt : ∀ i ∈ L, i < b.next_id :=
    fun i hi => hc.keys_lt i (hc.pidx_keys i (hLpidx i hi))
  have hLkeys : ∀ i ∈ L, i ∈ heap_keys b.heap :=
    fun i hi => hc.pidx_keys i (hLpidx i hi)
  have hpend_disj : ∀ i ∈ pathOf b child, i ∉ L :=
    pathOf_disjoint b child mc hjnd (fun hq => hmcne hq.symm) hc.child_nonneg hmc0
  have hDL : ∀ i ∈ D, i ∈ L := by
    intro i hi
    rw [hDdef] at hi
    simp only [List.mem_map] at hi
    obtain ⟨m, hm, hmi⟩ := hi
    rw [← hmi]
    exact hdpath m hm
  rcases tsi_bind_ok _ _ _ h with ⟨r, hr, h2⟩
  obtain ⟨r1, cp⟩ := r
  rcases tsi_bind_ok _ _ _ h2 with ⟨b4, hb4, h3⟩
  rcases tsi_bind_ok _ _ _ h3 with ⟨b5, hb5, h4⟩
  simp only [Except.ok.injEq] at h4
  subst h4
  have hF := pc_loop_ok_frame pcn (m0 :: t) a1 [] r1 cp hr
  have hr1path : r1.path = b.path ++ [[]] := by rw [hF.2.2, ha1path]
  have hr1time : r1.time = b.time ++ [tq] := by rw [hF.1, ha1time]
  obtain ⟨P1, P2, P3, P4, P5, P6, P7, P8, P9, P10, P11, P12⟩ :=
    pc_loop_acc pcn (m0 :: t) a1 [] r1 cp hr hdnd
      hc.pidx_marked hc.pidx_nodup hc.pidx_keys hc.keys_lt hc.left_eq hc.right_eq
  have P1' : (b.path_index : Multiset ℕ) = (r1.path_index : Multiset ℕ) + ↑D := P1
  have P9' : ∀ k, k ∈ heap_keys b.heap → k ∈ heap_keys r1.heap := P9
  have P10' : b.next_id ≤ r1.next_id := P10
  have P11' : ∀ k, k < b.next_id → k ∉ D →
      (heap_get r1.heap k).edge.child = (heap_get b.heap k).edge.child := P11
  have P12' : ∀ d ∈ D, (heap_get r1.heap d).edge.child = NULL_NODE ∧
      d ∈ heap_keys r1.heap := P12
  obtain ⟨O1, O2, O3⟩ := pc_loop_out_facts pcn (m0 :: t) a1 [] r1 cp hr
    List.nodup_nil (by intro i hi; simp at hi)
  have O3' : ∀ i ∈ cp, b.next_id ≤ i := fun i hi => O3 i hi (by simp)
  have CF := pc_loop_chain_facts pcn (m0 :: t) a1 [] r1 cp hr hc.keys_lt hc.pidx_keys
  have CF' : ∀ i ∈ cp, i ∈ heap_keys r1.heap ∧ (heap_get r1.heap i).edge.child = pcn :=
    fun i hi => CF i hi (by simp)
  have hcpne : cp ≠ [] := pc_loop_out_ne_nil pcn m0 t a1 [] r1 cp hr
  cases cp with
  | nil => exact absurd rfl hcpne
  | cons p0 pt =>
  set b3 : TSB := setPath r1 pcn (p0 :: pt) with hb3def
  have hb3heap : b3.heap = r1.heap := setPath_heap r1 pcn (p0 :: pt)
  have hb3pidx : b3.path_index = r1.path_index := setPath_path_index r1 pcn (p0 :: pt)
  have hb3left : b3.left_index = r1.left_index := setPath_left_index r1 pcn (p0 :: pt)
  have hb3right : b3.right_index = r1.right_index := setPath_right_index r1 pcn (p0 :: pt)
  have hb3time : b3.time = r1.time := setPath_time r1 pcn (p0 :: pt)
  have hpcnlt_r1 : pcn.toNat < r1.path.length := by
    rw [hr1path, List.length_append]
    simp only [List.length_cons, List.length_nil]
    omega
  have hb3pOf : pathOf b3 pcn = p0 :: pt :=
    pathOf_setPath_self r1 pcn (p0 :: pt) hpcn0 hpcnlt_r1
  have hb3pOf_ne : ∀ c, c ≠ pcn → pathOf b3 c = pathOf r1 c :=
    fun c hcne => pathOf_setPath_ne r1 pcn c (p0 :: pt) (fun hq => hcne hq.symm)
  have hb3path : b3.path = r1.path.set pcn.toNat (p0 :: pt) := by
    rw [hb3def]
    simp only [setPath, if_pos hpcn0]
  have hpa1 : ∀ c : Int, pathOf a1 c = pathOf b c := fun c => pathOf_add_node b tq fl c
  have hpr1 : ∀ c : Int, pathOf r1 c = pathOf b c := fun c => by
    rw [pathOf_congr hF.2.2 c, hpa1 c]
  simp only [tree_sequence_builder_squash_edges, hb3pOf, Except.ok.injEq] at hb4
  set sqh : EdgeHeap := (squash_chain b3.heap p0 pt).1 with hsqhdef
  set outpc : List ℕ := (squash_chain b3.heap p0 pt).2 with houtpcdef
  have hb4heap : b4.heap = sqh := by rw [← hb4, setPath_heap]
  have hb4pidx : b4.path_index = r1.path_index := by
    rw [← hb4, setPath_path_index]
    exact hb3pidx
  have hb4left : b4.left_index = r1.left_index := by
    rw [← hb4, setPath_left_index]
    exact hb3left
  have hb4right : b4.right_index = r1.right_index := by
    rw [← hb4, setPath_right_index]
    exact hb3right
  have hb4next : b4.next_id = r1.next_id := by
    rw [← hb4, setPath_next_id]
    exact setPath_next_id r1 pcn (p0 :: pt)
  have hb4time : b4.time = r1.time := by
    rw [← hb4, setPath_time]
    exact hb3time
  have hb4path : b4.path = b3.path.set pcn.toNat outpc := by
    rw [← hb4]
    simp only [setPath, if_pos hpcn0]
  have hpcnlt_b3 : pcn.toNat < b3.path.length := by
    rw [hb3path, List.length_set]
    exact hpcnlt_r1
  have hb4pOf : pathOf b4 pcn = outpc := by
    rw [← hb4]
    exact pathOf_setPath_self _ pcn outpc hpcn0 hpcnlt_b3
  have hb4pOf_ne : ∀ c, c ≠ pcn → pathOf b4 c = pathOf b3 c := by
    intro c hcne
    rw [← hb4, pathOf_setPath_ne _ pcn c outpc (fun hq => hcne hq.symm)]
    rfl
  have hcpkeys : ∀ i ∈ p0 :: pt, i ∈ heap_keys b3.heap := by
    intro i hi
    rw [hb3heap]
    exact (CF' i hi).1
  have hcpchild : ∀ i ∈ p0 :: pt, (heap_get b3.heap i).edge.child = pcn := by
    intro i hi
    rw [hb3heap]
    exact (CF' i hi).2
  have hcpnd : (p0 :: pt).Nodup := O1
  have houtsub : outpc.Sublist (p0 :: pt) := squash_chain_out_sublist pt b3.heap p0
  have houtnd : outpc.Nodup := hcpnd.sublist houtsub
  have hout_lo : ∀ i ∈ outpc, b.next_id ≤ i := fun i hi => O3' i (houtsub.subset hi)
  have hout_child4 : ∀ k ∈ outpc, (heap_get b4.heap k).edge.child = pcn := by
    intro k hk
    rw [hb4heap, hsqhdef, squash_chain_out_child pt b3.heap p0 hcpnd k hk]
    exact hcpchild k (houtsub.subset hk)
  have hout_keys4 : ∀ k ∈ outpc, k ∈ heap_keys b4.heap := by
    intro k hk
    rw [hb4heap, hsqhdef]
    exact squash_chain_out_keys pt b3.heap p0 hcpnd hcpkeys k hk
  have hb4get_other : ∀ k, k ∉ (p0 :: pt : List ℕ) →
      heap_get b4.heap k = heap_get b3.heap k := by
    intro k hk
    simp only [List.mem_cons, not_or] at hk
    rw [hb4heap, hsqhdef]
    exact squash_chain_heap_other pt b3.heap p0 k hk.1 hk.2
  have hb4keys_other : ∀ k, k ∉ (p0 :: pt : List ℕ) →
      (k ∈ heap_keys b4.heap ↔ k ∈ heap_keys b3.heap) := by
    intro k hk
    simp only [List.mem_cons, not_or] at hk
    rw [hb4heap, hsqhdef]
    exact squash_chain_keys_other pt b3.heap p0 k hk.1 hk.2
  have hb4keys_sub : ∀ k, k ∈ heap_keys b4.heap → k ∈ heap_keys b3.heap := by
    intro k hk
    rw [hb4heap, hsqhdef] at hk
    exact squash_chain_keys_subset pt b3.heap p0 k hk
  have hL4 : pathOf b4 mc = L := by
    rw [hb4pOf_ne mc hmcne_pcn, hb3pOf_ne mc hmcne_pcn, hpr1 mc]
  have hLnotin_cp : ∀ i ∈ L, i ∉ (p0 :: pt : List ℕ) := by
    intro i hi hmem
    have h1 := hLlt i hi
    have h2 := O3' i hmem
    omega
  have hLkeys4 : ∀ i ∈ L, i ∈ heap_keys b4.heap := by
    intro i hi
    rw [hb4keys_other i (hLnotin_cp i hi), hb3heap]
    exact P9' i (hLkeys i hi)
  have hLget4 : ∀ i ∈ L, heap_get b4.heap i = heap_get r1.heap i := by
    intro i hi
    rw [hb4get_other i (hLnotin_cp i hi), hb3heap]
  have hpidx4_btw : ∀ i ∈ r1.path_index, i ∈ b.path_index := by
    intro i hi
    have h1 : (i : ℕ) ∈ (b.path_index : Multiset ℕ) := by
      rw [P1']
      exact Multiset.mem_add.mpr (Or.inl (Multiset.mem_coe.mpr hi))
    exact Multiset.mem_coe.mp h1
  have hpidx4_lt : ∀ i ∈ r1.path_index, i < b.next_id :=
    fun i hi => hc.keys_lt i (hc.pidx_keys i (hpidx4_btw i hi))
  have hpidx4_notcp : ∀ i ∈ r1.path_index, i ∉ (p0 :: pt : List ℕ) := by
    intro i hi hmem
    have h1 := hpidx4_lt i hi
    have h2 := O3' i hmem
    omega
  obtain ⟨omc, s1, s2, s3, s4, s5, s6, s7, s8, s9, s10, s11, s12, s13⟩ :=
    sie_acc b4 mc b5 hb5 hmc0
      (by rw [hL4]; exact hLnd)
      (by rw [hL4]; exact hLkeys4)
      (by
        intro i hi
        rw [hb4pidx] at hi
        rw [hb4get_other i (hpidx4_notcp i hi), hb3heap]
        exact P5 i hi)
      (by rw [hb4pidx]; exact P4)
      (by
        intro i hi
        rw [hb4pidx] at hi
        rw [hb4keys_other i (hpidx4_notcp i hi), hb3heap]
        exact P6 i hi)
      (by rw [hb4left, hb4pidx]; exact P2)
      (by rw [hb4right, hb4pidx]; exact P3)
  rw [hL4] at s3 s4 s10 s11
  have hFD : ∀ i ∈ L, ((heap_get b4.heap i).edge.child ≠ NULL_NODE ↔ i ∉ D) := by
    intro i hi
    constructor
    · intro hne hiD
      obtain ⟨c1, -⟩ := P12' i hiD
      rw [hLget4 i hi] at hne
      exact hne c1
    · intro hiD
      rw [hLget4 i hi, P11' i (hLlt i hi) hiD]
      exact hc.pidx_marked i (hLpidx i hi)
  have hfeq : L.filter (fun i => decide ((heap_get b4.heap i).edge.child ≠ NULL_NODE)) =
      L.filter (fun i => decide (i ∉ D)) := by
    apply List.filter_congr
    intro i hi
    rw [decide_eq_decide]
    exact hFD i hi
  have hDperm : ((L.filter (fun i => decide (i ∈ D))) : Multiset ℕ) = (D : Multiset ℕ) := by
    refine le_antisymm (Multiset.coe_le.mpr ?_) (Multiset.coe_le.mpr ?_)
    · refine (hLnd.filter _).subperm ?_
      intro i hi
      exact of_decide_eq_true (List.mem_filter.mp hi).2
    · refine hdnd.subperm ?_
      intro i hi
      exact List.mem_filter.mpr ⟨hDL i hi, decide_eq_true hi⟩
  have hsplit : (↑(L.filter (fun i => decide (i ∉ D))) : Multiset ℕ) +
      ↑(L.filter (fun i => decide (i ∈ D))) = (L : Multiset ℕ) := by
    have hfn : (fun i => decide ((i : ℕ) ∈ D)) = (fun i => !decide (i ∉ D)) := by
      funext i
      simp [decide_not]
    rw [hfn, Multiset.coe_add, Multiset.coe_eq_coe]
    exact List.filter_append_perm _ L
  have hfid : (↑(L.filter (fun i => decide ((heap_get b4.heap i).edge.child ≠ NULL_NODE))) :
      Multiset ℕ) + ↑D = (L : Multiset ℕ) := by
    rw [hfeq, ← hDperm, hsplit]
  have hjr1 : (r1.path.join : Multiset ℕ) = (b.path.join : Multiset ℕ) := by
    rw [hr1path, join_append_nil]
  have hgetr1_pcn : r1.path.getD pcn.toNat [] = [] := by
    have h1 : pathOf r1 pcn = [] := by
      rw [hpr1 pcn]
      simp only [pathOf, if_pos hpcn0]
      exact List.getD_eq_default _ _ (by omega)
    simpa only [pathOf, if_pos hpcn0] using h1
  have E1 : (b3.path.join : Multiset ℕ) =
      (b.path.join : Multiset ℕ) + ↑(p0 :: pt : List ℕ) := by
    have h1 := join_set_multiset r1.path pcn.toNat (p0 :: pt) hpcnlt_r1
    rw [hgetr1_pcn, ← hb3path, hjr1] at h1
    simpa using h1
  have hgetb3_pcn : b3.path.getD pcn.toNat [] = p0 :: pt := by
    simpa only [pathOf, if_pos hpcn0] using hb3pOf
  have E2 : (b4.path.join : Multiset ℕ) = (b.path.join : Multiset ℕ) + ↑outpc := by
    have h1 := join_set_multiset b3.path pcn.toNat outpc hpcnlt_b3
    rw [hgetb3_pcn, ← hb4path, E1] at h1
    have h2 : (b4.path.join : Multiset ℕ) + ↑(p0 :: pt : List ℕ) =
        ((b.path.join : Multiset ℕ) + ↑outpc) + ↑(p0 :: pt : List ℕ) := by
      rw [h1]
      exact add_right_comm _ _ _
    exact add_right_cancel h2
  have hgetb4_mc : b4.path.getD mc.toNat [] = L := by
    simpa only [pathOf, if_pos hmc0] using hL4
  have hmclt_b4 : mc.toNat < b4.path.length := by
    rw [hb4path, List.length_set, hb3path, List.length_set, hr1path, List.length_append]
    simp only [List.length_cons, List.length_nil]
    omega
  have E3 : (b5.path.join : Multiset ℕ) + (L : Multiset ℕ) =
      ((b.path.join : Multiset ℕ) + ↑outpc) + ↑omc := by
    have h1 := join_set_multiset b4.path mc.toNat omc hmclt_b4
    rw [hgetb4_mc, ← s1, E2] at h1
    exact h1
  have hpidx5_L : (b5.path_index : Multiset ℕ) + (L : Multiset ℕ) =
      (b.path_index : Multiset ℕ) + ↑omc := by
    have h1 : (b5.path_index : Multiset ℕ) +
        (↑(L.filter (fun i => decide ((heap_get b4.heap i).edge.child ≠ NULL_NODE))) + ↑D) =
        ((b4.path_index : Multiset ℕ) + ↑omc) + ↑D := by
      rw [← add_assoc, s4]
    rw [hfid, hb4pidx] at h1
    rw [h1, P1', add_right_comm]
  have hnext5 : b5.next_id = r1.next_id := by rw [s12, hb4next]
  have hpidx5_split : ∀ i ∈ b5.path_index, i ∈ b.path_index ∨ i ∈ omc := by
    intro i hi
    have h1 : (i : ℕ) ∈ (b.path_index : Multiset ℕ) + ↑omc := by
      rw [← hpidx5_L]
      exact Multiset.mem_add.mpr (Or.inl (Multiset.mem_coe.mpr hi))
    rcases Multiset.mem_add.mp h1 with hq | hq
    · exact Or.inl (Multiset.mem_coe.mp hq)
    · exact Or.inr (Multiset.mem_coe.mp hq)
  have hpidx5_lt : ∀ i ∈ b5.path_index, i < b.next_id := by
    intro i hi
    rcases hpidx5_split i hi with hq | hq
    · exact hc.keys_lt i (hc.pidx_keys i hq)
    · exact hLlt i (s3.subset hq)
  have hkeys5_lt : ∀ k ∈ heap_keys b5.heap, k < b5.next_id := by
    intro k hk
    rw [hnext5]
    by_cases hkL : k ∈ L
    · have h1 := hLlt k hkL
      omega
    · have hk4 : k ∈ heap_keys b4.heap := (s11 k hkL).mp hk
      have hk3 : k ∈ heap_keys b3.heap := hb4keys_sub k hk4
      rw [hb3heap] at hk3
      exact P7 k hk3
  have hout_notL : ∀ k ∈ outpc, k ∉ L := by
    intro k hk hq
    have h1 := hout_lo k hk
    have h2 := hLlt k hq
    omega
  have hout_child5 : ∀ k ∈ outpc, (heap_get b5.heap k).edge.child = pcn := by
    intro k hk
    rw [s10 k (hout_notL k hk)]
    exact hout_child4 k hk
  have hout_keys5 : ∀ k ∈ outpc, k ∈ heap_keys b5.heap := by
    intro k hk
    rw [s11 k (hout_notL k hk)]
    exact hout_keys4 k hk
  have hpend_lt : ∀ i ∈ pathOf b child, i < b.next_id :=
    fun i hi => hc.keys_lt i (hc.pend_keys i hi)
  have hpend_notcp : ∀ i ∈ pathOf b child, i ∉ (p0 :: pt : List ℕ) := by
    intro i hi hmem
    have h1 := hpend_lt i hi
    have h2 := O3' i hmem
    omega
  have hpend_notD : ∀ i ∈ pathOf b child, i ∉ D :=
    fun i hi hiD => hpend_disj i hi (hDL i hiD)
  have hpend_child5 : ∀ i ∈ pathOf b child, (heap_get b5.heap i).edge.child = child := by
    intro i hi
    rw [s10 i (hpend_disj i hi), hb4get_other i (hpend_notcp i hi), hb3heap,
      P11' i (hpend_lt i hi) (hpend_notD i hi)]
    exact hc.pend_child i hi
  have hpend_keys5 : ∀ i ∈ pathOf b child, i ∈ heap_keys b5.heap := by
    intro i hi
    rw [s11 i (hpend_disj i hi), hb4keys_other i (hpend_notcp i hi), hb3heap]
    exact P9' i (hc.pend_keys i hi)
  have hlen5 : b5.path.length = b.path.length + 1 := by
    rw [s1, List.length_set, hb4path, List.length_set, hb3path, List.length_set,
      hr1path, List.length_append]
    rfl
  have htime5 : b5.time.length = b.time.length + 1 := by
    rw [s13, hb4time, hr1time, List.length_append]
    rfl
  have hpend5 : pathOf b5 child = pathOf b child := by
    have h5 : pathOf b5 child = pathOf b4 child := by
      simp only [pathOf, if_pos hc.child_nonneg]
      rw [s1, getD_set_ne _ _ _ _ (by omega : mc.toNat ≠ child.toNat)]
    rw [h5, hb4pOf_ne child hchne_pcn, hb3pOf_ne child hchne_pcn, hpr1]
  have hpOf5pcn : pathOf b5 pcn = outpc := by
    have h5 : pathOf b5 pcn = pathOf b4 pcn := by
      simp only [pathOf, if_pos hpcn0]
      rw [s1, getD_set_ne _ _ _ _ (by omega : mc.toNat ≠ pcn.toNat)]
    rw [h5, hb4pOf]
  have hrev : ((outpc.reverse : List ℕ) : Multiset ℕ) = (outpc : Multiset ℕ) :=
    Multiset.coe_reverse _
  have hIE := index_edges_eq b5 pcn
  rw [hIE, hpOf5pcn]
  refine ⟨⟨?_, ?_, ?_, ?_, ?_, ?_, ?_, ?_, ?_, ?_, ?_, ?_, ?_, ?_⟩, ?_⟩
  · show ((outpc.reverse ++ b5.left_index : List ℕ) : Multiset ℕ) =
      ((outpc.reverse ++ b5.path_index : List ℕ) : Multiset ℕ)
    rw [← Multiset.coe_add, ← Multiset.coe_add, s5]
  · show ((outpc.reverse ++ b5.right_index : List ℕ) : Multiset ℕ) =
      ((outpc.reverse ++ b5.path_index : List ℕ) : Multiset ℕ)
    rw [← Multiset.coe_add, ← Multiset.coe_add, s6]
  · show ((outpc.reverse ++ b5.path_index : List ℕ) : Multiset ℕ) +
      ↑(pathOf b5 child) = (b5.path.join : Multiset ℕ)
    rw [hpend5, ← Multiset.coe_add, hrev]
    apply add_right_cancel (b := (L : Multiset ℕ))
    calc ((outpc : Multiset ℕ) + ↑b5.path_index + ↑(pathOf b child)) + ↑L
        = (outpc : Multiset ℕ) + ((b5.path_index : Multiset ℕ) + ↑L) + ↑(pathOf b child) := by
          abel
      _ = (outpc : Multiset ℕ) + ((b.path_index : Multiset ℕ) + ↑omc) + ↑(pathOf b child) := by
          rw [hpidx5_L]
      _ = (outpc : Multiset ℕ) + ↑omc + ((b.path_index : Multiset ℕ) + ↑(pathOf b child)) := by
          abel
      _ = (outpc : Multiset ℕ) + ↑omc + (b.path.join : Multiset ℕ) := by
          rw [hc.balance]
      _ = (b5.path.join : Multiset ℕ) + ↑L := by
          rw [E3]
          abel
  · show (outpc.reverse ++ b5.path_index).Nodup
    refine List.Nodup.append (List.nodup_reverse.mpr houtnd) s7 ?_
    intro i hi1 hi2
    have h1 := hout_lo i (List.mem_reverse.mp hi1)
    have h2 := hpidx5_lt i hi2
    omega
  · intro i hi
    rcases List.mem_append.mp hi with hq | hq
    · exact hout_keys5 i (List.mem_reverse.mp hq)
    · exact s9 i hq
  · intro k hk
    exact hkeys5_lt k hk
  · show b5.path.length = b5.time.length
    rw [hlen5, htime5, hc.len_eq]
  · intro i hi
    rcases List.mem_append.mp hi with hq | hq
    · show (heap_get b5.heap i).edge.child ≠ NULL_NODE
      rw [hout_child5 i (List.mem_reverse.mp hq), hpcnval]
      simp only [NULL_NODE]
      omega
    · exact s8 i hq
  · show ∀ i ∈ pathOf b5 child, i ∈ heap_keys b5.heap
    rw [hpend5]
    exact hpend_keys5
  · show ∀ i ∈ pathOf b5 child, (heap_get b5.heap i).edge.child = child
    rw [hpend5]
    exact hpend_child5
  · show (pathOf b5 child).Nodup
    rw [hpend5]
    exact hc.pend_nodup
  · show ∀ i ∈ pathOf b5 child, i ∉ outpc.reverse ++ b5.path_index
    rw [hpend5]
    intro i hi hmem
    rcases List.mem_append.mp hmem with hq | hq
    · have h1 := hout_lo i (List.mem_reverse.mp hq)
      have h2 := hpend_lt i hi
      omega
    · rcases hpidx5_split i hq with hq2 | hq2
      · exact hc.pend_fresh i hi hq2
      · exact hpend_disj i hi (s3.subset hq2)
  · exact hc.child_nonneg
  · show child.toNat < b5.path.length
    rw [hlen5]
    have h1 := hc.child_lt
    omega
  · show pathOf b5 child = pathOf b child
    exact hpend5

/-- One step of `compress_path`'s contig fold preserves the `add_path`
invariant and the pending child's path, given the scan-side conditions. -/
theorem process_contig_cinv (b : TSB) (child : Int) (contig : List (Nat × Nat)) (b' : TSB)
    (h : process_contig b contig = .ok b')
    (hc : cinv b child)
    (hsc : sc_cond b child contig) :
    cinv b' child ∧ pathOf b' child = pathOf b child := by
  simp only [process_contig] at h
  split at h
  · rename_i hlen
    split at h
    · simp only [Except.ok.injEq] at h
      subst h
      exact ⟨hc, rfl⟩
    · rename_i m0 t
      split at h
      · -- reuse of an existing PC ancestor: only parent fields change
        simp only [Except.ok.injEq] at h
        subst h
        obtain ⟨e1, e2, e3, e4, e5, e6, e7, -⟩ :=
          reuse_fold_effect ((heap_get b.heap m0.2).edge.child) (m0 :: t) b
        obtain ⟨k1, k2⟩ :=
          reuse_fold_heapfacts ((heap_get b.heap m0.2).edge.child) (m0 :: t) b
        have hpc : pathOf ((m0 :: t).foldl (fun bb m =>
            let se := heap_get bb.heap m.1
            { bb with heap := heap_set bb.heap m.1 ⟨{ se.edge with parent := (heap_get b.heap m0.2).edge.child }, se.time⟩ }) b)
            child = pathOf b child := pathOf_congr e3 child
        refine ⟨⟨?_, ?_, ?_, ?_, ?_, ?_, ?_, ?_, ?_, ?_, ?_, ?_, hc.child_nonneg, ?_⟩, hpc⟩
        · rw [e5, e7]
          exact hc.left_eq
        · rw [e6, e7]
          exact hc.right_eq
        · rw [e7, hpc, e3]
          exact hc.balance
        · rw [e7]
          exact hc.pidx_nodup
        · intro i hi
          rw [e7] at hi
          rw [k1]
          exact hc.pidx_keys i hi
        · intro k hk
          rw [k1] at hk
          rw [e4]
          exact hc.keys_lt k hk
        · rw [e3, e1]
          exact hc.len_eq
        · intro i hi
          rw [e7] at hi
          rw [k2 i]
          exact hc.pidx_marked i hi
        · intro i hi
          rw [hpc] at hi
          rw [k1]
          exact hc.pend_keys i hi
        · intro i hi
          rw [hpc] at hi
          rw [k2 i]
          exact hc.pend_child i hi
        · rw [hpc]
          exact hc.pend_nodup
        · intro i hi
          rw [hpc] at hi
          rw [e7]
          exact hc.pend_fresh i hi
        · rw [e3]
          exact hc.child_lt
      · -- a new PC node is synthesized
        rename_i hfl
        have hfl0 : flagsOf b ((heap_get b.heap m0.2).edge.child) &&&
            TSI_NODE_IS_PC_ANCESTOR = 0 := not_not.mp hfl
        simp only [sc_cond] at hsc
        obtain ⟨hmc0, hmclt, hmcne, hdnd, -, hdpath⟩ := hsc hlen hfl0
        simp only [tree_sequence_builder_make_pc_node] at h
        split at h
        · simp at h
        · exact make_pc_tail_cinv b child m0 t _ TSI_NODE_IS_PC_ANCESTOR b' h hc
            hmc0 hmclt hmcne hdnd hdpath
  · simp only [Except.ok.injEq] at h
    subst h
    exact ⟨hc, rfl⟩

/-- The final (non-indexed) squash of the pending child's path preserves the
`add_path` invariant: the surviving edges keep their child marking and the
freed ones leave the path table together with the heap. -/
theorem cinv_squash_edges (b : TSB) (child : Int) (b' : TSB)
    (h : tree_sequence_builder_squash_edges b child = .ok b')
    (hc : cinv b child) :
    cinv b' child := by
  rcases hp : pathOf b child with _ | ⟨p0, pt⟩
  · simp [tree_sequence_builder_squash_edges, hp] at h
  · simp only [tree_sequence_builder_squash_edges, hp, Except.ok.injEq] at h
    set sqh : EdgeHeap := (squash_chain b.heap p0 pt).1 with hsqhdef
    set outc : List ℕ := (squash_chain b.heap p0 pt).2 with houtcdef
    have hch0 : 0 ≤ child := hc.child_nonneg
    have hchlt : child.toNat < b.path.length := hc.child_lt
    have hcpnd : (p0 :: pt).Nodup := by rw [← hp]; exact hc.pend_nodup
    have hcpkeys : ∀ i ∈ p0 :: pt, i ∈ heap_keys b.heap := by
      rw [← hp]; exact hc.pend_keys
    have hcpchild : ∀ i ∈ p0 :: pt, (heap_get b.heap i).edge.child = child := by
      rw [← hp]; exact hc.pend_child
    have hcpfresh : ∀ i ∈ p0 :: pt, i ∉ b.path_index := by
      rw [← hp]; exact hc.pend_fresh
    have hpidx_notcp : ∀ i ∈ b.path_index, i ∉ (p0 :: pt : List ℕ) :=
      fun i hi hmem => hcpfresh i hmem hi
    have houtsub : outc.Sublist (p0 :: pt) := squash_chain_out_sublist pt b.heap p0
    have hbheap : b'.heap = sqh := by rw [← h, setPath_heap]
    have hbpidx : b'.path_index = b.path_index := by rw [← h, setPath_path_index]
    have hbleft : b'.left_index = b.left_index := by rw [← h, setPath_left_index]
    have hbright : b'.right_index = b.right_index := by rw [← h, setPath_right_index]
    have hbnext : b'.next_id = b.next_id := by rw [← h, setPath_next_id]
    have hbtime : b'.time = b.time := by rw [← h, setPath_time]
    have hbpath : b'.path = b.path.set child.toNat outc := by
      rw [← h]
      simp only [setPath, if_pos hch0]
    have hbpOf : pathOf b' child = outc := by
      rw [← h]
      exact pathOf_setPath_self _ child outc hch0 hchlt
    have hget_other : ∀ k, k ∉ (p0 :: pt : List ℕ) →
        heap_get b'.heap k = heap_get b.heap k := by
      intro k hk
      simp only [List.mem_cons, not_or] at hk
      rw [hbheap, hsqhdef]
      exact squash_chain_heap_other pt b.heap p0 k hk.1 hk.2
    have hkeys_other : ∀ k, k ∉ (p0 :: pt : List ℕ) →
        (k ∈ heap_keys b'.heap ↔ k ∈ heap_keys b.heap) := by
      intro k hk
      simp only [List.mem_cons, not_or] at hk
      rw [hbheap, hsqhdef]
      exact squash_chain_keys_other pt b.heap p0 k hk.1 hk.2
    have hkeys_sub : ∀ k, k ∈ heap_keys b'.heap → k ∈ heap_keys b.heap := by
      intro k hk
      rw [hbheap, hsqhdef] at hk
      exact squash_chain_keys_subset pt b.heap p0 k hk
    have hgetD : b.path.getD child.toNat [] = p0 :: pt := by
      simpa only [pathOf, if_pos hch0] using hp
    refine ⟨?_, ?_, ?_, ?_, ?_, ?_, ?_, ?_, ?_, ?_, ?_, ?_, hch0, ?_⟩
    · rw [hbleft, hbpidx]
      exact hc.left_eq
    · rw [hbright, hbpidx]
      exact hc.right_eq
    · rw [hbpidx, hbpOf]
      have h1 := join_set_multiset b.path child.toNat outc hchlt
      rw [hgetD, ← hbpath] at h1
      refine add_right_cancel (b := ((p0 :: pt : List ℕ) : Multiset ℕ)) ?_
      have h2 : (b.path_index : Multiset ℕ) + ↑outc + ↑(p0 :: pt : List ℕ) =
          ((b.path_index : Multiset ℕ) + ↑(p0 :: pt : List ℕ)) + ↑outc :=
        add_right_comm _ _ _
      rw [h2]
      have h3 : (b.path_index : Multiset ℕ) + ↑(p0 :: pt : List ℕ) =
          (b.path.join : Multiset ℕ) := by
        rw [← hc.balance, hp]
      rw [h3, ← h1]
    · rw [hbpidx]
      exact hc.pidx_nodup
    · intro i hi
      rw [hbpidx] at hi
      rw [hkeys_other i (hpidx_notcp i hi)]
      exact hc.pidx_keys i hi
    · intro k hk
      rw [hbnext]
      exact hc.keys_lt k (hkeys_sub k hk)
    · rw [hbpath, List.length_set, hbtime]
      exact hc.len_eq
    · intro i hi
      rw [hbpidx] at hi
      rw [hget_other i (hpidx_notcp i hi)]
      exact hc.pidx_marked i hi
    · intro i hi
      rw [hbpOf] at hi
      rw [hbheap, hsqhdef]
      exact squash_chain_out_keys pt b.heap p0 hcpnd hcpkeys i hi
    · intro i hi
      rw [hbpOf] at hi
      rw [hbheap, hsqhdef, squash_chain_out_child pt b.heap p0 hcpnd i hi]
      exact hcpchild i (houtsub.subset hi)
    · rw [hbpOf]
      exact hcpnd.sublist houtsub
    · intro i hi
      rw [hbpOf] at hi
      rw [hbpidx]
      exact hcpfresh i (houtsub.subset hi)
    · rw [hbpath, List.length_set]
      exact hchlt

/-- The whole contig fold of `compress_path` preserves the `add_path`
invariant and the pending child's path. -/
theorem fold_cinv (child : Int) :
    ∀ (contigs : List (List (Nat × Nat))) (b : TSB) (bf : TSB),
      contigs.foldlM process_contig b = .ok bf →
      cinv b child → fold_sc child b contigs →
      cinv bf child ∧ pathOf bf child = pathOf b child := by
  intro contigs
  induction contigs with
  | nil =>
    intro b bf h hc _
    simp only [List.foldlM, pure, Except.pure, Except.ok.injEq] at h
    rw [← h]
    exact ⟨hc, rfl⟩
  | cons ct rest ih =>
    intro b bf h hc hfs
    simp only [List.foldlM_cons] at h
    rcases tsi_bind_ok _ _ _ h with ⟨b1, hb1, h2⟩
    obtain ⟨hsc1, hfs2⟩ := hfs
    rw [hb1] at hfs2
    obtain ⟨hc1, hp1⟩ := process_contig_cinv b child ct b1 hb1 hc hsc1
    obtain ⟨hc2, hp2⟩ := ih b1 bf h2 hc1 hfs2
    exact ⟨hc2, hp2.trans hp1⟩

/-- C2: after every successfully completed `add_path` call (with or without
compression) starting from a builder satisfying the index invariant with the
child's path still empty, the three indexes stay in exact one-entry-per-edge
correspondence: `|left_index| = |right_index| = |path_index| = Σ_c |path c|`,
and every edge on some `path c` is found in all three indexes.  The
compression branch additionally assumes the geometric side conditions
`fold_sc` about the contigs produced by the match scan. -/
theorem claim_C2 (b : TSB) (child : Int) (es : List (Int × Int × Int))
    (fl : AddPathFlags) (b' : TSB)
    (hok : tree_sequence_builder_add_path b child es fl = .ok b')
    (hinv : tsb_inv b)
    (hfresh : pathOf b child = [])
    (hc0 : 0 ≤ child)
    (hcl : child.toNat < b.path.length)
    (hsc : ∀ (r1 : TSB) (chain : List Nat),
      add_path_alloc b child (timeOf b child) es.reverse none [] = .ok (r1, chain) →
      fl.compress = true →
      fold_sc child (setPath r1 child chain)
        (scan_go (setPath r1 child chain) (pathOf (setPath r1 child chain) child)
          (-1) NULL_NODE [] [])) :
    tsb_inv b' ∧
    b'.left_index.length = b'.path_index.length ∧
    b'.right_index.length = b'.path_index.length ∧
    b'.path_index.length = (b'.path.map List.length).sum ∧
    (∀ (c : Int) (i : ℕ), i ∈ pathOf b' c →
      i ∈ b'.left_index ∧ i ∈ b'.right_index ∧ i ∈ b'.path_index) := by
  simp only [tree_sequence_builder_add_path] at hok
  split at hok
  · simp at hok
  · rcases tsi_bind_ok _ _ _ hok with ⟨r, hr, h2⟩
    obtain ⟨r1, chain⟩ := r
    have hcinv2 : cinv (setPath r1 child chain) child :=
      cinv_establish b child es.reverse r1 chain hinv hfresh hc0 hcl hr
    split at h2
    · -- compression on
      rename_i hcp
      rcases tsi_bind_ok _ _ _ h2 with ⟨b3, hb3, h3⟩
      simp only [Except.ok.injEq] at h3
      subst h3
      simp only [tree_sequence_builder_compress_path] at hb3
      rcases tsi_bind_ok _ _ _ hb3 with ⟨bf, hbf, hsq⟩
      have hfs := hsc r1 chain hr hcp
      obtain ⟨hcf, -⟩ := fold_cinv child _ _ bf hbf hcinv2 hfs
      have hb3inv : cinv b3 child := cinv_squash_edges bf child b3 hsq hcf
      have hti : tsb_inv (tree_sequence_builder_index_edges b3 child) :=
        cinv_index_edges b3 child hb3inv
      obtain ⟨f1, f2, f3, f4⟩ := tsb_inv_facts _ hti
      exact ⟨hti, f1, f2, f3, f4⟩
    · rcases tsi_bind_ok _ _ _ h2 with ⟨b3, hb3, h3⟩
      simp only [Except.ok.injEq] at h3
      subst h3
      simp only [pure, Except.pure, Except.ok.injEq] at hb3
      have hb3inv : cinv b3 child := by rw [← hb3]; exact hcinv2
      have hti : tsb_inv (tree_sequence_builder_index_edges b3 child) :=
        cinv_index_edges b3 child hb3inv
      obtain ⟨f1, f2, f3, f4⟩ := tsb_inv_facts _ hti
      exact ⟨hti, f1, f2, f3, f4⟩

/-- The allocation-phase result of the C2 witness run. -/
def c2w_r : TSB :=
  { time := [3, 1], node_flags := [0, 0], path := [[], []],
    heap := [(0, ⟨⟨0, 1, 0, 1⟩, 1⟩), (1, ⟨⟨1, 3, 0, 1⟩, 1⟩)], next_id := 2,
    left_index := [], right_index := [], path_index := [], num_edges := 0,
    left_index_edges := [], right_index_edges := [] }

/-- The final builder of the C2 witness run: the two contiguous same-parent
edges were squashed into one, which is indexed in all three indexes. -/
def c2w_out : TSB :=
  { time := [3, 1], node_flags := [0, 0], path := [[], [0]],
    heap := [(0, ⟨⟨0, 3, 0, 1⟩, 1⟩)], next_id := 2,
    left_index := [0], right_index := [0], path_index := [0], num_edges := 0,
    left_index_edges := [], right_index_edges := [] }

theorem claim_C2_witness :
    tree_sequence_builder_add_path tsb_two_nodes 1 [(1, 3, 0), (0, 1, 0)] ⟨true, false⟩ =
      .ok c2w_out ∧
    tsb_inv c2w_out ∧
    c2w_out.left_index.length = c2w_out.path_index.length ∧
    c2w_out.path_index.length = (c2w_out.path.map List.length).sum := by
  have hok : tree_sequence_builder_add_path tsb_two_nodes 1 [(1, 3, 0), (0, 1, 0)]
      ⟨true, false⟩ = .ok c2w_out := rfl
  have hmain := claim_C2 tsb_two_nodes 1 [(1, 3, 0), (0, 1, 0)] ⟨true, false⟩ c2w_out hok
    ⟨rfl, rfl, rfl, List.nodup_nil, by simp [tsb_two_nodes],
      by simp [tsb_two_nodes, heap_keys], rfl, by simp [tsb_two_nodes]⟩
    rfl (by decide) (by decide)
    (by
      intro r1 chain hr hcp
      have h1 : (Except.ok (c2w_r, [0, 1]) : TsiRes (TSB × List Nat)) =
          Except.ok (r1, chain) := hr
      injection h1 with h2
      injection h2 with h3 h4
      subst h3
      subst h4
      exact trivial)
  exact ⟨hok, hmain.1, hmain.2.1, hmain.2.2.2.1⟩
